import Mathlib

/-!
# PacketCommandsProccessor

A shallow embedding of `PacketCommandsProccessor.cpp`: the sparse matrix
`tools::MultidimensionalMatrix` (a trie with propagated value counts) and the
`Interpreter` built on it, followed by theorems about them.

Conventions of the embedding.

* A `char` is represented by the `size_t` index it converts to when it is used as a
  matrix index (`Sym`); the conversion is injective, so nothing is lost.
* Raw pointers to sub-matrices (`IMultidimensionalMatrix*`) are represented by the
  path of indices that leads from the root matrix to the pointee.  Sub-matrices are
  owned by `unique_ptr`s that are never reset and map entries are never erased, so a
  pointee is identified by its path.
* Pointers into `open_closed_subscribers` are represented by the key of the entry
  they point to (entries of an `unordered_map` never move and are never erased here).
* Callbacks are closures over state outside the interpreter; that outside state is the
  type parameter `W`.  A callback cannot reach the interpreter itself.
* `Interpreter.calls` is an observation log (not a field of the C++ class): every
  callback invocation appends one `Call` to it.
-/

namespace PacketCommands

/-- Symbol: a `char`, given by the `size_t` index it converts to. -/
abbrev Sym := Nat

/-- Contents of a `std::string`. -/
abbrev Buf := List Sym

namespace tools

/-- The `_dimensions` map of one matrix, entry by entry.  An entry is
`id ↦ (optional value, unique_ptr to the other dimension)`; `leaf` is an entry whose
pointer is null, `dim` an entry whose pointer owns a sub-matrix, stored by its own
`_dimensions` (`sub`) and `_count_of_values` (`subCount`). -/
inductive Dimensions (V : Type) : Type where
  | nil : Dimensions V
  | leaf (id : Nat) (val : Option V) (rest : Dimensions V) : Dimensions V
  | dim (id : Nat) (val : Option V) (sub : Dimensions V) (subCount : Nat)
      (rest : Dimensions V) : Dimensions V

/-- State of a `MultidimensionalMatrix<ElementType>` object. -/
structure MultidimensionalMatrix (V : Type) where
  _dimensions : Dimensions V
  _count_of_values : Nat

/-- What a `boost::signal` connected to the parent carries upwards. -/
inductive Signal where
  | silent : Signal
  | value_added : Signal
  | value_deleted : Signal
  deriving DecidableEq, Repr

namespace Dimensions

variable {V : Type}

/-- Test `_dimensions.find(id) != _dimensions.end()`. -/
def has : Dimensions V → Nat → Bool
  | nil, _ => false
  | leaf i _ rest, id => if i = id then true else rest.has id
  | dim i _ _ _ rest, id => if i = id then true else rest.has id

/-- Field `->second.first` of the entry for `id` (`none` also when there is no entry). -/
def first : Dimensions V → Nat → Option V
  | nil, _ => none
  | leaf i v rest, id => if i = id then v else rest.first id
  | dim i v _ _ rest, id => if i = id then v else rest.first id

/-- Field `->second.second` of the entry for `id`; `none` is the null pointer. -/
def second : Dimensions V → Nat → Option (MultidimensionalMatrix V)
  | nil, _ => none
  | leaf i _ rest, id => if i = id then none else rest.second id
  | dim i _ sub n rest, id => if i = id then some ⟨sub, n⟩ else rest.second id

/-- Store through the reference `->second.first` of the entry for `id`. -/
def setFirst : Dimensions V → Nat → Option V → Dimensions V
  | nil, _, _ => nil
  | leaf i v rest, id, w => if i = id then leaf i w rest else leaf i v (rest.setFirst id w)
  | dim i v sub n rest, id, w =>
    if i = id then dim i w sub n rest else dim i v sub n (rest.setFirst id w)

/-- Store through the reference `->second.second` of the entry for `id`. -/
def setSecond : Dimensions V → Nat → MultidimensionalMatrix V → Dimensions V
  | nil, _, _ => nil
  | leaf i v rest, id, m =>
    if i = id then dim i v m._dimensions m._count_of_values rest
    else leaf i v (rest.setSecond id m)
  | dim i v sub n rest, id, m =>
    if i = id then dim i v m._dimensions m._count_of_values rest
    else dim i v sub n (rest.setSecond id m)

/-- The private `_create_dim_if_required(id)`: emplace `(boost::none, nullptr)` when
`id` has no entry. -/
def _create_dim_if_required (d : Dimensions V) (id : Nat) : Dimensions V :=
  if d.has id then d else leaf id none d

/-- Number of entries of this map whose optional holds a value. -/
def occupied : Dimensions V → Nat
  | nil => 0
  | leaf _ v rest => (if v.isSome then 1 else 0) + rest.occupied
  | dim _ v _ _ rest => (if v.isSome then 1 else 0) + rest.occupied

/-- Sum of `size()` over the sub-matrices owned by this map. -/
def childSizes : Dimensions V → Nat
  | nil => 0
  | leaf _ _ rest => rest.childSizes
  | dim _ _ _ n rest => n + rest.childSizes

/-- Exhaustive walk: number of optionals holding a value in this map and in all
sub-matrices below it. -/
def occupiedBelow : Dimensions V → Nat
  | nil => 0
  | leaf _ v rest => (if v.isSome then 1 else 0) + rest.occupiedBelow
  | dim _ v sub _ rest => (if v.isSome then 1 else 0) + sub.occupiedBelow + rest.occupiedBelow

/-- Every sub-matrix at any depth below this map has a `_count_of_values` equal to the
number of values of its own entries plus the sizes of its own sub-matrices. -/
def CountsLocal : Dimensions V → Prop
  | nil => True
  | leaf _ _ rest => rest.CountsLocal
  | dim _ _ sub n rest => n = sub.occupied + sub.childSizes ∧ sub.CountsLocal ∧ rest.CountsLocal

/-- Every sub-matrix at any depth below this map has a `_count_of_values` equal to the
number of values found by walking its whole subtree. -/
def CountsBelow : Dimensions V → Prop
  | nil => True
  | leaf _ _ rest => rest.CountsBelow
  | dim _ _ sub n rest => n = sub.occupiedBelow ∧ sub.CountsBelow ∧ rest.CountsBelow

/-- Length of the run of sub-matrices with `size() > 0` reached by repeatedly taking
the dimension `c`. -/
def liveRun (c : Nat) : Dimensions V → Nat
  | nil => 0
  | leaf i _ rest => if i = c then 0 else rest.liveRun c
  | dim i _ sub n rest => if i = c then (if 0 < n then sub.liveRun c + 1 else 0) else rest.liveRun c

end Dimensions

namespace MultidimensionalMatrix

variable {V : Type}

/-- The default constructor: no entries, `_count_of_values{ 0 }`. -/
def empty : MultidimensionalMatrix V := ⟨Dimensions.nil, 0⟩

/-- Method `size()`. -/
def size (m : MultidimensionalMatrix V) : Nat := m._count_of_values

/-- The matrix after `operator[](id)`: the entry for `id` exists. -/
def subscript (m : MultidimensionalMatrix V) (id : Nat) : MultidimensionalMatrix V :=
  { m with _dimensions := m._dimensions._create_dim_if_required id }

/-- `Element::IsEmpty()` of the element `m[id]`. -/
def IsEmpty (m : MultidimensionalMatrix V) (id : Nat) : Bool :=
  (m._dimensions.first id).isNone

/-- The matrix after `operator()(id)`: the entry for `id` exists and owns a dimension
(a fresh one with count 0 when the pointer was null). -/
def call (m : MultidimensionalMatrix V) (id : Nat) : MultidimensionalMatrix V :=
  let d := m._dimensions._create_dim_if_required id
  match d.second id with
  | some _ => { m with _dimensions := d }
  | none => { m with _dimensions := d.setSecond id empty }

/-- The dimension that `operator()(id)` returns a reference to. -/
def sub (m : MultidimensionalMatrix V) (id : Nat) : MultidimensionalMatrix V :=
  match m._dimensions.second id with
  | some ch => ch
  | none => empty

/-- Write a new state into the dimension `id` owned by `m`. -/
def setSub (m : MultidimensionalMatrix V) (id : Nat) (ch : MultidimensionalMatrix V) :
    MultidimensionalMatrix V :=
  { m with _dimensions := m._dimensions.setSecond id ch }

/-- `OnValueAdded()`: `++_count_of_values` (the signal to the parent is the returned
`Signal` of the caller).  The increment is not reduced modulo `2 ^ 64`: every counted
value occupies memory of its own, so a count of `2 ^ 64` cannot be reached. -/
def OnValueAdded (m : MultidimensionalMatrix V) : MultidimensionalMatrix V :=
  { m with _count_of_values := m._count_of_values + 1 }

/-- `OnValueDeleted()`: `--_count_of_values` on a `size_t`, which wraps around at 0. -/
def OnValueDeleted (m : MultidimensionalMatrix V) : MultidimensionalMatrix V :=
  { m with _count_of_values :=
      if m._count_of_values = 0 then 2 ^ 64 - 1 else m._count_of_values - 1 }

/-- Run the slot connected to a child's signal. -/
def receive (m : MultidimensionalMatrix V) : Signal → MultidimensionalMatrix V
  | Signal.silent => m
  | Signal.value_added => m.OnValueAdded
  | Signal.value_deleted => m.OnValueDeleted

/-- `Element::operator=(val)` on the element `m[id]`: store, and fire
`_on_value_added` when the optional was empty. -/
def assign (id : Nat) (val : V) (m : MultidimensionalMatrix V) :
    MultidimensionalMatrix V × Signal :=
  let m1 := m.subscript id
  let were_empty := m1.IsEmpty id
  let m2 : MultidimensionalMatrix V :=
    { m1 with _dimensions := m1._dimensions.setFirst id (some val) }
  if were_empty then (m2.OnValueAdded, Signal.value_added) else (m2, Signal.silent)

/-- `Element::operator=(boost::none)` on the element `m[id]`. -/
def clear (id : Nat) (m : MultidimensionalMatrix V) :
    MultidimensionalMatrix V × Signal :=
  let m1 := m.subscript id
  let were_not_empty := !m1.IsEmpty id
  let m2 : MultidimensionalMatrix V :=
    { m1 with _dimensions := m1._dimensions.setFirst id none }
  if were_not_empty then (m2.OnValueDeleted, Signal.value_deleted) else (m2, Signal.silent)

/-- Perform `g` on the matrix reached from `m` by `m(i₁)(i₂)...(iₖ)` and let the signal
it fires run `OnValueAdded` / `OnValueDeleted` of every matrix on the way back to `m`.
For a path that already exists `operator()` changes nothing, so this is also the
access through a pointer obtained earlier by the same calls. -/
def atPath (g : MultidimensionalMatrix V → MultidimensionalMatrix V × Signal) :
    List Nat → MultidimensionalMatrix V → MultidimensionalMatrix V × Signal
  | [], m => g m
  | i :: p, m =>
    let m1 := m.call i
    let r := atPath g p (m1.sub i)
    (((m1.setSub i r.1).receive r.2), r.2)

/-- The matrix `m(i₁)(i₂)...(iₖ)` refers to. -/
def node : MultidimensionalMatrix V → List Nat → MultidimensionalMatrix V
  | m, [] => m
  | m, i :: p => (m.sub i).node p

/-- The matrix found at a path, without creating anything: `none` when some entry or
dimension on the way does not exist. -/
def node? : MultidimensionalMatrix V → List Nat → Option (MultidimensionalMatrix V)
  | m, [] => some m
  | m, i :: p =>
    match m._dimensions.second i with
    | some ch => ch.node? p
    | none => none

end MultidimensionalMatrix

end tools

open tools

/-- The type `Interpreter::callback_type`, a `std::function<void(std::string&)>`: a
closure that may change the outside state and the string it is handed. -/
abbrev callback_type (W : Type) := W → Buf → W × Buf

/-- The type `Interpreter::open_closed_callback_type`, a
`std::function<void(std::string&, bool)>`. -/
abbrev open_closed_callback_type (W : Type) := W → Buf → Bool → W × Buf

/-- One callback invocation, as observed from outside.  A sequence callback is named by
the slot it is stored in (the indices from the root matrix down to its element, i.e.
the subscribed sequence); a bracket callback by the key of its rule.  `received` is
`data` when the callback is entered, `left` is `data` when it returns. -/
inductive Call where
  | sequence (slot : List Sym) (received left : Buf) : Call
  | bracket (opening : Sym) (is_opening : Bool) (received left : Buf) : Call
  deriving DecidableEq, Repr

namespace Call

/-- The string handed to the callback. -/
def received : Call → Buf
  | sequence _ r _ => r
  | bracket _ _ r _ => r

/-- The string as the callback left it. -/
def left : Call → Buf
  | sequence _ _ l => l
  | bracket _ _ _ l => l

/-- Whether this is an invocation of a sequence callback. -/
def isSequence : Call → Bool
  | sequence _ _ _ => true
  | bracket _ _ _ _ => false

end Call

/-- State of an `Interpreter` object, together with the outside state `world` the
callbacks close over and the observation log `calls`. -/
structure Interpreter (W : Type) where
  data : Buf
  active_closing_subscribers : List (List Sym)
  closing_subscribers : MultidimensionalMatrix (callback_type W)
  active_open_closed_subscribers : List (Sym × Sym)
  open_closed_subscribers : List (Sym × (Sym × open_closed_callback_type W))
  world : W
  calls : List Call

namespace Interpreter

variable {W : Type}

/-- A freshly constructed `Interpreter`. -/
def fresh (w : W) : Interpreter W :=
  { data := [], active_closing_subscribers := [], closing_subscribers := MultidimensionalMatrix.empty,
    active_open_closed_subscribers := [], open_closed_subscribers := [], world := w, calls := [] }

/-- The call `((callback_type&)subscriber_callback)(data)` for the element stored
under `slot`. -/
def callSequence (s : Interpreter W) (slot : List Sym) (f : callback_type W) : Interpreter W :=
  let r := f s.world s.data
  { s with world := r.1, data := r.2, calls := s.calls ++ [Call.sequence slot s.data r.2] }

/-- The call `subscriber->second(data, flag)` for the rule with key `opening`. -/
def callBracket (s : Interpreter W) (opening : Sym) (flag : Bool)
    (f : open_closed_callback_type W) : Interpreter W :=
  let r := f s.world s.data flag
  { s with world := r.1, data := r.2, calls := s.calls ++ [Call.bracket opening flag s.data r.2] }

/-- `Subscribe(std::string, callback_type)`: walk `current_dim` down by `operator()`
for all characters but the last and assign `fun` to the element of the last one.
The empty string violates the `assert` (and would index out of bounds): `none`. -/
def Subscribe (s : Interpreter W) (call_when_meet_me : List Sym) (f : callback_type W) :
    Option (Interpreter W) :=
  match call_when_meet_me.getLast? with
  | none => none
  | some back =>
    some { s with closing_subscribers :=
      (MultidimensionalMatrix.atPath (MultidimensionalMatrix.assign back f)
        call_when_meet_me.dropLast s.closing_subscribers).1 }

/-- The statement `open_closed_subscribers[open] = value`: overwrite the entry for
`open` in place, or insert it. -/
def setRule : List (Sym × (Sym × open_closed_callback_type W)) → Sym →
    (Sym × open_closed_callback_type W) → List (Sym × (Sym × open_closed_callback_type W))
  | [], o, v => [(o, v)]
  | (k, w) :: rest, o, v => if k = o then (k, v) :: rest else (k, w) :: setRule rest o v

/-- `Subscribe(char open, char close, open_closed_callback_type)`. -/
def SubscribePair (s : Interpreter W) (o cl : Sym) (f : open_closed_callback_type W) :
    Interpreter W :=
  { s with open_closed_subscribers := setRule s.open_closed_subscribers o (cl, f) }

/-- `_SubscriberBeginningMeet`: `active_closing_subscribers.push_back(subscribers)`. -/
def _SubscriberBeginningMeet (s : Interpreter W) (subscribers : List Sym) : Interpreter W :=
  { s with active_closing_subscribers := s.active_closing_subscribers ++ [subscribers] }

/-- First loop of `_NotifySubscribersAndEraseIfNoMoreInDimension`: for every active
pointer take `(*subscribers)[c]` and call the callback when the element is not empty.
The list is not changed while this loop runs. -/
def notifyLoop (c : Sym) : List (List Sym) → Interpreter W → Interpreter W
  | [], s => s
  | p :: rest, s =>
    let root := (MultidimensionalMatrix.atPath (fun m => (m.subscript c, Signal.silent)) p
      s.closing_subscribers).1
    let s1 := { s with closing_subscribers := root }
    match (root.node p)._dimensions.first c with
    | some f => notifyLoop c rest (s1.callSequence (p ++ [c]) f)
    | none => notifyLoop c rest s1

/-- Second loop of `_NotifySubscribersAndEraseIfNoMoreInDimension`.  It is a range-for
over the `std::list` `active_closing_subscribers` whose body does `push_back` on that
same list; list iterators stay valid and `end()` is the list's sentinel, so the pointers
pushed by the body are visited by the same loop.  `pending` is the part of the list
still ahead of the iterator, `active` the whole list, `to_remove` the local list.
The function gives `none` when `fuel` iterations do not finish the loop. -/
def advanceLoop (c : Sym) : Nat → MultidimensionalMatrix (callback_type W) →
    List (List Sym) → List (List Sym) → List (List Sym) →
    Option (MultidimensionalMatrix (callback_type W) × List (List Sym) × List (List Sym))
  | _, root, [], active, to_remove => some (root, active, to_remove)
  | 0, _, _ :: _, _, _ => none
  | fuel + 1, root, p :: rest, active, to_remove =>
    let root1 := (MultidimensionalMatrix.atPath (fun m => (m.call c, Signal.silent)) p root).1
    if 0 < (root1.node (p ++ [c])).size then
      advanceLoop c fuel root1 (rest ++ [p ++ [c]]) (active ++ [p ++ [c]]) to_remove
    else
      advanceLoop c fuel root1 rest active (to_remove ++ [p])

/-- Number of iterations the second loop is given: one for every pointer in the list
and one more for every sub-matrix in the run of non-empty dimensions `c` below it. -/
def advanceFuel (c : Sym) (root : MultidimensionalMatrix (callback_type W))
    (pending : List (List Sym)) : Nat :=
  (pending.map (fun p => (root.node p)._dimensions.liveRun c + 1)).sum

/-- Third loop: `active_closing_subscribers.remove(subscribers)` for every pointer in
`to_remove`; `std::list::remove` erases all elements equal to its argument. -/
def removeAll (active to_remove : List (List Sym)) : List (List Sym) :=
  to_remove.foldl (fun l p => l.filter (fun q => decide (q ≠ p))) active

/-- The function `_NotifySubscribersAndEraseIfNoMoreInDimension(c)`. -/
def _NotifySubscribersAndEraseIfNoMoreInDimension (s : Interpreter W) (c : Sym) :
    Option (Interpreter W) :=
  let s1 := notifyLoop c s.active_closing_subscribers s
  match advanceLoop c (advanceFuel c s1.closing_subscribers s1.active_closing_subscribers)
      s1.closing_subscribers s1.active_closing_subscribers s1.active_closing_subscribers [] with
  | none => none
  | some (root, active, to_remove) =>
    some { s1 with closing_subscribers := root,
                   active_closing_subscribers := removeAll active to_remove }

/-- First block of `Interpret(c)`, the sequence matcher; the `Bool` is the value of the
local `any_notified` at the end of the block. -/
def matchSequences (s : Interpreter W) (c : Sym) : Option (Interpreter W × Bool) :=
  let s0 := { s with closing_subscribers := s.closing_subscribers.subscript c }
  let s1 := if s0.closing_subscribers.IsEmpty c then s0 else s0._SubscriberBeginningMeet []
  let notified : Option (Interpreter W × Bool) :=
    if s1.active_closing_subscribers.isEmpty then some (s1, false)
    else (s1._NotifySubscribersAndEraseIfNoMoreInDimension c).map (fun t => (t, true))
  match notified with
  | none => none
  | some (s2, any_notified) =>
    let s3 := { s2 with closing_subscribers := s2.closing_subscribers.call c }
    if 0 < (s3.closing_subscribers.sub c).size then
      some (s3._SubscriberBeginningMeet [c], any_notified)
    else some (s3, any_notified)

/-- `_OpenClosedSubscriberOpeningMeet(c, opening, subscriber)`: push the instance, then
call the rule's callback with `true`. -/
def _OpenClosedSubscriberOpeningMeet (s : Interpreter W) (opening : Sym)
    (f : open_closed_callback_type W) : Interpreter W :=
  let s1 := { s with active_open_closed_subscribers :=
                s.active_open_closed_subscribers ++ [(opening, opening)] }
  s1.callBracket opening true f

/-- First loop of `_NotifyOpenClosedSubscribersAndEraseIfNoMoreInDimension`: call, once
per rule, the callback of every open instance whose rule closes with `c`.  `notified`
holds the keys of the local `unordered_map`.  An instance always points to an existing
rule; the `none` branch keeps the function total. -/
def closeLoop (c : Sym) : List (Sym × Sym) → Interpreter W → List Sym → Interpreter W × List Sym
  | [], s, notified => (s, notified)
  | inst :: rest, s, notified =>
    match s.open_closed_subscribers.lookup inst.2 with
    | some rule =>
      if rule.1 = c then
        if inst.2 ∈ notified then closeLoop c rest s notified
        else closeLoop c rest (s.callBracket inst.2 false rule.2) (notified ++ [inst.2])
      else closeLoop c rest s notified
    | none => closeLoop c rest s notified

/-- Second loop: for every notified rule, `find_if` the first instance pointing to it
and `erase` that one.  (The iteration order of the `unordered_map` is unspecified; the
erasures for different rules do not interfere.) -/
def eraseNotified (active : List (Sym × Sym)) (notified : List Sym) : List (Sym × Sym) :=
  notified.foldl (fun l r => l.eraseP (fun inst => decide (inst.2 = r))) active

/-- The function `_NotifyOpenClosedSubscribersAndEraseIfNoMoreInDimension(c)`; the
`Bool` is its result `!notified.empty()`. -/
def _NotifyOpenClosedSubscribersAndEraseIfNoMoreInDimension (s : Interpreter W) (c : Sym) :
    Interpreter W × Bool :=
  let r := closeLoop c s.active_open_closed_subscribers s []
  ({ r.1 with active_open_closed_subscribers :=
        eraseNotified r.1.active_open_closed_subscribers r.2 }, !r.2.isEmpty)

/-- Second block of `Interpret(c)` and the rest of the function, entered with the value
of `any_notified`. -/
def interpretBrackets (s : Interpreter W) (c : Sym) (any_notified : Bool) : Interpreter W :=
  let r : Interpreter W × Bool :=
    if s.open_closed_subscribers.isEmpty then (s, false)
    else s._NotifyOpenClosedSubscribersAndEraseIfNoMoreInDimension c
  match r.1.open_closed_subscribers.lookup c with
  | some rule => r.1._OpenClosedSubscriberOpeningMeet c rule.2
  | none =>
    if r.2 then r.1
    else if any_notified || !r.1.active_closing_subscribers.isEmpty then r.1
    else { r.1 with data := r.1.data ++ [c] }

/-- The function `Interpret(char c)`. -/
def Interpret (s : Interpreter W) (c : Sym) : Option (Interpreter W) :=
  (s.matchSequences c).map (fun r => interpretBrackets r.1 c r.2)

/-- Feed a whole text, one `Interpret` per character. -/
def feed : Interpreter W → List Sym → Option (Interpreter W)
  | s, [] => some s
  | s, c :: cs =>
    match s.Interpret c with
    | some s1 => feed s1 cs
    | none => none

/-- The calls made while feeding `text` from state `s` (those logged after the ones
already in `s.calls`). -/
def callsDuring (s : Interpreter W) (text : List Sym) : Option (List Call) :=
  (s.feed text).map (fun t => t.calls.drop s.calls.length)

end Interpreter

namespace tools

/-- One use of the public interface of a matrix, on the matrix reached from the root
by `operator()` along `path`. -/
inductive Op (V : Type) : Type where
  | subscript (path : List Nat) (id : Nat) : Op V
  | call (path : List Nat) (id : Nat) : Op V
  | assign (path : List Nat) (id : Nat) (val : V) : Op V
  | clear (path : List Nat) (id : Nat) : Op V

namespace Op

variable {V : Type}

/-- The root matrix after the operation. -/
def run (m : MultidimensionalMatrix V) : Op V → MultidimensionalMatrix V
  | subscript p id =>
    (MultidimensionalMatrix.atPath (fun n => (n.subscript id, Signal.silent)) p m).1
  | call p id => (MultidimensionalMatrix.atPath (fun n => (n.call id, Signal.silent)) p m).1
  | assign p id val => (MultidimensionalMatrix.atPath (MultidimensionalMatrix.assign id val) p m).1
  | clear p id => (MultidimensionalMatrix.atPath (MultidimensionalMatrix.clear id) p m).1

/-- The root matrix after a sequence of operations. -/
def runAll (m : MultidimensionalMatrix V) (ops : List (Op V)) : MultidimensionalMatrix V :=
  ops.foldl run m

end Op

/-- The change of `_count_of_values` that goes with a signal. -/
def Signal.Adjusts : Signal → Nat → Nat → Prop
  | Signal.silent, before, after => after = before
  | Signal.value_added, before, after => after = before + 1
  | Signal.value_deleted, before, after => after + 1 = before

/-- The count of a matrix is the number of values of its own entries plus the sizes of
its sub-matrices, and the same holds in every sub-matrix below it. -/
def MultidimensionalMatrix.Counted {V : Type} (m : MultidimensionalMatrix V) : Prop :=
  m._count_of_values = m._dimensions.occupied + m._dimensions.childSizes ∧
    m._dimensions.CountsLocal

end tools

namespace tools

/-- Two matrices hold the same counts and the same values at every path (they may differ
in which empty entries and empty sub-matrices have been created). -/
def MultidimensionalMatrix.SameContent {V : Type} (a b : MultidimensionalMatrix V) : Prop :=
  ∀ q : List Nat, (a.node q)._count_of_values = (b.node q)._count_of_values ∧
    ∀ d : Nat, (a.node q)._dimensions.first d = (b.node q)._dimensions.first d

end tools

/-- The string is handed from one call to the next untouched: the first call receives
`d`, every later call receives what the call before it left, and `d1` is what the last
call left (`d` itself when there is no call). -/
def Threads : Buf → List Call → Buf → Prop
  | d, [], d1 => d1 = d
  | d, e :: es, d1 => e.received = d ∧ Threads e.left es d1

/-- A sequence callback that records the string it receives (in the outside state) and
then empties it, like `pack_command` of `main` moving `data` away. -/
def recordAndEmpty : callback_type (List Buf) := fun w d => (w ++ [d], [])

/-- The text `w1 "\r\n" w2 "\r\n" ... wn "\r\n"`. -/
def terminated : List Buf → List Sym
  | [] => []
  | w :: ws => w ++ [13, 10] ++ terminated ws

/-- A bracket callback that records the string and the flag it receives (in the outside
state) and then empties the string. -/
def recordBracket : open_closed_callback_type (List (Buf × Bool)) :=
  fun w d flag => (w ++ [(d, flag)], [])

/-- Which bracket rule a call is for and with which flag; `none` for a sequence call. -/
def Call.bracketEvent : Call → Option (Sym × Bool)
  | Call.bracket o flag _ _ => some (o, flag)
  | Call.sequence _ _ _ => none

namespace tools

namespace MultidimensionalMatrix

variable {V : Type}

/-- Every matrix that exists in `a` (at some path, found without creating anything) also
exists in `b` at the same path, with at least the entries it has in `a`. -/
def Within (a b : MultidimensionalMatrix V) : Prop :=
  ∀ (p : List Nat) (n : MultidimensionalMatrix V), a.node? p = some n →
    ∃ n1, b.node? p = some n1 ∧
      ∀ id : Nat, n._dimensions.has id = true → n1._dimensions.has id = true

/-- The terminal slot of a sequence: descend from `m` by `operator()` for all symbols but
the last and read the element of the last one.  `none` is an empty element (also for the
empty sequence, which has no slot). -/
def terminal (m : MultidimensionalMatrix V) (seq : List Nat) : Option V :=
  match seq.getLast? with
  | none => none
  | some back => (m.node seq.dropLast)._dimensions.first back

end MultidimensionalMatrix

end tools

namespace Interpreter

variable {W : Type}

/-- Whether the rule stored under key `r` exists and has the closing symbol `c`
(the test `subscribers.second->first == c` for an instance pointing to that rule). -/
def closesWith (rules : List (Sym × (Sym × open_closed_callback_type W))) (c r : Sym) : Bool :=
  match rules.lookup r with
  | some rule => decide (rule.1 = c)
  | none => false

/-- Number of open instances that point to the rule with key `r`. -/
def openCount (insts : List (Sym × Sym)) (r : Sym) : Nat :=
  insts.countP (fun inst => decide (inst.2 = r))

end Interpreter

/-- Number of calls, in a log, of the callback of rule `r` with `is_opening = flag`. -/
def bracketCalls (r : Sym) (flag : Bool) (calls : List Call) : Nat :=
  (calls.map Call.bracketEvent).count (some (r, flag))

/-- The slot of a sequence call; `none` for a bracket call. -/
def Call.slot? : Call → Option (List Sym)
  | Call.sequence slot _ _ => some slot
  | Call.bracket _ _ _ _ => none

/-- The slots of the sequence callbacks called in a log, in the order of the calls. -/
def sequenceSlots (calls : List Call) : List (List Sym) :=
  calls.filterMap Call.slot?

namespace Interpreter

variable {W : Type}

/-- Whether the matrix a pointer refers to holds a callback at `c`
(`!(*subscribers)[c].IsEmpty()`). -/
def completesAt (root : tools.MultidimensionalMatrix (callback_type W)) (c : Sym)
    (p : List Sym) : Bool :=
  ((root.node p)._dimensions.first c).isSome

/-- The list the first loop of `_NotifySubscribersAndEraseIfNoMoreInDimension` runs over:
the active pointers in list order, followed by the root when `Interpret` has just pushed
it for a one-character match. -/
def notifiedPointers (s : Interpreter W) (c : Sym) : List (List Sym) :=
  s.active_closing_subscribers ++
    (if (s.closing_subscribers._dimensions.first c).isSome then [[]] else [])

end Interpreter


/-- An interpreter in which `"ab"` and `"c"` were registered and the value of `"ab"` was then
cleared (`element = boost::none`), while a pointer to the matrix behind `'a'` is still
active. -/
def clearedBranch : Interpreter Unit :=
  { Interpreter.fresh () with
    closing_subscribers :=
      tools.Op.runAll tools.MultidimensionalMatrix.empty
        [tools.Op.assign [97] 98 (fun v d => (v, d)), tools.Op.assign [] 99 (fun v d => (v, d)),
          tools.Op.clear [97] 98],
    active_closing_subscribers := [[97]] }

/-- What a logged call does to the outside state and the string: the callback found in the
slot (for a sequence call) or in the rule (for a bracket call, with the logged flag) is
applied to them.  A call whose slot or rule holds nothing changes nothing. -/
def Call.run {W : Type} (root : tools.MultidimensionalMatrix (callback_type W))
    (rules : List (Sym × (Sym × open_closed_callback_type W))) : Call → W × Buf → W × Buf
  | Call.sequence slot _ _, wd =>
    match root.terminal slot with
    | some f => f wd.1 wd.2
    | none => wd
  | Call.bracket r flag _ _, wd =>
    match rules.lookup r with
    | some rule => rule.2 wd.1 wd.2 flag
    | none => wd

/-- The outside state and the string after the callbacks of a log have run one after the
other, each on what the one before it left. -/
def runCalls {W : Type} (root : tools.MultidimensionalMatrix (callback_type W))
    (rules : List (Sym × (Sym × open_closed_callback_type W))) (calls : List Call)
    (wd : W × Buf) : W × Buf :=
  calls.foldl (fun acc e => e.run root rules acc) wd

/-- The open instances with, for every rule that `closes`, its oldest instance (the first
one in the list) taken out; all other instances stay in their order.  `seen` holds the
rules whose oldest instance has already been passed. -/
def eraseOldestOfEach (closes : Sym → Bool) : List Sym → List (Sym × Sym) → List (Sym × Sym)
  | _, [] => []
  | seen, inst :: rest =>
    if closes inst.2 = true ∧ inst.2 ∉ seen then eraseOldestOfEach closes (seen ++ [inst.2]) rest
    else inst :: eraseOldestOfEach closes seen rest

/-- A sequence callback that counts its calls in the outside state and leaves the string
as it is. -/
def countCall : callback_type Nat := fun w d => (w + 1, d)
/-! ## Theorems -/

namespace tools

namespace Dimensions

variable {V : Type}

theorem has_create (d : Dimensions V) (id : Nat) :
    (d._create_dim_if_required id).has id = true := by
  unfold _create_dim_if_required
  by_cases h : d.has id = true
  · simp [h]
  · simp [h, has]

theorem has_create_of_has (d : Dimensions V) (id j : Nat) (h : d.has j = true) :
    (d._create_dim_if_required id).has j = true := by
  unfold _create_dim_if_required
  by_cases h1 : d.has id = true
  · simp [h1, h]
  · simp [h1, has, h]

theorem first_eq_none_of_not_has (d : Dimensions V) (id : Nat) (h : d.has id = false) :
    d.first id = none := by
  induction d with
  | nil => rfl
  | leaf i v rest ih =>
    by_cases e : i = id
    · simp [has, e] at h
    · simp [has, e] at h; simp [first, e, ih h]
  | dim i v sub n rest _ ih =>
    by_cases e : i = id
    · simp [has, e] at h
    · simp [has, e] at h; simp [first, e, ih h]

theorem second_eq_none_of_not_has (d : Dimensions V) (id : Nat) (h : d.has id = false) :
    d.second id = none := by
  induction d with
  | nil => rfl
  | leaf i v rest ih =>
    by_cases e : i = id
    · simp [has, e] at h
    · simp [has, e] at h; simp [second, e, ih h]
  | dim i v sub n rest _ ih =>
    by_cases e : i = id
    · simp [has, e] at h
    · simp [has, e] at h; simp [second, e, ih h]

theorem first_create (d : Dimensions V) (id j : Nat) :
    (d._create_dim_if_required id).first j = d.first j := by
  unfold _create_dim_if_required
  by_cases h : d.has id = true
  · simp [h]
  · by_cases e : id = j
    · subst e
      simp only [Bool.not_eq_true] at h
      simp [h, first, first_eq_none_of_not_has d id h]
    · simp [h, first, e]

theorem second_create (d : Dimensions V) (id j : Nat) :
    (d._create_dim_if_required id).second j = d.second j := by
  unfold _create_dim_if_required
  by_cases h : d.has id = true
  · simp [h]
  · by_cases e : id = j
    · subst e
      simp only [Bool.not_eq_true] at h
      simp [h, second, second_eq_none_of_not_has d id h]
    · simp [h, second, e]

theorem occupied_create (d : Dimensions V) (id : Nat) :
    (d._create_dim_if_required id).occupied = d.occupied := by
  unfold _create_dim_if_required
  by_cases h : d.has id = true <;> simp [h, occupied]

theorem childSizes_create (d : Dimensions V) (id : Nat) :
    (d._create_dim_if_required id).childSizes = d.childSizes := by
  unfold _create_dim_if_required
  by_cases h : d.has id = true <;> simp [h, childSizes]

theorem CountsLocal_create (d : Dimensions V) (id : Nat) (h : d.CountsLocal) :
    (d._create_dim_if_required id).CountsLocal := by
  unfold _create_dim_if_required
  by_cases h1 : d.has id = true <;> simp [h1, CountsLocal, h]

theorem has_setSecond (d : Dimensions V) (id j : Nat) (ch : MultidimensionalMatrix V) :
    (d.setSecond id ch).has j = d.has j := by
  induction d with
  | nil => rfl
  | leaf i v rest ih => by_cases e : i = id <;> simp [setSecond, has, e, ih]
  | dim i v sub n rest _ ih => by_cases e : i = id <;> simp [setSecond, has, e, ih]

theorem first_setSecond (d : Dimensions V) (id j : Nat) (ch : MultidimensionalMatrix V) :
    (d.setSecond id ch).first j = d.first j := by
  induction d with
  | nil => rfl
  | leaf i v rest ih => by_cases e : i = id <;> simp [setSecond, first, e, ih]
  | dim i v sub n rest _ ih => by_cases e : i = id <;> simp [setSecond, first, e, ih]

theorem second_setSecond_same (d : Dimensions V) (id : Nat) (ch : MultidimensionalMatrix V)
    (h : d.has id = true) : (d.setSecond id ch).second id = some ch := by
  induction d with
  | nil => simp [has] at h
  | leaf i v rest ih =>
    by_cases e : i = id
    · simp [setSecond, second, e]
    · simp [has, e] at h; simp [setSecond, second, e, ih h]
  | dim i v sub n rest _ ih =>
    by_cases e : i = id
    · simp [setSecond, second, e]
    · simp [has, e] at h; simp [setSecond, second, e, ih h]

theorem second_setSecond_other (d : Dimensions V) (id j : Nat) (ch : MultidimensionalMatrix V)
    (hne : id ≠ j) : (d.setSecond id ch).second j = d.second j := by
  induction d with
  | nil => rfl
  | leaf i v rest ih =>
    by_cases e : i = id
    · subst e; simp [setSecond, second, hne]
    · simp [setSecond, second, e, ih]
  | dim i v sub n rest _ ih =>
    by_cases e : i = id
    · subst e; simp [setSecond, second, hne]
    · simp [setSecond, second, e, ih]

theorem occupied_setSecond (d : Dimensions V) (id : Nat) (ch : MultidimensionalMatrix V) :
    (d.setSecond id ch).occupied = d.occupied := by
  induction d with
  | nil => rfl
  | leaf i v rest ih => by_cases e : i = id <;> simp [setSecond, occupied, e, ih]
  | dim i v sub n rest _ ih => by_cases e : i = id <;> simp [setSecond, occupied, e, ih]

theorem childSizes_setSecond (d : Dimensions V) (id : Nat) (ch : MultidimensionalMatrix V)
    (h : d.has id = true) :
    (d.setSecond id ch).childSizes +
        (match d.second id with
          | some old => old._count_of_values
          | none => 0) =
      d.childSizes + ch._count_of_values := by
  induction d with
  | nil => simp [has] at h
  | leaf i v rest ih =>
    by_cases e : i = id
    · simp [setSecond, second, childSizes, e]; omega
    · simp [has, e] at h
      have := ih h
      simp [setSecond, second, childSizes, e]; omega
  | dim i v sub n rest _ ih =>
    by_cases e : i = id
    · simp [setSecond, second, childSizes, e]; omega
    · simp [has, e] at h
      have := ih h
      simp [setSecond, second, childSizes, e]; omega

theorem CountsLocal_setSecond (d : Dimensions V) (id : Nat) (ch : MultidimensionalMatrix V)
    (hd : d.CountsLocal) (hc : ch.Counted) : (d.setSecond id ch).CountsLocal := by
  induction d with
  | nil => trivial
  | leaf i v rest ih =>
    by_cases e : i = id
    · simp only [setSecond, e, if_true, CountsLocal]
      exact ⟨hc.1, hc.2, hd⟩
    · simp only [setSecond, e, if_false, CountsLocal]
      exact ih hd
  | dim i v sub n rest _ ih =>
    by_cases e : i = id
    · simp only [setSecond, e, if_true, CountsLocal]
      exact ⟨hc.1, hc.2, hd.2.2⟩
    · simp only [setSecond, e, if_false, CountsLocal]
      exact ⟨hd.1, hd.2.1, ih hd.2.2⟩

theorem Counted_of_second (d : Dimensions V) (id : Nat) (ch : MultidimensionalMatrix V)
    (hd : d.CountsLocal) (hs : d.second id = some ch) : ch.Counted := by
  induction d with
  | nil => simp [second] at hs
  | leaf i v rest ih =>
    by_cases e : i = id
    · simp [second, e] at hs
    · simp only [second, e, if_false] at hs
      exact ih hd hs
  | dim i v sub n rest _ ih =>
    by_cases e : i = id
    · simp only [second, e, if_true, Option.some.injEq] at hs
      subst hs
      exact ⟨hd.1, hd.2.1⟩
    · simp only [second, e, if_false] at hs
      exact ih hd.2.2 hs

theorem has_setFirst (d : Dimensions V) (id j : Nat) (w : Option V) :
    (d.setFirst id w).has j = d.has j := by
  induction d with
  | nil => rfl
  | leaf i v rest ih => by_cases e : i = id <;> simp [setFirst, has, e, ih]
  | dim i v sub n rest _ ih => by_cases e : i = id <;> simp [setFirst, has, e, ih]

theorem second_setFirst (d : Dimensions V) (id j : Nat) (w : Option V) :
    (d.setFirst id w).second j = d.second j := by
  induction d with
  | nil => rfl
  | leaf i v rest ih => by_cases e : i = id <;> simp [setFirst, second, e, ih]
  | dim i v sub n rest _ ih => by_cases e : i = id <;> simp [setFirst, second, e, ih]

theorem first_setFirst_same (d : Dimensions V) (id : Nat) (w : Option V)
    (h : d.has id = true) : (d.setFirst id w).first id = w := by
  induction d with
  | nil => simp [has] at h
  | leaf i v rest ih =>
    by_cases e : i = id
    · simp [setFirst, first, e]
    · simp [has, e] at h; simp [setFirst, first, e, ih h]
  | dim i v sub n rest _ ih =>
    by_cases e : i = id
    · simp [setFirst, first, e]
    · simp [has, e] at h; simp [setFirst, first, e, ih h]

theorem first_setFirst_other (d : Dimensions V) (id j : Nat) (w : Option V)
    (hne : id ≠ j) : (d.setFirst id w).first j = d.first j := by
  induction d with
  | nil => rfl
  | leaf i v rest ih =>
    by_cases e : i = id
    · subst e; simp [setFirst, first, hne]
    · simp [setFirst, first, e, ih]
  | dim i v sub n rest _ ih =>
    by_cases e : i = id
    · subst e; simp [setFirst, first, hne]
    · simp [setFirst, first, e, ih]

theorem childSizes_setFirst (d : Dimensions V) (id : Nat) (w : Option V) :
    (d.setFirst id w).childSizes = d.childSizes := by
  induction d with
  | nil => rfl
  | leaf i v rest ih => by_cases e : i = id <;> simp [setFirst, childSizes, e, ih]
  | dim i v sub n rest _ ih => by_cases e : i = id <;> simp [setFirst, childSizes, e, ih]

theorem CountsLocal_setFirst (d : Dimensions V) (id : Nat) (w : Option V)
    (hd : d.CountsLocal) : (d.setFirst id w).CountsLocal := by
  induction d with
  | nil => trivial
  | leaf i v rest ih =>
    by_cases e : i = id
    · simp only [setFirst, e, if_true, CountsLocal]; exact hd
    · simp only [setFirst, e, if_false, CountsLocal]; exact ih hd
  | dim i v sub n rest _ ih =>
    by_cases e : i = id
    · simp only [setFirst, e, if_true, CountsLocal]; exact hd
    · simp only [setFirst, e, if_false, CountsLocal]; exact ⟨hd.1, hd.2.1, ih hd.2.2⟩

theorem occupied_setFirst (d : Dimensions V) (id : Nat) (w : Option V)
    (h : d.has id = true) :
    (d.setFirst id w).occupied + (if (d.first id).isSome then 1 else 0) =
      d.occupied + (if w.isSome then 1 else 0) := by
  induction d with
  | nil => simp [has] at h
  | leaf i v rest ih =>
    by_cases e : i = id
    · simp only [setFirst, first, occupied, e, if_true]; omega
    · simp [has, e] at h
      have := ih h
      simp only [setFirst, first, occupied, e, if_false]; omega
  | dim i v sub n rest _ ih =>
    by_cases e : i = id
    · simp only [setFirst, first, occupied, e, if_true]; omega
    · simp [has, e] at h
      have := ih h
      simp only [setFirst, first, occupied, e, if_false]; omega

/-- Local counting implies counting by exhaustive walk, at every depth. -/
theorem below_of_local (d : Dimensions V) (h : d.CountsLocal) :
    d.occupied + d.childSizes = d.occupiedBelow ∧ d.CountsBelow := by
  induction d with
  | nil => exact ⟨rfl, trivial⟩
  | leaf i v rest ih =>
    have := ih h
    refine ⟨?_, this.2⟩
    simp only [occupied, childSizes, occupiedBelow]; omega
  | dim i v sub n rest ihs ih =>
    obtain ⟨h1, h2, h3⟩ := h
    have a := ihs h2
    have b := ih h3
    refine ⟨?_, ⟨by omega, a.2, b.2⟩⟩
    simp only [occupied, childSizes, occupiedBelow]; omega

end Dimensions

end tools

namespace tools

namespace MultidimensionalMatrix

variable {V : Type}

theorem Counted_empty : (empty : MultidimensionalMatrix V).Counted :=
  ⟨rfl, trivial⟩

theorem Counted_subscript (m : MultidimensionalMatrix V) (id : Nat) (h : m.Counted) :
    (m.subscript id).Counted := by
  refine ⟨?_, Dimensions.CountsLocal_create _ _ h.2⟩
  simp only [subscript, Dimensions.occupied_create, Dimensions.childSizes_create]
  exact h.1

theorem call_dimensions (m : MultidimensionalMatrix V) (id : Nat) :
    (m.call id)._dimensions =
      match (m._dimensions._create_dim_if_required id).second id with
      | some _ => m._dimensions._create_dim_if_required id
      | none => (m._dimensions._create_dim_if_required id).setSecond id empty := by
  cases h : (m._dimensions._create_dim_if_required id).second id <;> simp [call, h]

theorem call_count (m : MultidimensionalMatrix V) (id : Nat) :
    (m.call id)._count_of_values = m._count_of_values := by
  cases h : (m._dimensions._create_dim_if_required id).second id <;> simp [call, h]

theorem call_has (m : MultidimensionalMatrix V) (id : Nat) :
    (m.call id)._dimensions.has id = true := by
  rw [call_dimensions]
  cases (m._dimensions._create_dim_if_required id).second id with
  | none => simp [Dimensions.has_setSecond, Dimensions.has_create]
  | some ch => simp [Dimensions.has_create]

theorem Counted_call (m : MultidimensionalMatrix V) (id : Nat) (h : m.Counted) :
    (m.call id).Counted := by
  have hc := Dimensions.CountsLocal_create m._dimensions id h.2
  have ho := Dimensions.occupied_create m._dimensions id
  have hs := Dimensions.childSizes_create m._dimensions id
  have hh := Dimensions.has_create m._dimensions id
  constructor
  · rw [call_count, call_dimensions]
    cases hsec : (m._dimensions._create_dim_if_required id).second id with
    | none =>
      have := Dimensions.childSizes_setSecond _ id (empty : MultidimensionalMatrix V) hh
      rw [hsec] at this
      simp only [Dimensions.occupied_setSecond, ho]
      simp only [empty] at this ⊢
      have h1 := h.1
      omega
    | some ch =>
      simp only [ho, hs]
      exact h.1
  · rw [call_dimensions]
    cases hsec : (m._dimensions._create_dim_if_required id).second id with
    | none => exact Dimensions.CountsLocal_setSecond _ _ _ hc Counted_empty
    | some ch => exact hc

theorem Counted_sub (m : MultidimensionalMatrix V) (id : Nat) (h : m.Counted) :
    (m.sub id).Counted := by
  unfold sub
  cases hsec : m._dimensions.second id with
  | none => exact Counted_empty
  | some ch => exact Dimensions.Counted_of_second _ _ _ h.2 hsec

theorem Counted_assign (id : Nat) (val : V) (m : MultidimensionalMatrix V) (h : m.Counted) :
    (assign id val m).1.Counted ∧
      (assign id val m).2.Adjusts m._count_of_values (assign id val m).1._count_of_values := by
  have h1 := Counted_subscript m id h
  have hh : (m.subscript id)._dimensions.has id = true := Dimensions.has_create _ _
  have ho := Dimensions.occupied_setFirst (m.subscript id)._dimensions id (some val) hh
  have hcs := Dimensions.childSizes_setFirst (m.subscript id)._dimensions id (some val)
  have hl := Dimensions.CountsLocal_setFirst (m.subscript id)._dimensions id (some val) h1.2
  have hcnt : (m.subscript id)._count_of_values = m._count_of_values := rfl
  have h11 := h1.1
  unfold assign
  cases hf : (m.subscript id)._dimensions.first id with
  | none =>
    simp only [IsEmpty, hf, Option.isNone_none, if_true]
    rw [hf] at ho
    simp only [Option.isSome_none, Option.isSome_some, if_true, Bool.false_eq_true,
      if_false] at ho
    refine ⟨⟨?_, hl⟩, ?_⟩
    · show (m.subscript id)._count_of_values + 1 =
        ((m.subscript id)._dimensions.setFirst id (some val)).occupied +
          ((m.subscript id)._dimensions.setFirst id (some val)).childSizes
      omega
    · show (m.subscript id)._count_of_values + 1 = m._count_of_values + 1
      omega
  | some old =>
    simp only [IsEmpty, hf, Option.isNone_some, Bool.false_eq_true, if_false]
    rw [hf] at ho
    simp only [Option.isSome_some, if_true] at ho
    refine ⟨⟨?_, hl⟩, ?_⟩
    · show (m.subscript id)._count_of_values =
        ((m.subscript id)._dimensions.setFirst id (some val)).occupied +
          ((m.subscript id)._dimensions.setFirst id (some val)).childSizes
      omega
    · show (m.subscript id)._count_of_values = m._count_of_values
      omega

theorem Counted_clear (id : Nat) (m : MultidimensionalMatrix V) (h : m.Counted) :
    (clear id m).1.Counted ∧
      (clear id m).2.Adjusts m._count_of_values (clear id m).1._count_of_values := by
  have h1 := Counted_subscript m id h
  have hh : (m.subscript id)._dimensions.has id = true := Dimensions.has_create _ _
  have ho := Dimensions.occupied_setFirst (m.subscript id)._dimensions id none hh
  have hcs := Dimensions.childSizes_setFirst (m.subscript id)._dimensions id none
  have hl := Dimensions.CountsLocal_setFirst (m.subscript id)._dimensions id none h1.2
  have hcnt : (m.subscript id)._count_of_values = m._count_of_values := rfl
  have h11 := h1.1
  unfold clear
  cases hf : (m.subscript id)._dimensions.first id with
  | none =>
    simp only [IsEmpty, hf, Option.isNone_none, Bool.not_true, Bool.false_eq_true, if_false]
    rw [hf] at ho
    simp only [Option.isSome_none, Bool.false_eq_true, if_false] at ho
    refine ⟨⟨?_, hl⟩, ?_⟩
    · show (m.subscript id)._count_of_values =
        ((m.subscript id)._dimensions.setFirst id none).occupied +
          ((m.subscript id)._dimensions.setFirst id none).childSizes
      omega
    · show (m.subscript id)._count_of_values = m._count_of_values
      omega
  | some old =>
    simp only [IsEmpty, hf, Option.isNone_some, Bool.not_false, if_true]
    rw [hf] at ho
    simp only [Option.isSome_none, Option.isSome_some, if_true, Bool.false_eq_true,
      if_false] at ho
    have hpos : (m.subscript id)._count_of_values ≠ 0 := by omega
    refine ⟨⟨?_, hl⟩, ?_⟩
    · show (if (m.subscript id)._count_of_values = 0 then 2 ^ 64 - 1
          else (m.subscript id)._count_of_values - 1) =
        ((m.subscript id)._dimensions.setFirst id none).occupied +
          ((m.subscript id)._dimensions.setFirst id none).childSizes
      rw [if_neg hpos]
      omega
    · show (if (m.subscript id)._count_of_values = 0 then 2 ^ 64 - 1
          else (m.subscript id)._count_of_values - 1) + 1 = m._count_of_values
      rw [if_neg hpos]
      omega

/-- Signals keep every matrix on the way up counted: an operation that keeps the matrix
it is performed on counted, and whose signal matches the change of that matrix's count,
does the same for the root. -/
theorem Counted_atPath (g : MultidimensionalMatrix V → MultidimensionalMatrix V × Signal)
    (hg : ∀ n : MultidimensionalMatrix V, n.Counted →
      (g n).1.Counted ∧ (g n).2.Adjusts n._count_of_values (g n).1._count_of_values)
    (p : List Nat) :
    ∀ m : MultidimensionalMatrix V, m.Counted →
      (atPath g p m).1.Counted ∧
        (atPath g p m).2.Adjusts m._count_of_values (atPath g p m).1._count_of_values := by
  induction p with
  | nil => intro m hm; exact hg m hm
  | cons i p ih =>
    intro m hm
    have hc := Counted_call m i hm
    have hsub := Counted_sub (m.call i) i hc
    obtain ⟨r1, r2⟩ := ih ((m.call i).sub i) hsub
    have hh := call_has m i
    have hcs := Dimensions.childSizes_setSecond (m.call i)._dimensions i
      (atPath g p ((m.call i).sub i)).1 hh
    have hocc := Dimensions.occupied_setSecond (m.call i)._dimensions i
      (atPath g p ((m.call i).sub i)).1
    have hl := Dimensions.CountsLocal_setSecond (m.call i)._dimensions i
      (atPath g p ((m.call i).sub i)).1 hc.2 r1
    have hold : (match (m.call i)._dimensions.second i with
          | some old => old._count_of_values
          | none => 0) = ((m.call i).sub i)._count_of_values := by
      unfold sub
      cases (m.call i)._dimensions.second i <;> rfl
    rw [hold] at hcs
    have hcnt := call_count m i
    have hc1 := hc.1
    simp only [atPath]
    cases hsig : (atPath g p ((m.call i).sub i)).2 with
    | silent =>
      rw [hsig] at r2
      simp only [Signal.Adjusts] at r2
      refine ⟨⟨?_, hl⟩, ?_⟩
      · simp only [receive, setSub, hocc]; omega
      · simp only [Signal.Adjusts, receive, setSub]; omega
    | value_added =>
      rw [hsig] at r2
      simp only [Signal.Adjusts] at r2
      refine ⟨⟨?_, hl⟩, ?_⟩
      · simp only [receive, OnValueAdded, setSub, hocc]; omega
      · simp only [Signal.Adjusts, receive, OnValueAdded, setSub]; omega
    | value_deleted =>
      rw [hsig] at r2
      simp only [Signal.Adjusts] at r2
      have hpos : (m.call i)._count_of_values ≠ 0 := by omega
      refine ⟨⟨?_, hl⟩, ?_⟩
      · simp only [receive, OnValueDeleted, setSub, hocc, hpos, if_false]; omega
      · simp only [Signal.Adjusts, receive, OnValueDeleted, setSub, hpos, if_false]; omega

theorem Counted_run (m : MultidimensionalMatrix V) (op : Op V) (h : m.Counted) :
    (Op.run m op).Counted := by
  cases op with
  | subscript p id =>
    exact (Counted_atPath (fun n => (n.subscript id, Signal.silent))
      (fun n hn => ⟨Counted_subscript n id hn, rfl⟩) p m h).1
  | call p id =>
    exact (Counted_atPath (fun n => (n.call id, Signal.silent))
      (fun n hn => ⟨Counted_call n id hn, call_count n id⟩) p m h).1
  | assign p id val => exact (Counted_atPath _ (Counted_assign id val) p m h).1
  | clear p id => exact (Counted_atPath _ (Counted_clear id) p m h).1

theorem Counted_runAll (ops : List (Op V)) :
    ∀ m : MultidimensionalMatrix V, m.Counted → (Op.runAll m ops).Counted := by
  induction ops with
  | nil => intro m h; exact h
  | cons op ops ih => intro m h; exact ih _ (Counted_run m op h)

theorem Counted_node? (p : List Nat) :
    ∀ m n : MultidimensionalMatrix V, m.Counted → m.node? p = some n → n.Counted := by
  induction p with
  | nil => intro m n h hn; simp only [node?, Option.some.injEq] at hn; exact hn ▸ h
  | cons i p ih =>
    intro m n h hn
    simp only [node?] at hn
    cases hsec : m._dimensions.second i with
    | none => rw [hsec] at hn; simp at hn
    | some ch =>
      rw [hsec] at hn
      exact ih ch n (Dimensions.Counted_of_second _ _ _ h.2 hsec) hn

end MultidimensionalMatrix

/-- C6 (live-count invariant).  In every matrix state reached from an empty
`MultidimensionalMatrix` by any sequence of `operator[]` / `operator()` accesses,
value assignments and clears at any depth, every matrix `n` of the trie (the root or
a sub-matrix found at any path) has `size()` equal to the number of optionals holding
a value in its whole subtree, which is also the number of its own entries holding a
value plus the sum of `size()` over its sub-matrices.  The decrement of the model wraps
around at 0, so the equalities also say that the count never underflows. -/
theorem live_count_invariant {V : Type} (ops : List (Op V)) (p : List Nat)
    (n : MultidimensionalMatrix V)
    (hn : (Op.runAll MultidimensionalMatrix.empty ops).node? p = some n) :
    n.size = n._dimensions.occupiedBelow ∧
      n.size = n._dimensions.occupied + n._dimensions.childSizes := by
  have h := MultidimensionalMatrix.Counted_node? p _ n
    (MultidimensionalMatrix.Counted_runAll ops _ MultidimensionalMatrix.Counted_empty) hn
  have hb := Dimensions.below_of_local n._dimensions h.2
  refine ⟨?_, h.1⟩
  unfold MultidimensionalMatrix.size
  rw [h.1]
  exact hb.1

end tools

/-- C6 at a concrete run: four assignments and clears, an `operator()` and an
`operator[]`, and the sub-matrix they leave at path `[1]`. -/
theorem live_count_invariant_witness :
    (tools.Op.runAll (tools.MultidimensionalMatrix.empty : tools.MultidimensionalMatrix Unit)
        [tools.Op.assign [1] 2 (), tools.Op.assign [1] 3 (), tools.Op.assign [1, 2] 5 (),
          tools.Op.clear [1] 3, tools.Op.call [4] 4, tools.Op.subscript [] 9]).node? [1] =
      some ⟨tools.Dimensions.leaf 3 none (tools.Dimensions.dim 2 (some ())
        (tools.Dimensions.leaf 5 (some ()) tools.Dimensions.nil) 1 tools.Dimensions.nil), 2⟩ ∧
    ((⟨tools.Dimensions.leaf 3 none (tools.Dimensions.dim 2 (some ())
        (tools.Dimensions.leaf 5 (some ()) tools.Dimensions.nil) 1 tools.Dimensions.nil), 2⟩ :
          tools.MultidimensionalMatrix Unit).size =
        (tools.Dimensions.leaf 3 none (tools.Dimensions.dim 2 (some ())
          (tools.Dimensions.leaf 5 (some ()) tools.Dimensions.nil) 1
          tools.Dimensions.nil)).occupiedBelow ∧
      (⟨tools.Dimensions.leaf 3 none (tools.Dimensions.dim 2 (some ())
        (tools.Dimensions.leaf 5 (some ()) tools.Dimensions.nil) 1 tools.Dimensions.nil), 2⟩ :
          tools.MultidimensionalMatrix Unit).size =
        (tools.Dimensions.leaf 3 none (tools.Dimensions.dim 2 (some ())
          (tools.Dimensions.leaf 5 (some ()) tools.Dimensions.nil) 1
          tools.Dimensions.nil)).occupied +
        (tools.Dimensions.leaf 3 none (tools.Dimensions.dim 2 (some ())
          (tools.Dimensions.leaf 5 (some ()) tools.Dimensions.nil) 1
          tools.Dimensions.nil)).childSizes) :=
  ⟨rfl, tools.live_count_invariant
    [tools.Op.assign [1] 2 (), tools.Op.assign [1] 3 (), tools.Op.assign [1, 2] 5 (),
      tools.Op.clear [1] 3, tools.Op.call [4] 4, tools.Op.subscript [] 9] [1]
    ⟨tools.Dimensions.leaf 3 none (tools.Dimensions.dim 2 (some ())
        (tools.Dimensions.leaf 5 (some ()) tools.Dimensions.nil) 1 tools.Dimensions.nil), 2⟩ rfl⟩

namespace tools

namespace MultidimensionalMatrix

variable {V : Type}

theorem sub_subscript (m : MultidimensionalMatrix V) (c j : Nat) :
    (m.subscript c).sub j = m.sub j := by
  simp only [sub, subscript, Dimensions.second_create]

theorem first_subscript (m : MultidimensionalMatrix V) (c d : Nat) :
    (m.subscript c)._dimensions.first d = m._dimensions.first d := by
  simp only [subscript, Dimensions.first_create]

theorem count_subscript (m : MultidimensionalMatrix V) (c : Nat) :
    (m.subscript c)._count_of_values = m._count_of_values := rfl

theorem first_call (m : MultidimensionalMatrix V) (c d : Nat) :
    (m.call c)._dimensions.first d = m._dimensions.first d := by
  rw [call_dimensions]
  cases (m._dimensions._create_dim_if_required c).second c with
  | none => simp only [Dimensions.first_setSecond, Dimensions.first_create]
  | some ch => simp only [Dimensions.first_create]

theorem sub_call (m : MultidimensionalMatrix V) (c j : Nat) :
    (m.call c).sub j = m.sub j := by
  unfold sub
  rw [call_dimensions]
  cases hsec : (m._dimensions._create_dim_if_required c).second c with
  | none =>
    by_cases e : c = j
    · subst e
      rw [Dimensions.second_create] at hsec
      simp only [Dimensions.second_setSecond_same _ _ _ (Dimensions.has_create _ _), hsec]
    · simp only [Dimensions.second_setSecond_other _ _ _ _ e, Dimensions.second_create]
  | some ch => simp only [Dimensions.second_create]

theorem sub_setSub_same (m : MultidimensionalMatrix V) (i : Nat) (ch : MultidimensionalMatrix V)
    (h : m._dimensions.has i = true) : (m.setSub i ch).sub i = ch := by
  simp only [sub, setSub, Dimensions.second_setSecond_same _ _ _ h]

theorem sub_setSub_other (m : MultidimensionalMatrix V) (i j : Nat)
    (ch : MultidimensionalMatrix V) (h : i ≠ j) : (m.setSub i ch).sub j = m.sub j := by
  simp only [sub, setSub, Dimensions.second_setSecond_other _ _ _ _ h]

theorem first_setSub (m : MultidimensionalMatrix V) (i d : Nat) (ch : MultidimensionalMatrix V) :
    (m.setSub i ch)._dimensions.first d = m._dimensions.first d := by
  simp only [setSub, Dimensions.first_setSecond]

theorem count_setSub (m : MultidimensionalMatrix V) (i : Nat) (ch : MultidimensionalMatrix V) :
    (m.setSub i ch)._count_of_values = m._count_of_values := rfl

theorem node_append (p q : List Nat) :
    ∀ m : MultidimensionalMatrix V, m.node (p ++ q) = (m.node p).node q := by
  induction p with
  | nil => intro m; rfl
  | cons i p ih => intro m; exact ih (m.sub i)

theorem node_snoc (p : List Nat) (c : Nat) (m : MultidimensionalMatrix V) :
    m.node (p ++ [c]) = (m.node p).sub c := by
  rw [node_append]; rfl

namespace SameContent

theorem same_refl (a : MultidimensionalMatrix V) : a.SameContent a :=
  fun _ => ⟨rfl, fun _ => rfl⟩

theorem same_symm {a b : MultidimensionalMatrix V} (h : a.SameContent b) : b.SameContent a :=
  fun q => ⟨(h q).1.symm, fun d => ((h q).2 d).symm⟩

theorem same_trans {a b c : MultidimensionalMatrix V} (h1 : a.SameContent b)
    (h2 : b.SameContent c) : a.SameContent c :=
  fun q => ⟨(h1 q).1.trans (h2 q).1, fun d => ((h1 q).2 d).trans ((h2 q).2 d)⟩

theorem same_sub {a b : MultidimensionalMatrix V} (h : a.SameContent b) (i : Nat) :
    (a.sub i).SameContent (b.sub i) :=
  fun q => h (i :: q)

theorem same_node {a b : MultidimensionalMatrix V} (h : a.SameContent b) (p : List Nat) :
    (a.node p).SameContent (b.node p) := by
  intro q
  rw [← node_append, ← node_append]
  exact h (p ++ q)

theorem same_count {a b : MultidimensionalMatrix V} (h : a.SameContent b) :
    a._count_of_values = b._count_of_values := (h []).1

theorem same_first {a b : MultidimensionalMatrix V} (h : a.SameContent b) (d : Nat) :
    a._dimensions.first d = b._dimensions.first d := (h []).2 d

theorem same_intro {a b : MultidimensionalMatrix V}
    (hc : a._count_of_values = b._count_of_values)
    (hf : ∀ d, a._dimensions.first d = b._dimensions.first d)
    (hs : ∀ i, (a.sub i).SameContent (b.sub i)) : a.SameContent b := by
  intro q
  cases q with
  | nil => exact ⟨hc, hf⟩
  | cons i q => exact hs i q

end SameContent

theorem sameContent_subscript (m : MultidimensionalMatrix V) (c : Nat) :
    (m.subscript c).SameContent m :=
  SameContent.same_intro rfl (first_subscript m c)
    (fun i => by rw [sub_subscript]; exact SameContent.same_refl _)

theorem sameContent_call (m : MultidimensionalMatrix V) (c : Nat) :
    (m.call c).SameContent m :=
  SameContent.same_intro (call_count m c) (first_call m c)
    (fun i => by rw [sub_call]; exact SameContent.same_refl _)

theorem atPath_silent (g : MultidimensionalMatrix V → MultidimensionalMatrix V × Signal)
    (hg : ∀ n, (g n).2 = Signal.silent) (p : List Nat) :
    ∀ m : MultidimensionalMatrix V, (atPath g p m).2 = Signal.silent := by
  induction p with
  | nil => intro m; exact hg m
  | cons i p ih => intro m; simp only [atPath, ih]

/-- An access that leaves the content of the matrix it is performed on unchanged, and
fires no signal, leaves the content of the root unchanged. -/
theorem sameContent_atPath (g : MultidimensionalMatrix V → MultidimensionalMatrix V × Signal)
    (hg : ∀ n, (g n).1.SameContent n) (hs : ∀ n, (g n).2 = Signal.silent) (p : List Nat) :
    ∀ m : MultidimensionalMatrix V, (atPath g p m).1.SameContent m := by
  induction p with
  | nil => intro m; exact hg m
  | cons i p ih =>
    intro m
    simp only [atPath, atPath_silent g hs, receive]
    refine SameContent.same_intro ?_ ?_ ?_
    · rw [count_setSub, call_count]
    · intro d; rw [first_setSub, first_call]
    · intro j
      by_cases e : i = j
      · subst e
        rw [sub_setSub_same _ _ _ (call_has m i)]
        have := ih ((m.call i).sub i)
        rw [sub_call] at this ⊢
        exact this
      · rw [sub_setSub_other _ _ _ _ e, sub_call]
        exact SameContent.same_refl _

theorem sameContent_subscriptAt (c : Nat) (p : List Nat) (m : MultidimensionalMatrix V) :
    (atPath (fun n => (n.subscript c, Signal.silent)) p m).1.SameContent m :=
  sameContent_atPath _ (fun n => sameContent_subscript n c) (fun _ => rfl) p m

theorem sameContent_callAt (c : Nat) (p : List Nat) (m : MultidimensionalMatrix V) :
    (atPath (fun n => (n.call c, Signal.silent)) p m).1.SameContent m :=
  sameContent_atPath _ (fun n => sameContent_call n c) (fun _ => rfl) p m

theorem liveRun_unfold (c : Nat) (m : MultidimensionalMatrix V) :
    m._dimensions.liveRun c =
      if 0 < (m.sub c)._count_of_values then (m.sub c)._dimensions.liveRun c + 1 else 0 := by
  obtain ⟨d, n⟩ := m
  simp only [sub]
  induction d with
  | nil => simp [Dimensions.liveRun, Dimensions.second, empty]
  | leaf i v rest ih =>
    by_cases e : i = c
    · simp [Dimensions.liveRun, Dimensions.second, e, empty]
    · simp only [Dimensions.liveRun, Dimensions.second, e, if_false]; exact ih
  | dim i v s k rest _ ih =>
    by_cases e : i = c
    · simp [Dimensions.liveRun, Dimensions.second, e]
    · simp only [Dimensions.liveRun, Dimensions.second, e, if_false]; exact ih

theorem liveRun_sameContent (c : Nat) (k : Nat) :
    ∀ a b : MultidimensionalMatrix V, a.SameContent b → a._dimensions.liveRun c = k →
      b._dimensions.liveRun c = k := by
  induction k with
  | zero =>
    intro a b h hk
    rw [liveRun_unfold] at hk ⊢
    rw [← (h.same_sub c).same_count]
    by_cases hp : 0 < (a.sub c)._count_of_values
    · simp [hp] at hk
    · simp [hp]
  | succ k ih =>
    intro a b h hk
    rw [liveRun_unfold] at hk ⊢
    rw [← (h.same_sub c).same_count]
    by_cases hp : 0 < (a.sub c)._count_of_values
    · simp only [hp, if_true, Nat.add_right_cancel_iff] at hk ⊢
      exact ih _ _ (h.same_sub c) hk
    · simp [hp] at hk

theorem liveRun_eq_of_sameContent (c : Nat) {a b : MultidimensionalMatrix V}
    (h : a.SameContent b) : a._dimensions.liveRun c = b._dimensions.liveRun c :=
  (liveRun_sameContent c _ a b h rfl).symm

end MultidimensionalMatrix

end tools

theorem Threads.chain_append {d d1 d2 : Buf} {a b : List Call} (h1 : Threads d a d1)
    (h2 : Threads d1 b d2) : Threads d (a ++ b) d2 := by
  induction a generalizing d with
  | nil => simp only [Threads] at h1; subst h1; exact h2
  | cons e es ih => exact ⟨h1.1, ih h1.2⟩

theorem Threads.chain_untouched {d d1 : Buf} {a : List Call} (h : Threads d a d1)
    (hk : ∀ e ∈ a, e.left = e.received) : d1 = d := by
  induction a generalizing d with
  | nil => exact h
  | cons e es ih =>
    have h0 := hk e (List.mem_cons_self _ _)
    have := ih h.2 (fun x hx => hk x (List.mem_cons_of_mem _ hx))
    rw [this, h0, h.1]

namespace Interpreter

variable {W : Type}

open tools

theorem advanceFuel_congr (c : Sym) {a b : MultidimensionalMatrix (callback_type W)}
    (h : a.SameContent b) (l : List (List Sym)) : advanceFuel c a l = advanceFuel c b l := by
  unfold advanceFuel
  congr 1
  apply List.map_congr_left
  intro p _
  rw [MultidimensionalMatrix.liveRun_eq_of_sameContent c (h.same_node p)]

theorem advanceFuel_cons (c : Sym) (root : MultidimensionalMatrix (callback_type W))
    (p : List Sym) (l : List (List Sym)) :
    advanceFuel c root (p :: l) =
      ((root.node p)._dimensions.liveRun c + 1) + advanceFuel c root l := by
  simp [advanceFuel]

theorem advanceFuel_append (c : Sym) (root : MultidimensionalMatrix (callback_type W))
    (l1 l2 : List (List Sym)) :
    advanceFuel c root (l1 ++ l2) = advanceFuel c root l1 + advanceFuel c root l2 := by
  simp [advanceFuel]

/-- The second loop terminates: with at least `advanceFuel` iterations it returns, and it
leaves the content of the matrix unchanged. -/
theorem advanceLoop_total (c : Sym) (fuel : Nat) :
    ∀ (root : MultidimensionalMatrix (callback_type W)) (pending active rm : List (List Sym)),
      advanceFuel c root pending ≤ fuel →
      ∃ r, advanceLoop c fuel root pending active rm = some r ∧ r.1.SameContent root := by
  induction fuel with
  | zero =>
    intro root pending active rm h
    cases pending with
    | nil => exact ⟨_, rfl, MultidimensionalMatrix.SameContent.same_refl _⟩
    | cons p rest => rw [advanceFuel_cons] at h; omega
  | succ fuel ih =>
    intro root pending active rm h
    cases pending with
    | nil => exact ⟨_, rfl, MultidimensionalMatrix.SameContent.same_refl _⟩
    | cons p rest =>
      have hsc := MultidimensionalMatrix.sameContent_callAt c p root
      rw [advanceFuel_cons] at h
      simp only [advanceLoop]
      by_cases hpos : 0 < ((MultidimensionalMatrix.atPath
          (fun m => (m.call c, Signal.silent)) p root).1.node (p ++ [c])).size
      · rw [if_pos hpos]
        have hrun : (root.node p)._dimensions.liveRun c =
            ((MultidimensionalMatrix.atPath (fun m => (m.call c, Signal.silent)) p root).1.node
              (p ++ [c]))._dimensions.liveRun c + 1 := by
          rw [← MultidimensionalMatrix.liveRun_eq_of_sameContent c (hsc.same_node p),
            MultidimensionalMatrix.liveRun_unfold, ← MultidimensionalMatrix.node_snoc]
          exact if_pos hpos
        have hle : advanceFuel c (MultidimensionalMatrix.atPath
            (fun m => (m.call c, Signal.silent)) p root).1 (rest ++ [p ++ [c]]) ≤ fuel := by
          rw [advanceFuel_append, advanceFuel_cons, advanceFuel_congr c hsc rest]
          have hnil : advanceFuel c (MultidimensionalMatrix.atPath
              (fun m => (m.call c, Signal.silent)) p root).1 [] = 0 := rfl
          rw [hnil]
          omega
        obtain ⟨r, hr, hr2⟩ := ih _ (rest ++ [p ++ [c]]) (active ++ [p ++ [c]]) rm hle
        exact ⟨r, hr, hr2.same_trans hsc⟩
      · rw [if_neg hpos]
        have hle : advanceFuel c (MultidimensionalMatrix.atPath
            (fun m => (m.call c, Signal.silent)) p root).1 rest ≤ fuel := by
          rw [advanceFuel_congr c hsc rest]; omega
        obtain ⟨r, hr, hr2⟩ := ih _ rest active (rm ++ [p]) hle
        exact ⟨r, hr, hr2.same_trans hsc⟩

/-- More iterations than needed change nothing. -/
theorem advanceLoop_mono (c : Sym) (fuel : Nat) :
    ∀ (root : MultidimensionalMatrix (callback_type W)) (pending active rm : List (List Sym))
      (r : MultidimensionalMatrix (callback_type W) × List (List Sym) × List (List Sym))
      (k : Nat),
      advanceLoop c fuel root pending active rm = some r →
      advanceLoop c (fuel + k) root pending active rm = some r := by
  induction fuel with
  | zero =>
    intro root pending active rm r k h
    cases pending with
    | nil =>
      cases k with
      | zero => exact h
      | succ k => simpa [advanceLoop] using h
    | cons p rest => simp [advanceLoop] at h
  | succ fuel ih =>
    intro root pending active rm r k h
    cases pending with
    | nil => simpa [advanceLoop] using h
    | cons p rest =>
      have e : fuel + 1 + k = (fuel + k) + 1 := by omega
      rw [e]
      simp only [advanceLoop] at h ⊢
      split
      · rename_i hpos; rw [if_pos hpos] at h; exact ih _ _ _ _ _ _ h
      · rename_i hpos; rw [if_neg hpos] at h; exact ih _ _ _ _ _ _ h

/-- The result of the second loop can be computed with any number of iterations that
finishes it. -/
theorem advanceLoop_eq_of_some (c : Sym) (n : Nat)
    (root : MultidimensionalMatrix (callback_type W)) (pending active rm : List (List Sym))
    (r : MultidimensionalMatrix (callback_type W) × List (List Sym) × List (List Sym))
    (h : advanceLoop c n root pending active rm = some r) :
    advanceLoop c (advanceFuel c root pending) root pending active rm = some r := by
  obtain ⟨r1, h1, _⟩ := advanceLoop_total c (advanceFuel c root pending) root pending active rm
    (Nat.le_refl _)
  have a := advanceLoop_mono c n root pending active rm r (advanceFuel c root pending) h
  have b := advanceLoop_mono c _ root pending active rm r1 n h1
  rw [Nat.add_comm] at b
  rw [a] at b
  rw [h1, Option.some.inj b]

end Interpreter

namespace Interpreter

variable {W : Type}

open tools

theorem notifyLoop_calls (c : Sym) (ps : List (List Sym)) :
    ∀ s : Interpreter W, ∃ new : List Call,
      (notifyLoop c ps s).calls = s.calls ++ new ∧
        Threads s.data new (notifyLoop c ps s).data ∧
        ∀ e ∈ new, e.isSequence = true := by
  induction ps with
  | nil => intro s; exact ⟨[], by simp [notifyLoop], rfl, by simp⟩
  | cons p rest ih =>
    intro s
    simp only [notifyLoop]
    split
    · rename_i f _
      obtain ⟨new, h1, h2, h3⟩ := ih
        (callSequence { s with closing_subscribers := (MultidimensionalMatrix.atPath
          (fun m => (m.subscript c, Signal.silent)) p s.closing_subscribers).1 } (p ++ [c]) f)
      refine ⟨Call.sequence (p ++ [c]) s.data (f s.world s.data).2 :: new, ?_, ?_, ?_⟩
      · rw [h1]; simp [callSequence]
      · exact ⟨rfl, h2⟩
      · intro e he
        rcases List.mem_cons.1 he with rfl | he
        · rfl
        · exact h3 e he
    · obtain ⟨new, h1, h2, h3⟩ := ih
        { s with closing_subscribers := (MultidimensionalMatrix.atPath
          (fun m => (m.subscript c, Signal.silent)) p s.closing_subscribers).1 }
      exact ⟨new, h1, h2, h3⟩

theorem notifyLoop_frame (c : Sym) (ps : List (List Sym)) :
    ∀ s : Interpreter W,
      (notifyLoop c ps s).active_closing_subscribers = s.active_closing_subscribers ∧
      (notifyLoop c ps s).active_open_closed_subscribers = s.active_open_closed_subscribers ∧
      (notifyLoop c ps s).open_closed_subscribers = s.open_closed_subscribers ∧
      (notifyLoop c ps s).closing_subscribers.SameContent s.closing_subscribers := by
  induction ps with
  | nil => intro s; exact ⟨rfl, rfl, rfl, MultidimensionalMatrix.SameContent.same_refl _⟩
  | cons p rest ih =>
    intro s
    have hsc := MultidimensionalMatrix.sameContent_subscriptAt c p s.closing_subscribers
    simp only [notifyLoop]
    split
    · rename_i f _
      obtain ⟨h1, h2, h3, h4⟩ := ih
        (callSequence { s with closing_subscribers := (MultidimensionalMatrix.atPath
          (fun m => (m.subscript c, Signal.silent)) p s.closing_subscribers).1 } (p ++ [c]) f)
      exact ⟨h1, h2, h3, h4.same_trans hsc⟩
    · obtain ⟨h1, h2, h3, h4⟩ := ih
        { s with closing_subscribers := (MultidimensionalMatrix.atPath
          (fun m => (m.subscript c, Signal.silent)) p s.closing_subscribers).1 }
      exact ⟨h1, h2, h3, h4.same_trans hsc⟩

/-- `_NotifySubscribersAndEraseIfNoMoreInDimension` returns; it changes the state of the
first loop only in the matrix (by creating empty entries) and in the active list. -/
theorem notify_total (s : Interpreter W) (c : Sym) :
    ∃ root active,
      s._NotifySubscribersAndEraseIfNoMoreInDimension c =
        some { notifyLoop c s.active_closing_subscribers s with
          closing_subscribers := root, active_closing_subscribers := active } ∧
      root.SameContent s.closing_subscribers := by
  obtain ⟨r, hr, hsc⟩ := advanceLoop_total c
    (advanceFuel c (notifyLoop c s.active_closing_subscribers s).closing_subscribers
      (notifyLoop c s.active_closing_subscribers s).active_closing_subscribers)
    (notifyLoop c s.active_closing_subscribers s).closing_subscribers
    (notifyLoop c s.active_closing_subscribers s).active_closing_subscribers
    (notifyLoop c s.active_closing_subscribers s).active_closing_subscribers []
    (Nat.le_refl _)
  obtain ⟨root, active, rm⟩ := r
  refine ⟨root, removeAll active rm, ?_, hsc.same_trans (notifyLoop_frame c _ s).2.2.2⟩
  simp only [_NotifySubscribersAndEraseIfNoMoreInDimension, hr]

theorem matchSequences_tail (s2 : Interpreter W) (c : Sym) (flag : Bool) :
    ∃ t : Interpreter W,
      (if 0 < (({ s2 with closing_subscribers := s2.closing_subscribers.call c } :
            Interpreter W).closing_subscribers.sub c).size then
          some (({ s2 with closing_subscribers := s2.closing_subscribers.call c } :
            Interpreter W)._SubscriberBeginningMeet [c], flag)
        else some (({ s2 with closing_subscribers := s2.closing_subscribers.call c } :
            Interpreter W), flag)) = some (t, flag) ∧
      t.calls = s2.calls ∧ t.data = s2.data ∧
      t.closing_subscribers.SameContent s2.closing_subscribers ∧
      t.open_closed_subscribers = s2.open_closed_subscribers ∧
      t.active_open_closed_subscribers = s2.active_open_closed_subscribers := by
  split
  · exact ⟨_, rfl, rfl, rfl, MultidimensionalMatrix.sameContent_call _ c, rfl, rfl⟩
  · exact ⟨_, rfl, rfl, rfl, MultidimensionalMatrix.sameContent_call _ c, rfl, rfl⟩

/-- The sequence block returns; the string is threaded through the calls it makes, and
`any_notified` is set whenever a call was made. -/
theorem matchSequences_total (s : Interpreter W) (c : Sym) :
    ∃ (t : Interpreter W) (any_notified : Bool) (new : List Call),
      s.matchSequences c = some (t, any_notified) ∧
      t.calls = s.calls ++ new ∧ Threads s.data new t.data ∧
      (new ≠ [] → any_notified = true) ∧
      (∀ e ∈ new, e.isSequence = true) ∧
      t.closing_subscribers.SameContent s.closing_subscribers ∧
      t.open_closed_subscribers = s.open_closed_subscribers ∧
      t.active_open_closed_subscribers = s.active_open_closed_subscribers := by
  have key : ∀ s1 : Interpreter W, s1.calls = s.calls → s1.data = s.data →
      s1.closing_subscribers.SameContent s.closing_subscribers →
      s1.open_closed_subscribers = s.open_closed_subscribers →
      s1.active_open_closed_subscribers = s.active_open_closed_subscribers →
      ∃ (s2 : Interpreter W) (any_notified : Bool) (new : List Call),
        (if s1.active_closing_subscribers.isEmpty then some (s1, false)
          else (s1._NotifySubscribersAndEraseIfNoMoreInDimension c).map (fun t => (t, true))) =
          some (s2, any_notified) ∧
        s2.calls = s.calls ++ new ∧ Threads s.data new s2.data ∧
        (new ≠ [] → any_notified = true) ∧
        (∀ e ∈ new, e.isSequence = true) ∧
        s2.closing_subscribers.SameContent s.closing_subscribers ∧
        s2.open_closed_subscribers = s.open_closed_subscribers ∧
        s2.active_open_closed_subscribers = s.active_open_closed_subscribers := by
    intro s1 hc hd hr ho ha
    by_cases he : s1.active_closing_subscribers.isEmpty = true
    · refine ⟨s1, false, [], by rw [if_pos he], by simp [hc], hd, by simp, by simp, hr, ho, ha⟩
    · obtain ⟨root, active, hn, hsc⟩ := notify_total s1 c
      obtain ⟨new, h1, h2, h3⟩ := notifyLoop_calls c s1.active_closing_subscribers s1
      obtain ⟨_, f2, f3, _⟩ := notifyLoop_frame c s1.active_closing_subscribers s1
      refine ⟨_, true, new, by rw [if_neg he, hn]; rfl, ?_, ?_, fun _ => rfl, h3,
        hsc.same_trans hr, ?_, ?_⟩
      · show (notifyLoop c s1.active_closing_subscribers s1).calls = _
        rw [h1, hc]
      · show Threads s.data new (notifyLoop c s1.active_closing_subscribers s1).data
        rw [← hd]; exact h2
      · show (notifyLoop c s1.active_closing_subscribers s1).open_closed_subscribers = _
        rw [f3, ho]
      · show (notifyLoop c s1.active_closing_subscribers s1).active_open_closed_subscribers = _
        rw [f2, ha]
  have hs0 := MultidimensionalMatrix.sameContent_subscript s.closing_subscribers c
  obtain ⟨s2, flag, new, h1, h2, h3, h4, h5, h6, h7, h8⟩ :=
    key (if ({ s with closing_subscribers := s.closing_subscribers.subscript c } :
          Interpreter W).closing_subscribers.IsEmpty c then
          ({ s with closing_subscribers := s.closing_subscribers.subscript c } : Interpreter W)
        else ({ s with closing_subscribers := s.closing_subscribers.subscript c } :
          Interpreter W)._SubscriberBeginningMeet [])
      (by split <;> rfl) (by split <;> rfl) (by split <;> exact hs0) (by split <;> rfl)
      (by split <;> rfl)
  obtain ⟨t, g1, g2, g3, g4, g5, g6⟩ := matchSequences_tail s2 c flag
  refine ⟨t, flag, new, ?_, by rw [g2, h2], by rw [g3]; exact h3, h4, h5, g4.same_trans h6,
    by rw [g5, h7], by rw [g6, h8]⟩
  simp only [matchSequences]
  rw [h1]
  exact g1

end Interpreter
namespace Interpreter

variable {W : Type}

open tools

theorem closeLoop_calls (c : Sym) (insts : List (Sym × Sym)) :
    ∀ (s : Interpreter W) (notified : List Sym), ∃ new : List Call,
      (closeLoop c insts s notified).1.calls = s.calls ++ new ∧
      Threads s.data new (closeLoop c insts s notified).1.data ∧
      (new ≠ [] → (closeLoop c insts s notified).2 ≠ []) ∧
      (∀ e ∈ new, e.isSequence = false) ∧
      (closeLoop c insts s notified).1.closing_subscribers = s.closing_subscribers ∧
      (closeLoop c insts s notified).1.active_closing_subscribers =
        s.active_closing_subscribers ∧
      (closeLoop c insts s notified).1.open_closed_subscribers = s.open_closed_subscribers ∧
      (closeLoop c insts s notified).1.active_open_closed_subscribers =
        s.active_open_closed_subscribers ∧
      (notified ≠ [] → (closeLoop c insts s notified).2 ≠ []) := by
  induction insts with
  | nil =>
    intro s notified
    exact ⟨[], by simp [closeLoop], rfl, by simp, by simp, rfl, rfl, rfl, rfl, fun h => h⟩
  | cons inst rest ih =>
    intro s notified
    simp only [closeLoop]
    split
    · rename_i rule hrule
      split
      · split
        · exact ih s notified
        · obtain ⟨new, h1, h2, h3, h4, h5, h6, h7, h8, h9⟩ :=
            ih (s.callBracket inst.2 false rule.2) (notified ++ [inst.2])
          refine ⟨Call.bracket inst.2 false s.data (rule.2 s.world s.data false).2 :: new,
            ?_, ⟨rfl, h2⟩, fun _ => h9 (by simp), ?_, h5, h6, h7, h8, fun _ => h9 (by simp)⟩
          · rw [h1]; simp [callBracket]
          · intro e he
            rcases List.mem_cons.1 he with rfl | he
            · rfl
            · exact h4 e he
      · exact ih s notified
    · exact ih s notified

/-- What the bracket block and the end of `Interpret` do to the log and the string: the
string is threaded through the calls; `c` is appended only when no call is made here and
`any_notified` is false. -/
theorem interpretBrackets_calls (s : Interpreter W) (c : Sym) (any_notified : Bool) :
    ∃ new : List Call,
      (interpretBrackets s c any_notified).calls = s.calls ++ new ∧
      (∀ e ∈ new, e.isSequence = false) ∧
      ((new ≠ [] ∨ any_notified = true) →
        Threads s.data new (interpretBrackets s c any_notified).data) ∧
      (new = [] → (interpretBrackets s c any_notified).data = s.data ∨
        (interpretBrackets s c any_notified).data = s.data ++ [c]) := by
  have key : ∃ new : List Call,
      (if s.open_closed_subscribers.isEmpty then (s, false)
        else s._NotifyOpenClosedSubscribersAndEraseIfNoMoreInDimension c).1.calls =
          s.calls ++ new ∧
      Threads s.data new (if s.open_closed_subscribers.isEmpty then (s, false)
        else s._NotifyOpenClosedSubscribersAndEraseIfNoMoreInDimension c).1.data ∧
      (new ≠ [] → (if s.open_closed_subscribers.isEmpty then (s, false)
        else s._NotifyOpenClosedSubscribersAndEraseIfNoMoreInDimension c).2 = true) ∧
      (∀ e ∈ new, e.isSequence = false) := by
    split
    · exact ⟨[], by simp, rfl, by simp, by simp⟩
    · obtain ⟨new, h1, h2, h3, h4, _⟩ := closeLoop_calls c s.active_open_closed_subscribers s []
      refine ⟨new, h1, h2, ?_, h4⟩
      intro hne
      have := h3 hne
      simp only [_NotifyOpenClosedSubscribersAndEraseIfNoMoreInDimension]
      cases hl : (closeLoop c s.active_open_closed_subscribers s []).2 with
      | nil => exact absurd hl this
      | cons a l => rfl
  obtain ⟨new, h1, h2, h3, h4⟩ := key
  simp only [interpretBrackets]
  generalize (if s.open_closed_subscribers.isEmpty then (s, false)
    else s._NotifyOpenClosedSubscribersAndEraseIfNoMoreInDimension c) = r at h1 h2 h3 ⊢
  split
  · rename_i rule _
    refine ⟨new ++ [Call.bracket c true r.1.data (rule.2 r.1.world r.1.data true).2],
      ?_, ?_, fun _ => ?_, by simp⟩
    · simp only [_OpenClosedSubscriberOpeningMeet, callBracket, h1, List.append_assoc]
    · intro e he
      rcases List.mem_append.1 he with he | he
      · exact h4 e he
      · rw [List.mem_singleton.1 he]; rfl
    · exact h2.chain_append ⟨rfl, rfl⟩
  · split
    · exact ⟨new, h1, h4, fun _ => h2, fun hn => Or.inl (by rw [hn] at h2; exact h2)⟩
    · rename_i hr2
      have hnew : new = [] := by
        by_contra hne
        exact hr2 (h3 hne)
      subst hnew
      split
      · exact ⟨[], h1, h4, fun _ => h2, fun _ => Or.inl h2⟩
      · rename_i hflag
        refine ⟨[], h1, h4, fun h => ?_, fun _ => Or.inr ?_⟩
        · rcases h with h | h
          · exact absurd rfl h
          · simp [h] at hflag
        · simp only [Threads] at h2
          rw [h2]

/-- `Interpret` returns for every state and character. -/
theorem Interpret_total (s : Interpreter W) (c : Sym) : ∃ t, s.Interpret c = some t := by
  obtain ⟨t, flag, _, h, _⟩ := matchSequences_total s c
  exact ⟨interpretBrackets t c flag, by simp only [Interpret, h, Option.map_some']⟩

end Interpreter

/-- C10 (a claimed character is never buffered).  `Interpret(c)` returns in every state.
When it invokes at least one callback (a sequence callback or a bracket callback, opening
or closing), `data` is only handed from call to call: the first callback receives `data`
as it was before `Interpret`, every later one receives what the one before it left, and
`data` after `Interpret` is what the last callback left.  So `c` is not appended and the
string is not cleared; in particular, when the callbacks invoked leave the string as they
received it, `data` is unchanged. -/
theorem claimed_character_not_buffered {W : Type} (s : Interpreter W) (c : Sym) :
    ∃ (t : Interpreter W) (new : List Call),
      s.Interpret c = some t ∧ t.calls = s.calls ++ new ∧
      (new ≠ [] →
        Threads s.data new t.data ∧ ((∀ e ∈ new, e.left = e.received) → t.data = s.data)) := by
  obtain ⟨t, flag, new1, h, h1, h2, h3, _⟩ := Interpreter.matchSequences_total s c
  obtain ⟨new2, g1, _, g2, _⟩ := Interpreter.interpretBrackets_calls t c flag
  refine ⟨Interpreter.interpretBrackets t c flag, new1 ++ new2,
    by simp only [Interpreter.Interpret, h, Option.map_some'],
    by rw [g1, h1, List.append_assoc], ?_⟩
  intro hne
  have hcond : new2 ≠ [] ∨ flag = true := by
    by_cases h2e : new2 = []
    · right
      apply h3
      intro h1e
      exact hne (by rw [h1e, h2e]; rfl)
    · exact Or.inl h2e
  have hth := h2.chain_append (g2 hcond)
  exact ⟨hth, fun hk => hth.chain_untouched hk⟩

namespace Interpreter

variable {W : Type}

open tools

/-- The sequence block when no pointer is active, the root has no value at `c` and the
root's dimension `c` is empty: nothing is called and nothing becomes active. -/
theorem matchSequences_quiet (s : Interpreter W) (c : Sym)
    (ha : s.active_closing_subscribers = [])
    (hf : s.closing_subscribers._dimensions.first c = none)
    (hz : (s.closing_subscribers.sub c)._count_of_values = 0) :
    s.matchSequences c =
      some ({ s with closing_subscribers := (s.closing_subscribers.subscript c).call c },
        false) := by
  simp only [matchSequences, MultidimensionalMatrix.IsEmpty,
    MultidimensionalMatrix.first_subscript, hf, Option.isNone_none, if_true, ha,
    List.isEmpty_nil, MultidimensionalMatrix.size, MultidimensionalMatrix.sub_call,
    MultidimensionalMatrix.sub_subscript, hz, Nat.lt_irrefl, if_false]

/-- The sequence block when no pointer is active, the root has no value at `c` and the
root's dimension `c` is not empty: that dimension becomes the one active pointer. -/
theorem matchSequences_begin (s : Interpreter W) (c : Sym)
    (ha : s.active_closing_subscribers = [])
    (hf : s.closing_subscribers._dimensions.first c = none)
    (hz : 0 < (s.closing_subscribers.sub c)._count_of_values) :
    s.matchSequences c =
      some ({ s with closing_subscribers := (s.closing_subscribers.subscript c).call c,
                     active_closing_subscribers := [[c]] }, false) := by
  simp only [matchSequences, MultidimensionalMatrix.IsEmpty,
    MultidimensionalMatrix.first_subscript, hf, Option.isNone_none, if_true, ha,
    List.isEmpty_nil, MultidimensionalMatrix.size, MultidimensionalMatrix.sub_call,
    MultidimensionalMatrix.sub_subscript, hz, _SubscriberBeginningMeet, List.nil_append]

/-- The rest of `Interpret` when there is no bracket rule. -/
theorem interpretBrackets_no_rules (s : Interpreter W) (c : Sym) (any_notified : Bool)
    (hr : s.open_closed_subscribers = []) :
    s.interpretBrackets c any_notified =
      if any_notified || !s.active_closing_subscribers.isEmpty then s
      else { s with data := s.data ++ [c] } := by
  simp only [interpretBrackets, hr, List.isEmpty_nil, if_true, List.lookup_nil,
    Bool.false_eq_true, if_false]

end Interpreter

namespace tools

namespace MultidimensionalMatrix

variable {V : Type}

theorem first_node_subscriptAt (c : Nat) (p q : List Nat) (d : Nat)
    (m : MultidimensionalMatrix V) :
    ((atPath (fun n => (n.subscript c, Signal.silent)) p m).1.node q)._dimensions.first d =
      (m.node q)._dimensions.first d :=
  ((sameContent_subscriptAt c p m) q).2 d

theorem count_node_subscriptAt (c : Nat) (p q : List Nat) (m : MultidimensionalMatrix V) :
    ((atPath (fun n => (n.subscript c, Signal.silent)) p m).1.node q)._count_of_values =
      (m.node q)._count_of_values :=
  ((sameContent_subscriptAt c p m) q).1

theorem first_node_callAt (c : Nat) (p q : List Nat) (d : Nat)
    (m : MultidimensionalMatrix V) :
    ((atPath (fun n => (n.call c, Signal.silent)) p m).1.node q)._dimensions.first d =
      (m.node q)._dimensions.first d :=
  ((sameContent_callAt c p m) q).2 d

theorem count_node_callAt (c : Nat) (p q : List Nat) (m : MultidimensionalMatrix V) :
    ((atPath (fun n => (n.call c, Signal.silent)) p m).1.node q)._count_of_values =
      (m.node q)._count_of_values :=
  ((sameContent_callAt c p m) q).1

theorem node_empty (q : List Nat) :
    (empty : MultidimensionalMatrix V).node q = empty := by
  induction q with
  | nil => rfl
  | cons i q ih => exact ih

end MultidimensionalMatrix

end tools

namespace Interpreter

variable {W : Type}

open tools

/-- The first loop for one active pointer. -/
theorem notifyLoop_single (c : Sym) (p : List Sym) (s : Interpreter W) :
    notifyLoop c [p] s =
      match (s.closing_subscribers.node p)._dimensions.first c with
      | some f => callSequence { s with closing_subscribers := (MultidimensionalMatrix.atPath
          (fun m => (m.subscript c, Signal.silent)) p s.closing_subscribers).1 } (p ++ [c]) f
      | none => { s with closing_subscribers := (MultidimensionalMatrix.atPath
          (fun m => (m.subscript c, Signal.silent)) p s.closing_subscribers).1 } := by
  simp only [notifyLoop, MultidimensionalMatrix.first_node_subscriptAt]

/-- `_NotifySubscribersAndEraseIfNoMoreInDimension` for one active pointer whose
dimension `c` is empty: after the callbacks the pointer is removed and nothing is left
active. -/
theorem notify_single_dead (s : Interpreter W) (c : Sym) (p : List Sym)
    (ha : s.active_closing_subscribers = [p])
    (hz : (s.closing_subscribers.node (p ++ [c]))._count_of_values = 0) :
    s._NotifySubscribersAndEraseIfNoMoreInDimension c =
      some { notifyLoop c [p] s with
        closing_subscribers := (MultidimensionalMatrix.atPath
          (fun m => (m.call c, Signal.silent)) p (notifyLoop c [p] s).closing_subscribers).1,
        active_closing_subscribers := [] } := by
  obtain ⟨f1, _, _, f4⟩ := notifyLoop_frame c [p] s
  have hz2 : ((MultidimensionalMatrix.atPath (fun m => (m.call c, Signal.silent)) p
      (notifyLoop c [p] s).closing_subscribers).1.node (p ++ [c])).size = 0 := by
    show (_ : MultidimensionalMatrix (callback_type W))._count_of_values = 0
    rw [MultidimensionalMatrix.count_node_callAt, (f4 (p ++ [c])).1, hz]
  have hloop : advanceLoop c 1 (notifyLoop c [p] s).closing_subscribers [p] [p] [] =
      some ((MultidimensionalMatrix.atPath (fun m => (m.call c, Signal.silent)) p
        (notifyLoop c [p] s).closing_subscribers).1, [p], [p]) := by
    simp only [advanceLoop, hz2, Nat.lt_irrefl, if_false, List.nil_append]
  have := advanceLoop_eq_of_some c 1 _ _ _ _ _ hloop
  simp only [_NotifySubscribersAndEraseIfNoMoreInDimension, ha]
  rw [ha] at f1
  rw [f1, this]
  simp [removeAll]

end Interpreter

namespace Interpreter

variable {W : Type}

open tools

/-- One `Interpret` of a character that neither subsystem claims: no pointer is active,
there is no bracket rule, and at `c` the root has no value and no non-empty dimension.
The character is appended to `data`. -/
theorem Interpret_quiet (m0 : MultidimensionalMatrix (callback_type W)) (s : Interpreter W)
    (c : Sym) (hm : s.closing_subscribers.SameContent m0)
    (ha : s.active_closing_subscribers = []) (hr : s.open_closed_subscribers = [])
    (hf : m0._dimensions.first c = none) (hz : (m0.sub c)._count_of_values = 0) :
    ∃ t, s.Interpret c = some t ∧ t.closing_subscribers.SameContent m0 ∧
      t.active_closing_subscribers = [] ∧ t.open_closed_subscribers = [] ∧
      t.active_open_closed_subscribers = s.active_open_closed_subscribers ∧
      t.data = s.data ++ [c] ∧ t.calls = s.calls ∧ t.world = s.world := by
  have h1 : s.closing_subscribers._dimensions.first c = none := by rw [hm.same_first, hf]
  have h2 : (s.closing_subscribers.sub c)._count_of_values = 0 := by
    rw [(hm.same_sub c).same_count, hz]
  obtain ⟨t, ht⟩ := Interpret_total s c
  refine ⟨t, ht, ?_⟩
  simp only [Interpret, matchSequences_quiet s c ha h1 h2, Option.map_some',
    interpretBrackets_no_rules, hr, ha, List.isEmpty_nil, Bool.not_true,
    Bool.or_false, Bool.false_eq_true, if_false] at ht
  cases ht
  exact ⟨((MultidimensionalMatrix.sameContent_call _ c).same_trans
      (MultidimensionalMatrix.sameContent_subscript _ c)).same_trans hm, rfl, rfl, rfl, rfl, rfl, rfl⟩

/-- Feeding a text of unclaimed characters appends it to `data`. -/
theorem feed_quiet (m0 : MultidimensionalMatrix (callback_type W)) (u : List Sym) :
    ∀ s : Interpreter W, s.closing_subscribers.SameContent m0 →
      s.active_closing_subscribers = [] → s.open_closed_subscribers = [] →
      (∀ c ∈ u, m0._dimensions.first c = none ∧ (m0.sub c)._count_of_values = 0) →
      ∃ t, s.feed u = some t ∧ t.closing_subscribers.SameContent m0 ∧
        t.active_closing_subscribers = [] ∧ t.open_closed_subscribers = [] ∧
        t.active_open_closed_subscribers = s.active_open_closed_subscribers ∧
        t.data = s.data ++ u ∧ t.calls = s.calls ∧ t.world = s.world := by
  induction u with
  | nil =>
    intro s hm ha hr _
    exact ⟨s, rfl, hm, ha, hr, rfl, by simp, rfl, rfl⟩
  | cons c u ih =>
    intro s hm ha hr hu
    obtain ⟨hf, hz⟩ := hu c (List.mem_cons_self _ _)
    obtain ⟨t, h1, h2, h3, h4, h5, h6, h7, h8⟩ := Interpret_quiet m0 s c hm ha hr hf hz
    obtain ⟨t2, g1, g2, g3, g4, g5, g6, g7, g8⟩ :=
      ih t h2 h3 h4 (fun d hd => hu d (List.mem_cons_of_mem _ hd))
    refine ⟨t2, by simp only [feed, h1, g1], g2, g3, g4, by rw [g5, h5], ?_, by rw [g7, h7],
      by rw [g8, h8]⟩
    rw [g6, h6, List.append_assoc]; rfl

/-- One `Interpret` of `c` when no pointer is active, there is no bracket rule, the root
holds the callback `f` at `c` and the root's dimension `c` is empty: `f` is called once
with `data`, and `c` is not appended. -/
theorem Interpret_one_character (m0 : MultidimensionalMatrix (callback_type W))
    (s : Interpreter W) (c : Sym) (f : callback_type W)
    (hm : s.closing_subscribers.SameContent m0)
    (ha : s.active_closing_subscribers = []) (hr : s.open_closed_subscribers = [])
    (hf : m0._dimensions.first c = some f) (hz : (m0.sub c)._count_of_values = 0) :
    ∃ t, s.Interpret c = some t ∧ t.closing_subscribers.SameContent m0 ∧
      t.active_closing_subscribers = [] ∧ t.open_closed_subscribers = [] ∧
      t.active_open_closed_subscribers = s.active_open_closed_subscribers ∧
      t.data = (f s.world s.data).2 ∧
      t.calls = s.calls ++ [Call.sequence [c] s.data (f s.world s.data).2] ∧
      t.world = (f s.world s.data).1 := by
  have h1 : s.closing_subscribers._dimensions.first c = some f := by rw [hm.same_first, hf]
  have h2 : (s.closing_subscribers.sub c)._count_of_values = 0 := by
    rw [(hm.same_sub c).same_count, hz]
  have hn := notify_single_dead
    (({ s with closing_subscribers := s.closing_subscribers.subscript c } :
      Interpreter W)._SubscriberBeginningMeet []) c []
    (by simp only [_SubscriberBeginningMeet, ha, List.nil_append])
    (by
      show ((s.closing_subscribers.subscript c).sub c)._count_of_values = 0
      rw [MultidimensionalMatrix.sub_subscript, h2])
  have hv : (({ s with closing_subscribers := s.closing_subscribers.subscript c } :
      Interpreter W)._SubscriberBeginningMeet []).closing_subscribers._dimensions.first c =
      some f := by
    show (s.closing_subscribers.subscript c)._dimensions.first c = some f
    rw [MultidimensionalMatrix.first_subscript, h1]
  have hl := notifyLoop_single c []
    (({ s with closing_subscribers := s.closing_subscribers.subscript c } :
      Interpreter W)._SubscriberBeginningMeet [])
  simp only [MultidimensionalMatrix.node, hv] at hl
  rw [hl] at hn
  obtain ⟨t, ht⟩ := Interpret_total s c
  refine ⟨t, ht, ?_⟩
  simp only [Interpret, matchSequences, MultidimensionalMatrix.IsEmpty,
    MultidimensionalMatrix.first_subscript, h1, Option.isNone_some, Bool.false_eq_true,
    if_false] at ht
  rw [hn] at ht
  simp only [_SubscriberBeginningMeet, ha, List.nil_append, List.isEmpty_cons,
    Bool.false_eq_true, if_false, Option.map_some', callSequence,
    MultidimensionalMatrix.atPath, MultidimensionalMatrix.size,
    MultidimensionalMatrix.sub_call, MultidimensionalMatrix.sub_subscript, h2,
    Nat.lt_irrefl, interpretBrackets_no_rules, hr, Bool.true_or, if_true] at ht
  cases ht
  refine ⟨?_, rfl, rfl, rfl, rfl, rfl, rfl⟩
  exact ((MultidimensionalMatrix.sameContent_call _ c).same_trans
      ((MultidimensionalMatrix.sameContent_call _ c).same_trans
        ((MultidimensionalMatrix.sameContent_subscript _ c).same_trans
          (MultidimensionalMatrix.sameContent_subscript _ c)))).same_trans hm

end Interpreter

namespace Interpreter

variable {W : Type}

open tools

theorem first_assign_empty (x d : Nat) (f : callback_type W) :
    (MultidimensionalMatrix.assign x f
        (MultidimensionalMatrix.empty : MultidimensionalMatrix (callback_type W))).1._dimensions.first d =
      if x = d then some f else none := by
  simp [MultidimensionalMatrix.assign, MultidimensionalMatrix.subscript,
    MultidimensionalMatrix.empty, MultidimensionalMatrix.IsEmpty,
    Dimensions._create_dim_if_required, Dimensions.has, Dimensions.first, Dimensions.setFirst,
    MultidimensionalMatrix.OnValueAdded]

theorem sub_assign_empty (x j : Nat) (f : callback_type W) :
    ((MultidimensionalMatrix.assign x f
        (MultidimensionalMatrix.empty : MultidimensionalMatrix (callback_type W))).1.sub j) =
      MultidimensionalMatrix.empty := by
  by_cases e : x = j <;>
  simp [MultidimensionalMatrix.assign, MultidimensionalMatrix.subscript,
    MultidimensionalMatrix.empty, MultidimensionalMatrix.IsEmpty,
    Dimensions._create_dim_if_required, Dimensions.has, Dimensions.first, Dimensions.setFirst,
    MultidimensionalMatrix.OnValueAdded, MultidimensionalMatrix.sub, Dimensions.second, e]

end Interpreter


namespace Interpreter

variable {W : Type}

open tools

theorem feed_append (u v : List Sym) :
    ∀ s : Interpreter W, s.feed (u ++ v) = (s.feed u).bind (fun t => t.feed v) := by
  induction u with
  | nil => intro s; rfl
  | cons c u ih =>
    intro s
    simp only [List.cons_append, feed]
    cases s.Interpret c with
    | none => rfl
    | some t => exact ih t

/-- One `Interpret` of a character that starts a sequence: no pointer is active, there is
no bracket rule, the root has no value at `c` and the root's dimension `c` is not empty.
That dimension becomes the one active pointer; `c` is not appended and nothing is called. -/
theorem Interpret_begin (m0 : MultidimensionalMatrix (callback_type W)) (s : Interpreter W)
    (c : Sym) (hm : s.closing_subscribers.SameContent m0)
    (ha : s.active_closing_subscribers = []) (hr : s.open_closed_subscribers = [])
    (hf : m0._dimensions.first c = none) (hz : 0 < (m0.sub c)._count_of_values) :
    ∃ t, s.Interpret c = some t ∧ t.closing_subscribers.SameContent m0 ∧
      t.active_closing_subscribers = [[c]] ∧ t.open_closed_subscribers = [] ∧
      t.active_open_closed_subscribers = s.active_open_closed_subscribers ∧
      t.data = s.data ∧ t.calls = s.calls ∧ t.world = s.world := by
  have h1 : s.closing_subscribers._dimensions.first c = none := by rw [hm.same_first, hf]
  have h2 : 0 < (s.closing_subscribers.sub c)._count_of_values := by
    rw [(hm.same_sub c).same_count]; exact hz
  obtain ⟨t, ht⟩ := Interpret_total s c
  refine ⟨t, ht, ?_⟩
  simp only [Interpret, matchSequences_begin s c ha h1 h2, Option.map_some',
    interpretBrackets_no_rules, hr, List.isEmpty_cons, Bool.not_false,
    Bool.or_true, if_true] at ht
  cases ht
  exact ⟨((MultidimensionalMatrix.sameContent_call _ c).same_trans
    (MultidimensionalMatrix.sameContent_subscript _ c)).same_trans hm, rfl, rfl, rfl, rfl, rfl, rfl⟩

/-- One `Interpret` of the character that completes a sequence: the one active pointer
`p` holds the callback `f` at `c`, its dimension `c` is empty, the root has no value at
`c`, and there is no bracket rule.  `f` is called once with `data`; `c` is not appended;
afterwards the root's dimension `c` is active when it is not empty, and nothing else. -/
theorem Interpret_complete (m0 : MultidimensionalMatrix (callback_type W))
    (s : Interpreter W) (c : Sym) (p : List Sym) (f : callback_type W)
    (hm : s.closing_subscribers.SameContent m0)
    (ha : s.active_closing_subscribers = [p]) (hr : s.open_closed_subscribers = [])
    (h0 : m0._dimensions.first c = none)
    (hf : (m0.node p)._dimensions.first c = some f)
    (hz : (m0.node (p ++ [c]))._count_of_values = 0) :
    ∃ t, s.Interpret c = some t ∧ t.closing_subscribers.SameContent m0 ∧
      t.active_closing_subscribers =
        (if 0 < (m0.sub c)._count_of_values then [[c]] else []) ∧
      t.open_closed_subscribers = [] ∧
      t.active_open_closed_subscribers = s.active_open_closed_subscribers ∧
      t.data = (f s.world s.data).2 ∧
      t.calls = s.calls ++ [Call.sequence (p ++ [c]) s.data (f s.world s.data).2] ∧
      t.world = (f s.world s.data).1 := by
  have h1 : s.closing_subscribers._dimensions.first c = none := by rw [hm.same_first, h0]
  have hs0 := MultidimensionalMatrix.sameContent_subscript s.closing_subscribers c
  have hn := notify_single_dead
    ({ s with closing_subscribers := s.closing_subscribers.subscript c } : Interpreter W) c p ha
    (by
      show ((s.closing_subscribers.subscript c).node (p ++ [c]))._count_of_values = 0
      rw [(hs0 (p ++ [c])).1, (hm (p ++ [c])).1, hz])
  have hv : ((({ s with closing_subscribers := s.closing_subscribers.subscript c } :
      Interpreter W).closing_subscribers.node p))._dimensions.first c = some f := by
    show ((s.closing_subscribers.subscript c).node p)._dimensions.first c = some f
    rw [(hs0 p).2 c, (hm p).2 c, hf]
  have hl := notifyLoop_single c p
    ({ s with closing_subscribers := s.closing_subscribers.subscript c } : Interpreter W)
  simp only [hv] at hl
  rw [hl] at hn
  obtain ⟨t, ht⟩ := Interpret_total s c
  refine ⟨t, ht, ?_⟩
  simp only [Interpret, matchSequences, MultidimensionalMatrix.IsEmpty,
    MultidimensionalMatrix.first_subscript, h1, Option.isNone_none, if_true] at ht
  rw [hn] at ht
  simp only [ha, List.isEmpty_cons, Bool.false_eq_true, if_false, Option.map_some',
    callSequence] at ht
  have hsc : ((MultidimensionalMatrix.atPath (fun m => (m.call c, Signal.silent)) p
      (MultidimensionalMatrix.atPath (fun m => (m.subscript c, Signal.silent)) p
        (s.closing_subscribers.subscript c)).1).1.call c).SameContent m0 :=
    (MultidimensionalMatrix.sameContent_call _ c).same_trans
      ((MultidimensionalMatrix.sameContent_callAt c p _).same_trans
        ((MultidimensionalMatrix.sameContent_subscriptAt c p _).same_trans (hs0.same_trans hm)))
  have hsize : (((MultidimensionalMatrix.atPath (fun m => (m.call c, Signal.silent)) p
      (MultidimensionalMatrix.atPath (fun m => (m.subscript c, Signal.silent)) p
        (s.closing_subscribers.subscript c)).1).1.call c).sub c).size =
      (m0.sub c)._count_of_values := (hsc.same_sub c).same_count
  by_cases hp : 0 < (m0.sub c)._count_of_values
  · simp only [hsize, hp, if_true, _SubscriberBeginningMeet, List.nil_append,
      Option.map_some', interpretBrackets_no_rules, hr, Bool.true_or] at ht
    cases ht
    exact ⟨hsc, by rw [if_pos hp], rfl, rfl, rfl, rfl, rfl⟩
  · simp only [hsize, hp, if_false, Option.map_some', interpretBrackets_no_rules, hr,
      Bool.true_or, if_true] at ht
    cases ht
    exact ⟨hsc, by rw [if_neg hp], rfl, rfl, rfl, rfl, rfl⟩

end Interpreter

namespace Interpreter

open tools

/-- The matrix after `Subscribe("\r\n", f)` on a fresh interpreter. -/
theorem subscribe_crlf {W : Type} (f : callback_type W) (w : W) :
    (fresh w).Subscribe [13, 10] f =
      some { fresh w with closing_subscribers :=
        ⟨Dimensions.dim 13 none (Dimensions.leaf 10 (some f) Dimensions.nil) 1 Dimensions.nil,
          1⟩ } := rfl

/-- Feeding one segment and its terminator `"\r\n"` when only `"\r\n"` is subscribed:
the callback is called once, with the segment. -/
theorem feed_segment {W : Type} (f : callback_type W) (seg : Buf)
    (hseg : 13 ∉ seg ∧ 10 ∉ seg) (s : Interpreter W)
    (hm : s.closing_subscribers.SameContent
      ⟨Dimensions.dim 13 none (Dimensions.leaf 10 (some f) Dimensions.nil) 1 Dimensions.nil, 1⟩)
    (ha : s.active_closing_subscribers = []) (hr : s.open_closed_subscribers = []) :
    ∃ t, s.feed (seg ++ [13, 10]) = some t ∧
      t.closing_subscribers.SameContent
        ⟨Dimensions.dim 13 none (Dimensions.leaf 10 (some f) Dimensions.nil) 1 Dimensions.nil,
          1⟩ ∧
      t.active_closing_subscribers = [] ∧ t.open_closed_subscribers = [] ∧
      t.data = (f s.world (s.data ++ seg)).2 ∧
      t.calls = s.calls ++ [Call.sequence [13, 10] (s.data ++ seg) (f s.world (s.data ++ seg)).2] ∧
      t.world = (f s.world (s.data ++ seg)).1 := by
  have hq : ∀ c ∈ seg,
      (⟨Dimensions.dim 13 none (Dimensions.leaf 10 (some f) Dimensions.nil) 1 Dimensions.nil,
        1⟩ : MultidimensionalMatrix (callback_type W))._dimensions.first c = none ∧
      ((⟨Dimensions.dim 13 none (Dimensions.leaf 10 (some f) Dimensions.nil) 1 Dimensions.nil,
        1⟩ : MultidimensionalMatrix (callback_type W)).sub c)._count_of_values = 0 := by
    intro c hc
    have hne : ¬ (13 = c) := fun e => hseg.1 (e ▸ hc)
    constructor
    · by_cases e : 13 = c <;> simp [Dimensions.first, e]
    · simp [MultidimensionalMatrix.sub, Dimensions.second, hne, MultidimensionalMatrix.empty]
  obtain ⟨t1, a1, a2, a3, a4, _, a6, a7, a8⟩ := feed_quiet _ seg s hm ha hr hq
  obtain ⟨t2, b1, b2, b3, b4, _, b6, b7, b8⟩ := Interpret_begin _ t1 13 a2 a3 a4
    (by simp [Dimensions.first]) (by simp [MultidimensionalMatrix.sub, Dimensions.second])
  obtain ⟨t3, c1, c2, c3, c4, _, c6, c7, c8⟩ := Interpret_complete _ t2 10 [13] f b2 b3 b4
    (by simp [Dimensions.first])
    (by simp [MultidimensionalMatrix.node, MultidimensionalMatrix.sub, Dimensions.second,
      Dimensions.first])
    (by simp [MultidimensionalMatrix.node, MultidimensionalMatrix.sub, Dimensions.second,
      MultidimensionalMatrix.empty])
  refine ⟨t3, ?_, c2, ?_, c4, ?_, ?_, ?_⟩
  · rw [feed_append, a1]
    show (match t1.Interpret 13 with
      | some s1 => feed s1 [10]
      | none => none) = some t3
    rw [b1]
    show (match t2.Interpret 10 with
      | some s1 => feed s1 []
      | none => none) = some t3
    rw [c1]
    rfl
  · rw [c3]; simp [MultidimensionalMatrix.sub, Dimensions.second, MultidimensionalMatrix.empty]
  · rw [c6, b8, b6, a8, a6]
  · rw [c7, b7, b8, b6, a7, a8, a6]; rfl
  · rw [c8, b8, b6, a8, a6]

/-- Feeding a list of terminated segments when only `"\r\n"` is subscribed with the
recording callback. -/
theorem feed_terminated (ws : List Buf) :
    ∀ s : Interpreter (List Buf),
      s.closing_subscribers.SameContent
        ⟨Dimensions.dim 13 none (Dimensions.leaf 10 (some recordAndEmpty) Dimensions.nil) 1
          Dimensions.nil, 1⟩ →
      s.active_closing_subscribers = [] → s.open_closed_subscribers = [] → s.data = [] →
      (∀ seg ∈ ws, 13 ∉ seg ∧ 10 ∉ seg) →
      ∃ t, s.feed (terminated ws) = some t ∧
        t.calls = s.calls ++ ws.map (fun seg => Call.sequence [13, 10] seg []) ∧
        t.world = s.world ++ ws ∧ t.data = [] ∧ t.active_closing_subscribers = [] := by
  induction ws with
  | nil =>
    intro s _ ha _ hd _
    exact ⟨s, rfl, by simp, by simp, hd, ha⟩
  | cons seg ws ih =>
    intro s hm ha hr hd hws
    obtain ⟨t1, a1, a2, a3, a4, a5, a6, a7⟩ :=
      feed_segment recordAndEmpty seg (hws seg (List.mem_cons_self _ _)) s hm ha hr
    simp only [recordAndEmpty, hd, List.nil_append] at a5 a6 a7
    obtain ⟨t2, b1, b2, b3, b4, b5⟩ :=
      ih t1 a2 a3 a4 a5 (fun x hx => hws x (List.mem_cons_of_mem _ hx))
    refine ⟨t2, ?_, ?_, ?_, b4, b5⟩
    · simp only [terminated]
      rw [feed_append, a1]
      exact b1
    · rw [b2, a6]; simp
    · rw [b3, a7]; simp

end Interpreter

/-- C3 (batching by terminator).  On a fresh `Interpreter` with only the sequence
`"\r\n"` subscribed, with a callback that records the string it receives and then
empties it, feeding `w1 "\r\n" w2 "\r\n" ... wn "\r\n"`, where no segment contains
`'\r'` or `'\n'`, returns, and calls the callback exactly `n` times, the `i`-th time with
the string `wi` (and the strings recorded by the callback are `w1, ..., wn`). -/
theorem batching_by_terminator (ws : List Buf) (hws : ∀ seg ∈ ws, 13 ∉ seg ∧ 10 ∉ seg) :
    ∃ s0 t : Interpreter (List Buf),
      (Interpreter.fresh []).Subscribe [13, 10] recordAndEmpty = some s0 ∧
      s0.feed (terminated ws) = some t ∧
      t.calls = ws.map (fun seg => Call.sequence [13, 10] seg []) ∧
      t.world = ws := by
  obtain ⟨t, h1, h2, h3, _⟩ := Interpreter.feed_terminated ws
    ({ Interpreter.fresh [] with closing_subscribers :=
        ⟨tools.Dimensions.dim 13 none
          (tools.Dimensions.leaf 10 (some recordAndEmpty) tools.Dimensions.nil) 1
          tools.Dimensions.nil, 1⟩ } : Interpreter (List Buf))
    (tools.MultidimensionalMatrix.SameContent.same_refl _) rfl rfl rfl hws
  exact ⟨_, t, Interpreter.subscribe_crlf recordAndEmpty [], h1, h2, h3⟩

/-- C3 at the spec's input `"cmd1\r\ncmd2\r\n"`. -/
theorem batching_by_terminator_witness :
    (∀ seg ∈ ([[99, 109, 100, 49], [99, 109, 100, 50]] : List Buf), 13 ∉ seg ∧ 10 ∉ seg) ∧
    ∃ s0 t : Interpreter (List Buf),
      (Interpreter.fresh []).Subscribe [13, 10] recordAndEmpty = some s0 ∧
      s0.feed [99, 109, 100, 49, 13, 10, 99, 109, 100, 50, 13, 10] = some t ∧
      t.calls = [Call.sequence [13, 10] [99, 109, 100, 49] [],
        Call.sequence [13, 10] [99, 109, 100, 50] []] ∧
      t.world = [[99, 109, 100, 49], [99, 109, 100, 50]] :=
  ⟨by decide, batching_by_terminator [[99, 109, 100, 49], [99, 109, 100, 50]] (by decide)⟩

namespace Interpreter

open tools

/-- The matrix after `Subscribe([x, y], f)` and `Subscribe([x, z], g)` on a fresh
interpreter: one entry at the root, whose dimension holds both elements. -/
theorem subscribe_shared_prefix {W : Type} (x y z : Sym) (hyz : y ≠ z)
    (f g : callback_type W) (w : W) :
    ((fresh w).Subscribe [x, y] f).bind (fun s => s.Subscribe [x, z] g) =
      some { fresh w with closing_subscribers :=
        ⟨Dimensions.dim x none
          (Dimensions.leaf z (some g) (Dimensions.leaf y (some f) Dimensions.nil)) 2
          Dimensions.nil, 2⟩ } := by
  simp [Subscribe, fresh, MultidimensionalMatrix.atPath, MultidimensionalMatrix.call,
    MultidimensionalMatrix.sub, MultidimensionalMatrix.setSub, MultidimensionalMatrix.assign,
    MultidimensionalMatrix.subscript, MultidimensionalMatrix.IsEmpty,
    MultidimensionalMatrix.receive, MultidimensionalMatrix.OnValueAdded,
    MultidimensionalMatrix.empty, Dimensions._create_dim_if_required, Dimensions.has,
    Dimensions.first, Dimensions.second, Dimensions.setFirst, Dimensions.setSecond, hyz]

/-- Feeding `[x, c]` when `[x, c]` is one of two subscribed sequences `[x, y]`, `[x, z]`:
exactly the callback stored under `[x, c]` is called, once. -/
theorem feed_shared_prefix {W : Type} (x y z c : Sym)
    (f g h : callback_type W) (w : W)
    (hc : (Dimensions.leaf z (some g)
      (Dimensions.leaf y (some f) Dimensions.nil)).first c = some h) :
    ∃ t, ({ fresh w with closing_subscribers :=
        ⟨Dimensions.dim x none
          (Dimensions.leaf z (some g) (Dimensions.leaf y (some f) Dimensions.nil)) 2
          Dimensions.nil, 2⟩ } : Interpreter W).feed [x, c] = some t ∧
      t.calls = [Call.sequence [x, c] [] (h w []).2] := by
  obtain ⟨t1, a1, a2, a3, a4, _, a6, a7, a8⟩ := Interpret_begin _
    ({ fresh w with closing_subscribers :=
        ⟨Dimensions.dim x none
          (Dimensions.leaf z (some g) (Dimensions.leaf y (some f) Dimensions.nil)) 2
          Dimensions.nil, 2⟩ } : Interpreter W) x
    (MultidimensionalMatrix.SameContent.same_refl _) rfl rfl
    (by simp [Dimensions.first]) (by simp [MultidimensionalMatrix.sub, Dimensions.second])
  obtain ⟨t2, b1, _, _, _, _, _, b7, _⟩ := Interpret_complete _ t1 c [x] h a2 a3 a4
    (by by_cases e : x = c <;> simp [Dimensions.first, e])
    (by simpa [MultidimensionalMatrix.node, MultidimensionalMatrix.sub, Dimensions.second]
      using hc)
    (by simp [MultidimensionalMatrix.node, MultidimensionalMatrix.sub, Dimensions.second,
      MultidimensionalMatrix.empty])
  refine ⟨t2, ?_, ?_⟩
  · show (match Interpret _ x with
      | some s1 => feed s1 [c]
      | none => none) = some t2
    rw [a1]
    show (match t1.Interpret c with
      | some s1 => feed s1 []
      | none => none) = some t2
    rw [b1]
    rfl
  · rw [b7, a7, a8, a6]; rfl

end Interpreter

/-- C8 (prefix sharing).  After subscribing `[x, y]` with `f` and `[x, z]` with `g`
(`y ≠ z`) on a fresh `Interpreter`, the root matrix has exactly one entry, for `x`; the
dimension it owns has `size() = 2` and holds `f` at `y` and `g` at `z`.  Feeding `x, y`
calls exactly the callback stored under `[x, y]` (that is `f`), once, and nothing else;
feeding `x, z` instead calls exactly the callback stored under `[x, z]` (`g`), once. -/
theorem prefix_sharing {W : Type} (x y z : Sym) (hyz : y ≠ z) (f g : callback_type W)
    (w : W) :
    ∃ (s0 : Interpreter W) (d : tools.Dimensions (callback_type W)),
      ((Interpreter.fresh w).Subscribe [x, y] f).bind (fun s => s.Subscribe [x, z] g) =
        some s0 ∧
      s0.closing_subscribers._dimensions = tools.Dimensions.dim x none d 2 tools.Dimensions.nil ∧
      (s0.closing_subscribers.sub x).size = 2 ∧
      d.first y = some f ∧ d.first z = some g ∧
      (∃ t, s0.feed [x, y] = some t ∧ t.calls = [Call.sequence [x, y] [] (f w []).2]) ∧
      (∃ t, s0.feed [x, z] = some t ∧ t.calls = [Call.sequence [x, z] [] (g w []).2]) := by
  have hfy : (tools.Dimensions.leaf z (some g)
      (tools.Dimensions.leaf y (some f) tools.Dimensions.nil)).first y = some f := by
    simp [tools.Dimensions.first, Ne.symm hyz]
  have hgz : (tools.Dimensions.leaf z (some g)
      (tools.Dimensions.leaf y (some f) tools.Dimensions.nil)).first z = some g := by
    simp [tools.Dimensions.first]
  refine ⟨_, _, Interpreter.subscribe_shared_prefix x y z hyz f g w, rfl, ?_, hfy, hgz,
    Interpreter.feed_shared_prefix x y z y f g f w hfy,
    Interpreter.feed_shared_prefix x y z z f g g w hgz⟩
  simp [tools.MultidimensionalMatrix.sub, tools.Dimensions.second,
    tools.MultidimensionalMatrix.size]

/-- C8 at the spec's input: sequences `"ab"` and `"ac"`. -/
theorem prefix_sharing_witness :
    (98 : Sym) ≠ 99 ∧
    ∃ (s0 : Interpreter Unit) (d : tools.Dimensions (callback_type Unit)),
      ((Interpreter.fresh ()).Subscribe [97, 98] (fun v b => (v, b))).bind
        (fun s => s.Subscribe [97, 99] (fun v _ => (v, []))) = some s0 ∧
      s0.closing_subscribers._dimensions = tools.Dimensions.dim 97 none d 2 tools.Dimensions.nil ∧
      (s0.closing_subscribers.sub 97).size = 2 ∧
      d.first 98 = some (fun v b => (v, b)) ∧ d.first 99 = some (fun v _ => (v, [])) ∧
      (∃ t, s0.feed [97, 98] = some t ∧ t.calls = [Call.sequence [97, 98] [] []]) ∧
      (∃ t, s0.feed [97, 99] = some t ∧ t.calls = [Call.sequence [97, 99] [] []]) :=
  ⟨by decide, prefix_sharing 97 98 99 (by decide) (fun v b => (v, b)) (fun v _ => (v, [])) ()⟩

namespace Interpreter

variable {W : Type}

open tools

theorem closeLoop_other (c o cl : Sym) (cb : open_closed_callback_type W) (hc : cl ≠ c)
    (j : Nat) (s : Interpreter W) (notified : List Sym)
    (hr : s.open_closed_subscribers = [(o, (cl, cb))]) :
    closeLoop c (List.replicate j (o, o)) s notified = (s, notified) := by
  induction j with
  | zero => rfl
  | succ j ih =>
    simp only [List.replicate_succ, closeLoop, hr, List.lookup, beq_self_eq_true, hc,
      if_false]
    exact ih

theorem closeLoop_notified (o cl : Sym) (cb : open_closed_callback_type W)
    (j : Nat) (s : Interpreter W) (hr : s.open_closed_subscribers = [(o, (cl, cb))]) :
    closeLoop cl (List.replicate j (o, o)) s [o] = (s, [o]) := by
  induction j with
  | zero => rfl
  | succ j ih =>
    simp only [List.replicate_succ, closeLoop, hr, List.lookup, beq_self_eq_true, if_true,
      List.mem_singleton]
    exact ih

theorem closeLoop_first (o cl : Sym) (cb : open_closed_callback_type W)
    (j : Nat) (s : Interpreter W) (hr : s.open_closed_subscribers = [(o, (cl, cb))]) :
    closeLoop cl (List.replicate (j + 1) (o, o)) s [] = (s.callBracket o false cb, [o]) := by
  simp only [List.replicate_succ, closeLoop, hr, List.lookup, beq_self_eq_true, if_true,
    List.not_mem_nil, if_false, List.nil_append]
  exact closeLoop_notified o cl cb j _ hr

end Interpreter

namespace Interpreter

variable {W : Type}

open tools

theorem quiet_of_sameContent_empty (s : Interpreter W) (c : Sym)
    (hm : s.closing_subscribers.SameContent MultidimensionalMatrix.empty) :
    s.closing_subscribers._dimensions.first c = none ∧
      (s.closing_subscribers.sub c)._count_of_values = 0 :=
  ⟨(hm.same_first c).trans rfl, ((hm.same_sub c).same_count).trans rfl⟩

theorem sameContent_empty_step (s : Interpreter W) (c : Sym)
    (hm : s.closing_subscribers.SameContent MultidimensionalMatrix.empty) :
    ((s.closing_subscribers.subscript c).call c).SameContent MultidimensionalMatrix.empty :=
  ((MultidimensionalMatrix.sameContent_call _ c).same_trans
    (MultidimensionalMatrix.sameContent_subscript _ c)).same_trans hm

/-- One `Interpret` of a character that is neither the opening nor the closing symbol of
the only rule, with no sequence subscribed: it is appended to `data`. -/
theorem Interpret_bracket_plain (o cl c : Sym) (cb : open_closed_callback_type W) (j : Nat)
    (hco : c ≠ o) (hcc : cl ≠ c) (s : Interpreter W)
    (hm : s.closing_subscribers.SameContent MultidimensionalMatrix.empty)
    (ha : s.active_closing_subscribers = [])
    (hr : s.open_closed_subscribers = [(o, (cl, cb))])
    (hi : s.active_open_closed_subscribers = List.replicate j (o, o)) :
    ∃ t, s.Interpret c = some t ∧
      t.closing_subscribers.SameContent MultidimensionalMatrix.empty ∧
      t.active_closing_subscribers = [] ∧ t.open_closed_subscribers = [(o, (cl, cb))] ∧
      t.active_open_closed_subscribers = List.replicate j (o, o) ∧
      t.data = s.data ++ [c] ∧ t.calls = s.calls ∧ t.world = s.world := by
  obtain ⟨h1, h2⟩ := quiet_of_sameContent_empty s c hm
  have hsc := sameContent_empty_step s c hm
  obtain ⟨t, ht⟩ := Interpret_total s c
  refine ⟨t, ht, ?_⟩
  have hbeq : (c == o) = false := by simpa using hco
  simp only [Interpret, matchSequences_quiet s c ha h1 h2, Option.map_some',
    interpretBrackets, _NotifyOpenClosedSubscribersAndEraseIfNoMoreInDimension, hi, hr,
    closeLoop_other c o cl cb hcc] at ht
  simp only [List.isEmpty_cons, Bool.false_eq_true, if_false, eraseNotified,
    List.foldl_nil, List.lookup, hbeq, List.isEmpty_nil, Bool.not_true, ha, Bool.or_false]
    at ht
  cases ht
  exact ⟨hsc, rfl, rfl, rfl, rfl, rfl, rfl⟩

/-- One `Interpret` of the opening symbol of the only rule (which differs from its
closing symbol): one instance is pushed and the callback is called once with `true`. -/
theorem Interpret_bracket_open (o cl : Sym) (cb : open_closed_callback_type W) (j : Nat)
    (hne : cl ≠ o) (s : Interpreter W)
    (hm : s.closing_subscribers.SameContent MultidimensionalMatrix.empty)
    (ha : s.active_closing_subscribers = [])
    (hr : s.open_closed_subscribers = [(o, (cl, cb))])
    (hi : s.active_open_closed_subscribers = List.replicate j (o, o)) :
    ∃ t, s.Interpret o = some t ∧
      t.closing_subscribers.SameContent MultidimensionalMatrix.empty ∧
      t.active_closing_subscribers = [] ∧ t.open_closed_subscribers = [(o, (cl, cb))] ∧
      t.active_open_closed_subscribers = List.replicate (j + 1) (o, o) ∧
      t.data = (cb s.world s.data true).2 ∧
      t.calls = s.calls ++ [Call.bracket o true s.data (cb s.world s.data true).2] ∧
      t.world = (cb s.world s.data true).1 := by
  obtain ⟨h1, h2⟩ := quiet_of_sameContent_empty s o hm
  have hsc := sameContent_empty_step s o hm
  obtain ⟨t, ht⟩ := Interpret_total s o
  refine ⟨t, ht, ?_⟩
  simp only [Interpret, matchSequences_quiet s o ha h1 h2, Option.map_some',
    interpretBrackets, _NotifyOpenClosedSubscribersAndEraseIfNoMoreInDimension, hi, hr,
    closeLoop_other o o cl cb hne] at ht
  simp only [List.isEmpty_cons, Bool.false_eq_true, if_false, eraseNotified,
    List.foldl_nil, List.lookup, beq_self_eq_true, _OpenClosedSubscriberOpeningMeet,
    callBracket] at ht
  cases ht
  refine ⟨hsc, ha, rfl, ?_, rfl, rfl, rfl⟩
  show List.replicate j (o, o) ++ [(o, o)] = List.replicate (j + 1) (o, o)
  rw [List.replicate_succ']

/-- One `Interpret` of the closing symbol of the only rule (which differs from its
opening symbol) while `j + 1` instances are open: the callback is called once with
`false` and one instance is erased. -/
theorem Interpret_bracket_close (o cl : Sym) (cb : open_closed_callback_type W) (j : Nat)
    (hne : cl ≠ o) (s : Interpreter W)
    (hm : s.closing_subscribers.SameContent MultidimensionalMatrix.empty)
    (ha : s.active_closing_subscribers = [])
    (hr : s.open_closed_subscribers = [(o, (cl, cb))])
    (hi : s.active_open_closed_subscribers = List.replicate (j + 1) (o, o)) :
    ∃ t, s.Interpret cl = some t ∧
      t.closing_subscribers.SameContent MultidimensionalMatrix.empty ∧
      t.active_closing_subscribers = [] ∧ t.open_closed_subscribers = [(o, (cl, cb))] ∧
      t.active_open_closed_subscribers = List.replicate j (o, o) ∧
      t.data = (cb s.world s.data false).2 ∧
      t.calls = s.calls ++ [Call.bracket o false s.data (cb s.world s.data false).2] ∧
      t.world = (cb s.world s.data false).1 := by
  obtain ⟨h1, h2⟩ := quiet_of_sameContent_empty s cl hm
  have hsc := sameContent_empty_step s cl hm
  obtain ⟨t, ht⟩ := Interpret_total s cl
  refine ⟨t, ht, ?_⟩
  have hbeq : (cl == o) = false := by simpa using hne
  simp only [Interpret, matchSequences_quiet s cl ha h1 h2, Option.map_some',
    interpretBrackets, _NotifyOpenClosedSubscribersAndEraseIfNoMoreInDimension, hi, hr,
    closeLoop_first o cl cb] at ht
  simp only [List.isEmpty_cons, Bool.false_eq_true, if_false, eraseNotified,
    List.foldl_cons, List.foldl_nil, List.lookup, hbeq, callBracket, Bool.not_false,
    if_true] at ht
  cases ht
  refine ⟨hsc, ha, rfl, ?_, rfl, rfl, rfl⟩
  show (List.replicate (j + 1) (o, o)).eraseP (fun inst => decide (inst.2 = o)) =
    List.replicate j (o, o)
  simp [List.replicate_succ, List.eraseP_cons]

end Interpreter

namespace Interpreter

variable {W : Type}

open tools

/-- Feeding a text without the opening and the closing symbol of the only rule, with no
sequence subscribed, appends it to `data`. -/
theorem feed_bracket_plain (o cl : Sym) (cb : open_closed_callback_type W) (j : Nat)
    (u : List Sym) :
    ∀ s : Interpreter W, (o ∉ u ∧ cl ∉ u) →
      s.closing_subscribers.SameContent MultidimensionalMatrix.empty →
      s.active_closing_subscribers = [] →
      s.open_closed_subscribers = [(o, (cl, cb))] →
      s.active_open_closed_subscribers = List.replicate j (o, o) →
      ∃ t, s.feed u = some t ∧
        t.closing_subscribers.SameContent MultidimensionalMatrix.empty ∧
        t.active_closing_subscribers = [] ∧ t.open_closed_subscribers = [(o, (cl, cb))] ∧
        t.active_open_closed_subscribers = List.replicate j (o, o) ∧
        t.data = s.data ++ u ∧ t.calls = s.calls ∧ t.world = s.world := by
  induction u with
  | nil =>
    intro s _ hm ha hr hi
    exact ⟨s, rfl, hm, ha, hr, hi, by simp, rfl, rfl⟩
  | cons c u ih =>
    intro s hu hm ha hr hi
    have hco : c ≠ o := fun e => hu.1 (e ▸ List.mem_cons_self _ _)
    have hcc : cl ≠ c := fun e => hu.2 (e ▸ List.mem_cons_self _ _)
    obtain ⟨t1, a1, a2, a3, a4, a5, a6, a7, a8⟩ :=
      Interpret_bracket_plain o cl c cb j hco hcc s hm ha hr hi
    obtain ⟨t2, b1, b2, b3, b4, b5, b6, b7, b8⟩ := ih t1
      ⟨fun h => hu.1 (List.mem_cons_of_mem _ h), fun h => hu.2 (List.mem_cons_of_mem _ h)⟩
      a2 a3 a4 a5
    refine ⟨t2, by simp only [feed, a1, b1], b2, b3, b4, b5, ?_, by rw [b7, a7],
      by rw [b8, a8]⟩
    rw [b6, a6, List.append_assoc]; rfl

theorem feed_cons_some (s t : Interpreter W) (c : Sym) (cs : List Sym)
    (h : s.Interpret c = some t) : s.feed (c :: cs) = t.feed cs := by
  simp only [feed, h]

end Interpreter


/-- C4 (bracket round trip).  On a fresh `Interpreter` with only the pair
`('{', '}', cb)` subscribed, where `cb` records the string and the flag it receives and
then empties the string, for all texts `u`, `v`, `x` containing neither `'{'` nor `'}'`:
feeding `u` calls nothing; `Interpret('{')` calls `cb` with `(u, true)`; feeding `v` calls
nothing; `Interpret('}')` calls `cb` with `(v, false)`; feeding `x` calls nothing.  So
feeding `u '{' v '}' x` calls `cb` exactly twice, and `data` at the end is `x`. -/
theorem bracket_round_trip (u v x : Buf) (hu : 123 ∉ u ∧ 125 ∉ u) (hv : 123 ∉ v ∧ 125 ∉ v)
    (hx : 123 ∉ x ∧ 125 ∉ x) :
    ∃ s1 s2 s3 s4 t : Interpreter (List (Buf × Bool)),
      ((Interpreter.fresh []).SubscribePair 123 125 recordBracket).feed u = some s1 ∧
      s1.calls = [] ∧
      s1.Interpret 123 = some s2 ∧ s2.calls = [Call.bracket 123 true u []] ∧
      s2.feed v = some s3 ∧ s3.calls = [Call.bracket 123 true u []] ∧
      s3.Interpret 125 = some s4 ∧
      s4.calls = [Call.bracket 123 true u [], Call.bracket 123 false v []] ∧
      s4.feed x = some t ∧
      t.calls = [Call.bracket 123 true u [], Call.bracket 123 false v []] ∧
      t.world = [(u, true), (v, false)] ∧ t.data = x ∧
      ((Interpreter.fresh []).SubscribePair 123 125 recordBracket).feed
        (u ++ 123 :: (v ++ 125 :: x)) = some t := by
  obtain ⟨s1, a1, a2, a3, a4, a5, a6, a7, a8⟩ :=
    Interpreter.feed_bracket_plain 123 125 recordBracket 0 u
      ((Interpreter.fresh []).SubscribePair 123 125 recordBracket) hu
      (tools.MultidimensionalMatrix.SameContent.same_refl _) rfl rfl rfl
  obtain ⟨s2, b1, b2, b3, b4, b5, b6, b7, b8⟩ :=
    Interpreter.Interpret_bracket_open 123 125 recordBracket 0 (by decide) s1 a2 a3 a4 a5
  obtain ⟨s3, c1, c2, c3, c4, c5, c6, c7, c8⟩ :=
    Interpreter.feed_bracket_plain 123 125 recordBracket 1 v s2 hv b2 b3 b4 b5
  obtain ⟨s4, d1, d2, d3, d4, d5, d6, d7, d8⟩ :=
    Interpreter.Interpret_bracket_close 123 125 recordBracket 0 (by decide) s3 c2 c3 c4 c5
  obtain ⟨t, e1, e2, e3, e4, e5, e6, e7, e8⟩ :=
    Interpreter.feed_bracket_plain 123 125 recordBracket 0 x s4 hx d2 d3 d4 d5
  have ha6 : s1.data = u := by rw [a6]; rfl
  have ha7 : s1.calls = [] := by rw [a7]; rfl
  have ha8 : s1.world = [] := by rw [a8]; rfl
  have hb6 : s2.data = [] := by rw [b6]; rfl
  have hb7 : s2.calls = [Call.bracket 123 true u []] := by
    rw [b7, ha7, ha6]; rfl
  have hb8 : s2.world = [(u, true)] := by rw [b8, ha8, ha6]; rfl
  have hc6 : s3.data = v := by rw [c6, hb6]; rfl
  have hd6 : s4.data = [] := by rw [d6]; rfl
  have hd7 : s4.calls = [Call.bracket 123 true u [], Call.bracket 123 false v []] := by
    rw [d7, c7, hb7, hc6]; rfl
  have hd8 : s4.world = [(u, true), (v, false)] := by rw [d8, c8, hb8, hc6]; rfl
  refine ⟨s1, s2, s3, s4, t, a1, ha7, b1, hb7, c1, by rw [c7, hb7], d1, hd7, e1,
    by rw [e7, hd7], by rw [e8, hd8], by rw [e6, hd6]; rfl, ?_⟩
  rw [Interpreter.feed_append, a1]
  show Interpreter.feed s1 (123 :: (v ++ 125 :: x)) = some t
  rw [Interpreter.feed_cons_some s1 s2 123 _ b1, Interpreter.feed_append, c1]
  show Interpreter.feed s3 (125 :: x) = some t
  rw [Interpreter.feed_cons_some s3 s4 125 _ d1, e1]

/-- C4 at the spec's input `"x{y}z"`. -/
theorem bracket_round_trip_witness :
    ((123 : Sym) ∉ ([120] : Buf) ∧ (125 : Sym) ∉ ([120] : Buf)) ∧
    ((123 : Sym) ∉ ([121] : Buf) ∧ (125 : Sym) ∉ ([121] : Buf)) ∧
    ((123 : Sym) ∉ ([122] : Buf) ∧ (125 : Sym) ∉ ([122] : Buf)) ∧
    ∃ s1 s2 s3 s4 t : Interpreter (List (Buf × Bool)),
      ((Interpreter.fresh []).SubscribePair 123 125 recordBracket).feed [120] = some s1 ∧
      s1.calls = [] ∧
      s1.Interpret 123 = some s2 ∧ s2.calls = [Call.bracket 123 true [120] []] ∧
      s2.feed [121] = some s3 ∧ s3.calls = [Call.bracket 123 true [120] []] ∧
      s3.Interpret 125 = some s4 ∧
      s4.calls = [Call.bracket 123 true [120] [], Call.bracket 123 false [121] []] ∧
      s4.feed [122] = some t ∧
      t.calls = [Call.bracket 123 true [120] [], Call.bracket 123 false [121] []] ∧
      t.world = [([120], true), ([121], false)] ∧ t.data = [122] ∧
      ((Interpreter.fresh []).SubscribePair 123 125 recordBracket).feed
        ([120] ++ 123 :: ([121] ++ 125 :: [122])) = some t :=
  ⟨by decide, by decide, by decide,
    bracket_round_trip [120] [121] [122] (by decide) (by decide) (by decide)⟩

/-- C1, evaluated at a failing input.  With only `"abc"` subscribed on a fresh
`Interpreter`, feeding `'a'`, `'b'`, `'c'` returns without a single
call: the second loop of `_NotifySubscribersAndEraseIfNoMoreInDimension` visits the
pointer it has just pushed for `"ab"` in the same pass and puts it on `to_remove`, so
after `'b'` the only active pointer is still the one for `"a"` and `'c'` completes
nothing. -/
theorem three_symbol_sequence_not_called :
    (((Interpreter.fresh ()).Subscribe [97, 98, 99] (fun v d => (v, d))).bind
        (fun s => (s.feed [97, 98]).map (fun t => t.active_closing_subscribers))) =
      some [[97]] ∧
    (((Interpreter.fresh ()).Subscribe [97, 98, 99] (fun v d => (v, d))).bind
        (fun s => s.callsDuring [97, 98, 99])) = some [] :=
  ⟨by decide, by decide⟩

/-- C2, evaluated at a failing input.  With `"abc"` and `"ab"` subscribed, after feeding
`'a'`, `'b'` the pointer for `"a"` is still active, and feeding a second `'b'` calls the
callback of `"ab"` again although the two symbols fed last are `"bb"`. -/
theorem stale_pointer_calls_again :
    ((((Interpreter.fresh ()).Subscribe [97, 98, 99] (fun v d => (v, d))).bind
        (fun s => s.Subscribe [97, 98] (fun v d => (v, d)))).bind
        (fun s => (s.feed [97, 98]).bind (fun t => t.callsDuring [98]))) =
      some [Call.sequence [97, 98] [] []] :=
  rfl

/-- C9, evaluated at a failing input.  With only `"\r\n"` subscribed, after feeding
`'\r'` the sequence block of `Interpret('b')` ends with `any_notified = true` although it
has made no call; `'b'` is then not appended to `data`. -/
theorem any_notified_without_call :
    (((Interpreter.fresh ()).Subscribe [13, 10] (fun v d => (v, d))).bind
        (fun s => (s.feed [13]).bind (fun t =>
          (t.matchSequences 98).map (fun r => (r.2, r.1.calls.drop t.calls.length))))) =
      some (true, []) ∧
    (((Interpreter.fresh ()).Subscribe [13, 10] (fun v d => (v, d))).bind
        (fun s => (s.feed [97, 13, 98]).map (fun t => (t.data, t.calls)))) =
      some ([97], []) :=
  ⟨rfl, rfl⟩

namespace tools

namespace MultidimensionalMatrix

variable {V : Type}

theorem second_call_other (m : MultidimensionalMatrix V) (i j : Nat) (h : i ≠ j) :
    (m.call i)._dimensions.second j = m._dimensions.second j := by
  rw [call_dimensions]
  cases (m._dimensions._create_dim_if_required i).second i with
  | none => rw [Dimensions.second_setSecond_other _ _ _ _ h, Dimensions.second_create]
  | some ch => rw [Dimensions.second_create]

theorem second_call_same (m : MultidimensionalMatrix V) (i : Nat) :
    (m.call i)._dimensions.second i = some (m.sub i) := by
  rw [call_dimensions]
  cases hsec : (m._dimensions._create_dim_if_required i).second i with
  | none =>
    rw [Dimensions.second_setSecond_same _ _ _ (Dimensions.has_create _ _)]
    rw [Dimensions.second_create] at hsec
    simp only [sub, hsec]
  | some ch =>
    simp only [hsec]
    rw [Dimensions.second_create] at hsec
    simp only [sub, hsec]

theorem has_call_of_has (m : MultidimensionalMatrix V) (i id : Nat)
    (h : m._dimensions.has id = true) : (m.call i)._dimensions.has id = true := by
  rw [call_dimensions]
  cases (m._dimensions._create_dim_if_required i).second i with
  | none =>
    simp only [Dimensions.has_setSecond]
    exact Dimensions.has_create_of_has _ _ _ h
  | some ch => exact Dimensions.has_create_of_has _ _ _ h

theorem within_refl (a : MultidimensionalMatrix V) : a.Within a :=
  fun _ n hn => ⟨n, hn, fun _ h => h⟩

theorem within_trans {a b c : MultidimensionalMatrix V} (h1 : a.Within b) (h2 : b.Within c) :
    a.Within c := by
  intro p n hn
  obtain ⟨n1, hn1, hh1⟩ := h1 p n hn
  obtain ⟨n2, hn2, hh2⟩ := h2 p n1 hn1
  exact ⟨n2, hn2, fun id h => hh2 id (hh1 id h)⟩

theorem within_subscript (m : MultidimensionalMatrix V) (c : Nat) : m.Within (m.subscript c) := by
  intro p n hn
  cases p with
  | nil =>
    simp only [node?, Option.some.injEq] at hn
    subst hn
    exact ⟨_, rfl, fun id h => Dimensions.has_create_of_has _ _ _ h⟩
  | cons i p =>
    refine ⟨n, ?_, fun _ h => h⟩
    simp only [node?, subscript, Dimensions.second_create] at hn ⊢
    exact hn

theorem within_call (m : MultidimensionalMatrix V) (c : Nat) : m.Within (m.call c) := by
  intro p n hn
  cases p with
  | nil =>
    simp only [node?, Option.some.injEq] at hn
    subst hn
    exact ⟨_, rfl, fun id h => has_call_of_has _ _ _ h⟩
  | cons i p =>
    refine ⟨n, ?_, fun _ h => h⟩
    simp only [node?] at hn ⊢
    by_cases e : c = i
    · subst e
      rw [second_call_same]
      cases hsec : m._dimensions.second c with
      | none => rw [hsec] at hn; simp at hn
      | some ch =>
        rw [hsec] at hn
        simp only [sub, hsec]
        exact hn
    · rw [second_call_other _ _ _ e]
      exact hn

/-- An access that keeps the matrices and entries of the matrix it is performed on keeps
those of the root. -/
theorem within_atPath (g : MultidimensionalMatrix V → MultidimensionalMatrix V × Signal)
    (hg : ∀ n : MultidimensionalMatrix V, n.Within (g n).1) (p : List Nat) :
    ∀ m : MultidimensionalMatrix V, m.Within (atPath g p m).1 := by
  induction p with
  | nil => intro m; exact hg m
  | cons i p ih =>
    intro m q n hn
    have hdims : ∀ sig : Signal, ∀ x : MultidimensionalMatrix V,
        (x.receive sig)._dimensions = x._dimensions := by
      intro sig x; cases sig <;> rfl
    cases q with
    | nil =>
      simp only [node?, Option.some.injEq] at hn
      subst hn
      refine ⟨_, rfl, fun id h => ?_⟩
      simp only [atPath, hdims, setSub, Dimensions.has_setSecond]
      exact has_call_of_has _ _ _ h
    | cons j q =>
      simp only [node?, atPath, hdims, setSub] at hn ⊢
      by_cases e : i = j
      · subst e
        rw [Dimensions.second_setSecond_same _ _ _ (call_has m i)]
        cases hsec : m._dimensions.second i with
        | none => rw [hsec] at hn; simp at hn
        | some ch =>
          rw [hsec] at hn
          have hsub : (m.call i).sub i = ch := by
            rw [sub_call]; simp only [sub, hsec]
          rw [hsub]
          exact ih ch q n hn
      · rw [Dimensions.second_setSecond_other _ _ _ _ e, second_call_other _ _ _ e]
        exact ⟨n, hn, fun _ h => h⟩

theorem node_of_node? (p : List Nat) :
    ∀ m n : MultidimensionalMatrix V, m.node? p = some n → m.node p = n := by
  induction p with
  | nil => intro m n h; simp only [node?, Option.some.injEq] at h; exact h
  | cons i p ih =>
    intro m n h
    simp only [node?] at h
    cases hsec : m._dimensions.second i with
    | none => rw [hsec] at h; simp at h
    | some ch =>
      rw [hsec] at h
      simp only [node, sub, hsec]
      exact ih ch n h

end MultidimensionalMatrix

end tools

namespace tools

namespace MultidimensionalMatrix

variable {V : Type}

theorem node_of_node?_none (p : List Nat) :
    ∀ m : MultidimensionalMatrix V, m.node? p = none → m.node p = empty := by
  induction p with
  | nil => intro m h; simp [node?] at h
  | cons i p ih =>
    intro m h
    simp only [node?] at h
    cases hsec : m._dimensions.second i with
    | none => simp only [node, sub, hsec]; exact node_empty p
    | some ch =>
      rw [hsec] at h
      simp only [node, sub, hsec]
      exact ih ch h

theorem within_subscriptAt (c : Nat) (p : List Nat) (m : MultidimensionalMatrix V) :
    m.Within (atPath (fun n => (n.subscript c, Signal.silent)) p m).1 :=
  within_atPath _ (fun n => within_subscript n c) p m

theorem within_callAt (c : Nat) (p : List Nat) (m : MultidimensionalMatrix V) :
    m.Within (atPath (fun n => (n.call c, Signal.silent)) p m).1 :=
  within_atPath _ (fun n => within_call n c) p m

end MultidimensionalMatrix

end tools

namespace Interpreter

variable {W : Type}

open tools

theorem notifyLoop_within (c : Sym) (ps : List (List Sym)) :
    ∀ s : Interpreter W,
      s.closing_subscribers.Within (notifyLoop c ps s).closing_subscribers := by
  induction ps with
  | nil => intro s; exact MultidimensionalMatrix.within_refl _
  | cons p rest ih =>
    intro s
    have hw := MultidimensionalMatrix.within_subscriptAt c p s.closing_subscribers
    simp only [notifyLoop]
    split
    · rename_i f _
      exact MultidimensionalMatrix.within_trans hw (ih
        (callSequence { s with closing_subscribers := (MultidimensionalMatrix.atPath
          (fun m => (m.subscript c, Signal.silent)) p s.closing_subscribers).1 } (p ++ [c]) f))
    · exact MultidimensionalMatrix.within_trans hw (ih
        { s with closing_subscribers := (MultidimensionalMatrix.atPath
          (fun m => (m.subscript c, Signal.silent)) p s.closing_subscribers).1 })

theorem advanceLoop_within (c : Sym) (fuel : Nat) :
    ∀ (root : MultidimensionalMatrix (callback_type W)) (pending active rm : List (List Sym))
      (r : MultidimensionalMatrix (callback_type W) × List (List Sym) × List (List Sym)),
      advanceLoop c fuel root pending active rm = some r → root.Within r.1 := by
  induction fuel with
  | zero =>
    intro root pending active rm r h
    cases pending with
    | nil =>
      simp only [advanceLoop, Option.some.injEq] at h
      subst h
      exact MultidimensionalMatrix.within_refl _
    | cons p rest => simp [advanceLoop] at h
  | succ fuel ih =>
    intro root pending active rm r h
    cases pending with
    | nil =>
      simp only [advanceLoop, Option.some.injEq] at h
      subst h
      exact MultidimensionalMatrix.within_refl _
    | cons p rest =>
      have hw := MultidimensionalMatrix.within_callAt c p root
      simp only [advanceLoop] at h
      split at h
      · exact MultidimensionalMatrix.within_trans hw (ih _ _ _ _ _ h)
      · exact MultidimensionalMatrix.within_trans hw (ih _ _ _ _ _ h)

theorem notify_within (s t : Interpreter W) (c : Sym)
    (h : s._NotifySubscribersAndEraseIfNoMoreInDimension c = some t) :
    s.closing_subscribers.Within t.closing_subscribers := by
  simp only [_NotifySubscribersAndEraseIfNoMoreInDimension] at h
  split at h
  · simp at h
  · rename_i root active rm hloop
    simp only [Option.some.injEq] at h
    subst h
    exact MultidimensionalMatrix.within_trans (notifyLoop_within c _ s)
      (advanceLoop_within c _ _ _ _ _ _ hloop)

theorem matchSequences_within (s t : Interpreter W) (c : Sym) (flag : Bool)
    (h : s.matchSequences c = some (t, flag)) :
    s.closing_subscribers.Within t.closing_subscribers := by
  have h0 := MultidimensionalMatrix.within_subscript s.closing_subscribers c
  have key : ∀ s1 : Interpreter W, s.closing_subscribers.Within s1.closing_subscribers →
      ∀ r : Interpreter W × Bool,
        (if s1.active_closing_subscribers.isEmpty then some (s1, false)
          else (s1._NotifySubscribersAndEraseIfNoMoreInDimension c).map (fun t => (t, true))) =
          some r → s.closing_subscribers.Within r.1.closing_subscribers := by
    intro s1 hw r hr
    by_cases he : s1.active_closing_subscribers.isEmpty = true
    · rw [if_pos he] at hr
      cases hr
      exact hw
    · rw [if_neg he] at hr
      cases hn : s1._NotifySubscribersAndEraseIfNoMoreInDimension c with
      | none => rw [hn] at hr; simp at hr
      | some t1 =>
        rw [hn] at hr
        simp only [Option.map_some', Option.some.injEq] at hr
        subst hr
        exact MultidimensionalMatrix.within_trans hw (notify_within _ _ c hn)
  simp only [matchSequences] at h
  split at h
  · simp at h
  · rename_i s2 flag2 hn
    have h2 := key _ (by split <;> exact h0) (s2, flag2) hn
    have h3 := MultidimensionalMatrix.within_call s2.closing_subscribers c
    split at h
    · simp only [Option.some.injEq, Prod.mk.injEq] at h
      obtain ⟨h1, _⟩ := h
      subst h1
      exact MultidimensionalMatrix.within_trans h2 h3
    · simp only [Option.some.injEq, Prod.mk.injEq] at h
      obtain ⟨h1, _⟩ := h
      subst h1
      exact MultidimensionalMatrix.within_trans h2 h3

/-- The bracket block and the end of `Interpret` touch neither the matrix, nor the rule
table, nor the list of active pointers. -/
theorem interpretBrackets_frame (s : Interpreter W) (c : Sym) (any_notified : Bool) :
    (interpretBrackets s c any_notified).closing_subscribers = s.closing_subscribers ∧
    (interpretBrackets s c any_notified).open_closed_subscribers = s.open_closed_subscribers ∧
    (interpretBrackets s c any_notified).active_closing_subscribers =
      s.active_closing_subscribers := by
  have key : (if s.open_closed_subscribers.isEmpty then (s, false)
        else s._NotifyOpenClosedSubscribersAndEraseIfNoMoreInDimension c).1.closing_subscribers =
          s.closing_subscribers ∧
      (if s.open_closed_subscribers.isEmpty then (s, false)
        else s._NotifyOpenClosedSubscribersAndEraseIfNoMoreInDimension
          c).1.open_closed_subscribers = s.open_closed_subscribers ∧
      (if s.open_closed_subscribers.isEmpty then (s, false)
        else s._NotifyOpenClosedSubscribersAndEraseIfNoMoreInDimension
          c).1.active_closing_subscribers = s.active_closing_subscribers := by
    split
    · exact ⟨rfl, rfl, rfl⟩
    · obtain ⟨_, _, _, _, _, h5, h6, h7, _⟩ :=
        closeLoop_calls c s.active_open_closed_subscribers s []
      exact ⟨h5, h7, h6⟩
  simp only [interpretBrackets]
  generalize (if s.open_closed_subscribers.isEmpty then (s, false)
    else s._NotifyOpenClosedSubscribersAndEraseIfNoMoreInDimension c) = r at key ⊢
  split
  · exact key
  · split
    · exact key
    · split
      · exact key
      · exact key

end Interpreter

/-- C20 (feeding preserves registrations).  `Interpret(c)` returns in every state, and
afterwards: the terminal slot of every symbol sequence holds what it held before (it is
occupied iff it was, with the same callback); `size()` of the root is unchanged; every
matrix of the trie that existed before still exists, with the same `size()` and the same
element values; every matrix that exists now but did not before is empty (`size() = 0`,
no value); and the bracket rule table is unchanged.  So the only changes of the trie are
newly created empty entries and empty sub-matrices.  (Callbacks cannot call `Subscribe`
in this model.) -/
theorem feeding_preserves_registrations {W : Type} (s : Interpreter W) (c : Sym) :
    ∃ t : Interpreter W, s.Interpret c = some t ∧
      (∀ seq : List Sym,
        t.closing_subscribers.terminal seq = s.closing_subscribers.terminal seq) ∧
      t.closing_subscribers.size = s.closing_subscribers.size ∧
      (∀ (p : List Sym) (n : tools.MultidimensionalMatrix (callback_type W)),
        s.closing_subscribers.node? p = some n →
        ∃ n1, t.closing_subscribers.node? p = some n1 ∧ n1.size = n.size ∧
          ∀ d : Sym, n1._dimensions.first d = n._dimensions.first d) ∧
      (∀ (p : List Sym) (n1 : tools.MultidimensionalMatrix (callback_type W)),
        t.closing_subscribers.node? p = some n1 → s.closing_subscribers.node? p = none →
        n1.size = 0 ∧ ∀ d : Sym, n1._dimensions.first d = none) ∧
      t.open_closed_subscribers = s.open_closed_subscribers := by
  obtain ⟨t, flag, _, h, _, _, _, _, hsc, hr, _⟩ := Interpreter.matchSequences_total s c
  have hw := Interpreter.matchSequences_within s t c flag h
  obtain ⟨f1, f2, _⟩ := Interpreter.interpretBrackets_frame t c flag
  refine ⟨Interpreter.interpretBrackets t c flag,
    by simp only [Interpreter.Interpret, h, Option.map_some'], ?_, ?_, ?_, ?_, ?_⟩
  · intro seq
    simp only [tools.MultidimensionalMatrix.terminal, f1]
    cases seq.getLast? with
    | none => rfl
    | some back => exact (hsc seq.dropLast).2 back
  · rw [f1]; exact (hsc []).1
  · intro p n hn
    obtain ⟨n1, hn1, _⟩ := hw p n hn
    rw [f1]
    refine ⟨n1, hn1, ?_, ?_⟩
    · have a := tools.MultidimensionalMatrix.node_of_node? p _ _ hn
      have b := tools.MultidimensionalMatrix.node_of_node? p _ _ hn1
      have := (hsc p).1
      rw [a, b] at this
      exact this
    · intro d
      have a := tools.MultidimensionalMatrix.node_of_node? p _ _ hn
      have b := tools.MultidimensionalMatrix.node_of_node? p _ _ hn1
      have := (hsc p).2 d
      rw [a, b] at this
      exact this
  · intro p n1 hn1 hnone
    rw [f1] at hn1
    have a := tools.MultidimensionalMatrix.node_of_node?_none p _ hnone
    have b := tools.MultidimensionalMatrix.node_of_node? p _ _ hn1
    have h1 := (hsc p).1
    have h2 := (hsc p).2
    rw [a, b] at h1 h2
    exact ⟨h1, h2⟩
  · rw [f2, hr]

namespace tools

namespace MultidimensionalMatrix

variable {V : Type}

theorem dimensions_receive (x : MultidimensionalMatrix V) (sig : Signal) :
    (x.receive sig)._dimensions = x._dimensions := by
  cases sig <;> rfl

theorem sub_receive (x : MultidimensionalMatrix V) (sig : Signal) (j : Nat) :
    (x.receive sig).sub j = x.sub j := by
  simp only [sub, dimensions_receive]

theorem sub_assign (back j : Nat) (f : V) (m : MultidimensionalMatrix V) :
    (assign back f m).1.sub j = m.sub j := by
  have h : (assign back f m).1._dimensions =
      (m.subscript back)._dimensions.setFirst back (some f) := by
    simp only [assign]
    split <;> rfl
  simp only [sub, h, Dimensions.second_setFirst, subscript, Dimensions.second_create]

theorem first_assign (back d : Nat) (f : V) (m : MultidimensionalMatrix V) :
    (assign back f m).1._dimensions.first d =
      if back = d then some f else m._dimensions.first d := by
  have h : (assign back f m).1._dimensions =
      (m.subscript back)._dimensions.setFirst back (some f) := by
    simp only [assign]
    split <;> rfl
  rw [h]
  by_cases e : back = d
  · subst e
    have hh : (m.subscript back)._dimensions.has back = true := Dimensions.has_create _ _
    rw [Dimensions.first_setFirst_same _ _ _ hh, if_pos rfl]
  · rw [Dimensions.first_setFirst_other _ _ _ _ e, if_neg e, first_subscript]

theorem count_assign (back : Nat) (f : V) (m : MultidimensionalMatrix V) :
    (assign back f m).1._count_of_values =
        m._count_of_values + (if (m._dimensions.first back).isNone then 1 else 0) ∧
      (assign back f m).2 =
        (if (m._dimensions.first back).isNone then Signal.value_added else Signal.silent) := by
  simp only [assign, IsEmpty, first_subscript]
  cases m._dimensions.first back with
  | none => exact ⟨rfl, rfl⟩
  | some v => exact ⟨rfl, rfl⟩

/-- The matrix an access was performed on, after the access. -/
theorem node_atPath_same (g : MultidimensionalMatrix V → MultidimensionalMatrix V × Signal)
    (p : List Nat) :
    ∀ m : MultidimensionalMatrix V, (atPath g p m).1.node p = (g (m.node p)).1 := by
  induction p with
  | nil => intro m; rfl
  | cons i p ih =>
    intro m
    simp only [atPath, node, sub_receive, sub_setSub_same _ _ _ (call_has m i)]
    rw [ih, sub_call]

/-- `Subscribe` leaves every other element as it was. -/
theorem first_node_atPath_assign (back : Nat) (f : V) (p : List Nat) :
    ∀ (m : MultidimensionalMatrix V) (q : List Nat) (d : Nat), (q, d) ≠ (p, back) →
      ((atPath (assign back f) p m).1.node q)._dimensions.first d =
        (m.node q)._dimensions.first d := by
  induction p with
  | nil =>
    intro m q d hne
    cases q with
    | nil =>
      have e : back ≠ d := fun e => hne (by rw [e])
      simp only [atPath, node, first_assign, if_neg e]
    | cons j q => simp only [atPath, node, sub_assign]
  | cons i p ih =>
    intro m q d hne
    cases q with
    | nil =>
      simp only [atPath, node, dimensions_receive, first_setSub, first_call]
    | cons j q =>
      simp only [atPath, node, sub_receive]
      by_cases e : i = j
      · subst e
        rw [sub_setSub_same _ _ _ (call_has m i), sub_call]
        apply ih
        intro h
        apply hne
        simp only [Prod.mk.injEq] at h ⊢
        exact ⟨by rw [h.1], h.2⟩
      · rw [sub_setSub_other _ _ _ _ e, sub_call]

/-- `Subscribe` adds one to the count of the root exactly when the element was empty. -/
theorem count_atPath_assign (back : Nat) (f : V) (p : List Nat) :
    ∀ m : MultidimensionalMatrix V,
      (atPath (assign back f) p m).1._count_of_values =
          m._count_of_values + (if ((m.node p)._dimensions.first back).isNone then 1 else 0) ∧
        (atPath (assign back f) p m).2 =
          (if ((m.node p)._dimensions.first back).isNone then Signal.value_added
            else Signal.silent) := by
  induction p with
  | nil => intro m; exact count_assign back f m
  | cons i p ih =>
    intro m
    obtain ⟨_, h2⟩ := ih ((m.call i).sub i)
    rw [sub_call] at h2
    simp only [atPath, node, sub_call] at h2 ⊢
    rw [h2]
    by_cases hx : (((m.sub i).node p)._dimensions.first back).isNone = true
    · rw [if_pos hx, if_pos hx]
      exact ⟨by simp only [receive, OnValueAdded, setSub, call_count], rfl⟩
    · rw [if_neg hx, if_neg hx]
      exact ⟨by simp only [receive, setSub, call_count, Nat.add_zero], rfl⟩

end MultidimensionalMatrix

end tools

/-- C13 (registration postcondition).  For every non-empty sequence `seq` and callback
`f`, `Subscribe(seq, f)` succeeds; afterwards the terminal slot of `seq` holds `f`, the
terminal slot of every other sequence holds what it held before, and `size()` of the root
has grown by exactly one when the slot of `seq` was empty and is unchanged when it was
occupied (the old callback is overwritten).  Nothing else of the interpreter changes. -/
theorem subscribe_postcondition {W : Type} (s : Interpreter W) (seq : List Sym)
    (f : callback_type W) (hne : seq ≠ []) :
    ∃ t : Interpreter W, s.Subscribe seq f = some t ∧
      t.closing_subscribers.terminal seq = some f ∧
      (∀ other : List Sym, other ≠ seq →
        t.closing_subscribers.terminal other = s.closing_subscribers.terminal other) ∧
      t.closing_subscribers.size =
        s.closing_subscribers.size +
          (if (s.closing_subscribers.terminal seq).isNone then 1 else 0) ∧
      t.data = s.data ∧ t.active_closing_subscribers = s.active_closing_subscribers ∧
      t.open_closed_subscribers = s.open_closed_subscribers ∧
      t.active_open_closed_subscribers = s.active_open_closed_subscribers := by
  obtain ⟨back, hb⟩ : ∃ back, seq.getLast? = some back := by
    cases h : seq.getLast? with
    | none => exact absurd (List.getLast?_eq_none_iff.1 h) hne
    | some b => exact ⟨b, rfl⟩
  refine ⟨{ s with closing_subscribers :=
      (tools.MultidimensionalMatrix.atPath (tools.MultidimensionalMatrix.assign back f)
        seq.dropLast s.closing_subscribers).1 },
    by simp only [Interpreter.Subscribe, hb], ?_, ?_, ?_, rfl, rfl, rfl, rfl⟩
  · simp only [tools.MultidimensionalMatrix.terminal, hb,
      tools.MultidimensionalMatrix.node_atPath_same, tools.MultidimensionalMatrix.first_assign,
      if_true]
  · intro other ho
    simp only [tools.MultidimensionalMatrix.terminal]
    cases hob : other.getLast? with
    | none => rfl
    | some d =>
      apply tools.MultidimensionalMatrix.first_node_atPath_assign
      intro h
      apply ho
      simp only [Prod.mk.injEq] at h
      rw [← List.dropLast_append_getLast? d hob, ← List.dropLast_append_getLast? back hb,
        h.1, h.2]
  · simp only [tools.MultidimensionalMatrix.terminal, hb, tools.MultidimensionalMatrix.size]
    exact (tools.MultidimensionalMatrix.count_atPath_assign back f seq.dropLast
      s.closing_subscribers).1

/-- C13 at a concrete input: `Subscribe("ab", f)` on a fresh interpreter. -/
theorem subscribe_postcondition_witness :
    ([97, 98] : List Sym) ≠ [] ∧
    ∃ t : Interpreter Unit, (Interpreter.fresh ()).Subscribe [97, 98] (fun v d => (v, d)) = some t ∧
      t.closing_subscribers.terminal [97, 98] = some (fun v d => (v, d)) ∧
      (∀ other : List Sym, other ≠ [97, 98] →
        t.closing_subscribers.terminal other =
          (Interpreter.fresh ()).closing_subscribers.terminal other) ∧
      t.closing_subscribers.size =
        (Interpreter.fresh ()).closing_subscribers.size +
          (if ((Interpreter.fresh ()).closing_subscribers.terminal [97, 98]).isNone then 1
            else 0) ∧
      t.data = (Interpreter.fresh ()).data ∧
      t.active_closing_subscribers = (Interpreter.fresh ()).active_closing_subscribers ∧
      t.open_closed_subscribers = (Interpreter.fresh ()).open_closed_subscribers ∧
      t.active_open_closed_subscribers =
        (Interpreter.fresh ()).active_open_closed_subscribers :=
  ⟨by decide, subscribe_postcondition (Interpreter.fresh ()) [97, 98] (fun v d => (v, d))
    (by decide)⟩

namespace Interpreter

variable {W : Type}

open tools

theorem closesWith_of_lookup (rules : List (Sym × (Sym × open_closed_callback_type W)))
    (c r : Sym) (rule : Sym × open_closed_callback_type W)
    (h : rules.lookup r = some rule) : closesWith rules c r = decide (rule.1 = c) := by
  simp only [closesWith, h]

/-- What the first loop of `_NotifyOpenClosedSubscribersAndEraseIfNoMoreInDimension`
notifies: the keys `K` appended to `notified` are, without repetition, the rules not
notified before that close with `c` and have an instance in the list; the calls made are
one call with `false` for each of them, in that order. -/
theorem closeLoop_spec (c : Sym) (insts : List (Sym × Sym)) :
    ∀ (s : Interpreter W) (notified : List Sym), ∃ (K : List Sym) (new : List Call),
      (closeLoop c insts s notified).2 = notified ++ K ∧ K.Nodup ∧
      (∀ r, r ∈ K ↔ (r ∉ notified ∧ (∃ inst ∈ insts, inst.2 = r) ∧
        closesWith s.open_closed_subscribers c r = true)) ∧
      (closeLoop c insts s notified).1.calls = s.calls ++ new ∧
      new.map Call.bracketEvent = K.map (fun r => some (r, false)) := by
  induction insts with
  | nil =>
    intro s notified
    refine ⟨[], [], by simp [closeLoop], List.nodup_nil, ?_, by simp [closeLoop], rfl⟩
    intro r
    simp
  | cons inst rest ih =>
    intro s notified
    have skip : (∀ r, r ∉ notified → inst.2 = r →
        closesWith s.open_closed_subscribers c r = true → False) →
        ∃ (K : List Sym) (new : List Call),
          (closeLoop c rest s notified).2 = notified ++ K ∧ K.Nodup ∧
          (∀ r, r ∈ K ↔ (r ∉ notified ∧ (∃ i ∈ inst :: rest, i.2 = r) ∧
            closesWith s.open_closed_subscribers c r = true)) ∧
          (closeLoop c rest s notified).1.calls = s.calls ++ new ∧
          new.map Call.bracketEvent = K.map (fun r => some (r, false)) := by
      intro hno
      obtain ⟨K, new, h1, h2, h3, h4, h5⟩ := ih s notified
      refine ⟨K, new, h1, h2, ?_, h4, h5⟩
      intro r
      rw [h3 r]
      constructor
      · rintro ⟨a, ⟨i, hi, hir⟩, b⟩
        exact ⟨a, ⟨i, List.mem_cons_of_mem _ hi, hir⟩, b⟩
      · rintro ⟨a, ⟨i, hi, hir⟩, b⟩
        refine ⟨a, ?_, b⟩
        rcases List.mem_cons.1 hi with rfl | hi
        · exact absurd b (fun hb => hno r a hir hb)
        · exact ⟨i, hi, hir⟩
    simp only [closeLoop]
    split
    · rename_i rule hrule
      split
      · rename_i hc
        split
        · rename_i hmem
          exact skip (fun r hr hir _ => hr (hir ▸ hmem))
        · rename_i hmem
          obtain ⟨K, new, h1, h2, h3, h4, h5⟩ :=
            ih (s.callBracket inst.2 false rule.2) (notified ++ [inst.2])
          have hK : inst.2 ∉ K := fun h => ((h3 inst.2).1 h).1 (by simp)
          refine ⟨inst.2 :: K,
            Call.bracket inst.2 false s.data (rule.2 s.world s.data false).2 :: new,
            by rw [h1]; simp, List.nodup_cons.2 ⟨hK, h2⟩, ?_, by rw [h4]; simp [callBracket],
            by simp [h5, Call.bracketEvent]⟩
          intro r
          rw [List.mem_cons, h3 r]
          constructor
          · rintro (rfl | ⟨a, ⟨i, hi, hir⟩, b⟩)
            · refine ⟨hmem, ⟨inst, List.mem_cons_self _ _, rfl⟩, ?_⟩
              rw [closesWith_of_lookup _ _ _ _ hrule]
              exact decide_eq_true hc
            · exact ⟨fun h => a (List.mem_append_left _ h), ⟨i, List.mem_cons_of_mem _ hi, hir⟩,
                b⟩
          · rintro ⟨a, ⟨i, hi, hir⟩, b⟩
            by_cases e : r = inst.2
            · exact Or.inl e
            · right
              refine ⟨?_, ?_, b⟩
              · intro h
                rcases List.mem_append.1 h with h | h
                · exact a h
                · exact e (List.mem_singleton.1 h)
              · rcases List.mem_cons.1 hi with rfl | hi
                · exact absurd hir.symm e
                · exact ⟨i, hi, hir⟩
      · rename_i hc
        apply skip
        intro r _ hir hb
        rw [← hir, closesWith_of_lookup _ _ _ _ hrule] at hb
        exact hc (of_decide_eq_true hb)
    · rename_i hrule
      apply skip
      intro r _ hir hb
      rw [← hir] at hb
      simp [closesWith, hrule] at hb

theorem openCount_eraseP (l : List (Sym × Sym)) (r k : Sym) :
    openCount (l.eraseP (fun inst => decide (inst.2 = r))) k =
      openCount l k - (if k = r then 1 else 0) := by
  induction l with
  | nil => simp [openCount]
  | cons x l ih =>
    simp only [openCount] at ih ⊢
    by_cases hx : x.2 = r
    · simp only [List.eraseP_cons, hx, decide_True, cond_true]
      by_cases hk : k = r
      · simp [List.countP_cons, hx, hk]
      · have : ¬ (r = k) := fun e => hk e.symm
        simp [List.countP_cons, hx, hk, this]
    · simp only [List.eraseP_cons, hx, decide_False, cond_false, List.countP_cons, ih]
      by_cases hk : k = r
      · have : ¬ (x.2 = k) := fun e => hx (e.trans hk)
        simp [hk, this]
        simp [hk] at this
        simp [this]
      · simp [hk]

theorem openCount_eraseNotified (K : List Sym) (hK : K.Nodup) :
    ∀ (l : List (Sym × Sym)) (k : Sym),
      openCount (eraseNotified l K) k = openCount l k - (if k ∈ K then 1 else 0) := by
  induction K with
  | nil => intro l k; simp [eraseNotified]
  | cons r K ih =>
    intro l k
    have h := ih (List.nodup_cons.1 hK).2 (l.eraseP (fun inst => decide (inst.2 = r))) k
    simp only [eraseNotified, List.foldl_cons] at h ⊢
    rw [h, openCount_eraseP]
    by_cases e : k = r
    · subst e
      simp [(List.nodup_cons.1 hK).1]
    · simp [e]

theorem sublist_eraseNotified (K : List Sym) :
    ∀ l : List (Sym × Sym), (eraseNotified l K).Sublist l := by
  induction K with
  | nil => intro l; exact List.Sublist.refl _
  | cons r K ih =>
    intro l
    simp only [eraseNotified, List.foldl_cons]
    exact (ih _).trans (List.eraseP_sublist _)

theorem filter_eraseP_of_not (l : List (Sym × Sym)) (p q : Sym × Sym → Bool)
    (h : ∀ x, p x = true → q x = false) : (l.eraseP p).filter q = l.filter q := by
  induction l with
  | nil => rfl
  | cons x l ih =>
    by_cases hx : p x = true
    · simp [List.eraseP_cons, hx, List.filter_cons, h x hx]
    · simp [List.eraseP_cons, hx, List.filter_cons, ih]

theorem filter_eraseNotified (K : List Sym) (q : Sym → Bool) (hq : ∀ r ∈ K, q r = false) :
    ∀ l : List (Sym × Sym),
      (eraseNotified l K).filter (fun inst => q inst.2) = l.filter (fun inst => q inst.2) := by
  induction K with
  | nil => intro l; rfl
  | cons r K ih =>
    intro l
    simp only [eraseNotified, List.foldl_cons]
    have := ih (fun x hx => hq x (List.mem_cons_of_mem _ hx))
      (l.eraseP (fun inst => decide (inst.2 = r)))
    simp only [eraseNotified] at this
    rw [this]
    apply filter_eraseP_of_not
    intro x hx
    have : x.2 = r := of_decide_eq_true hx
    rw [this]
    exact hq r (List.mem_cons_self _ _)

end Interpreter

namespace Interpreter

variable {W : Type}

open tools

/-- The closing step of the bracket block (skipped when there is no rule): which rules
are notified, which calls are made and which instances are erased. -/
theorem closing_step_spec (s : Interpreter W) (c : Sym) :
    ∃ (K : List Sym) (new : List Call),
      K.Nodup ∧
      (∀ r, r ∈ K ↔ ((∃ inst ∈ s.active_open_closed_subscribers, inst.2 = r) ∧
        closesWith s.open_closed_subscribers c r = true)) ∧
      (if s.open_closed_subscribers.isEmpty then (s, false)
        else s._NotifyOpenClosedSubscribersAndEraseIfNoMoreInDimension c).1.calls =
          s.calls ++ new ∧
      new.map Call.bracketEvent = K.map (fun r => some (r, false)) ∧
      (if s.open_closed_subscribers.isEmpty then (s, false)
        else s._NotifyOpenClosedSubscribersAndEraseIfNoMoreInDimension
          c).1.active_open_closed_subscribers =
          eraseNotified s.active_open_closed_subscribers K ∧
      (if s.open_closed_subscribers.isEmpty then (s, false)
        else s._NotifyOpenClosedSubscribersAndEraseIfNoMoreInDimension
          c).1.open_closed_subscribers = s.open_closed_subscribers := by
  by_cases he : s.open_closed_subscribers.isEmpty = true
  · rw [if_pos he]
    refine ⟨[], [], List.nodup_nil, ?_, by simp, rfl, rfl, rfl⟩
    intro r
    have : s.open_closed_subscribers = [] := List.isEmpty_iff.1 he
    simp [closesWith, this]
  · rw [if_neg he]
    obtain ⟨K, new, h1, h2, h3, h4, h5⟩ := closeLoop_spec c s.active_open_closed_subscribers s []
    obtain ⟨_, _, _, _, _, _, _, g7, g8, _⟩ :=
      closeLoop_calls c s.active_open_closed_subscribers s []
    refine ⟨K, new, h2, ?_, h4, h5, ?_, g7⟩
    · intro r
      rw [h3 r]
      simp
    · simp only [_NotifyOpenClosedSubscribersAndEraseIfNoMoreInDimension, g8, h1,
        List.nil_append]

/-- The bracket block and the end of `Interpret`: the calls are one closing call for
every rule that closes with `c` and has an open instance, followed by the opening call
when `c` is a registered opening symbol; the instances erased and pushed. -/
theorem interpretBrackets_spec (s : Interpreter W) (c : Sym) (any_notified : Bool) :
    ∃ (K : List Sym) (new : List Call),
      K.Nodup ∧
      (∀ r, r ∈ K ↔ ((∃ inst ∈ s.active_open_closed_subscribers, inst.2 = r) ∧
        closesWith s.open_closed_subscribers c r = true)) ∧
      (interpretBrackets s c any_notified).calls = s.calls ++ new ∧
      new.map Call.bracketEvent = K.map (fun r => some (r, false)) ++
        (if (s.open_closed_subscribers.lookup c).isSome then [some (c, true)] else []) ∧
      (interpretBrackets s c any_notified).active_open_closed_subscribers =
        eraseNotified s.active_open_closed_subscribers K ++
          (if (s.open_closed_subscribers.lookup c).isSome then [(c, c)] else []) := by
  obtain ⟨K, new, h1, h2, h3, h4, h5, h6⟩ := closing_step_spec s c
  simp only [interpretBrackets]
  generalize (if s.open_closed_subscribers.isEmpty then (s, false)
    else s._NotifyOpenClosedSubscribersAndEraseIfNoMoreInDimension c) = r at h3 h5 h6 ⊢
  rw [h6]
  cases hl : s.open_closed_subscribers.lookup c with
  | some rule =>
    refine ⟨K, new ++ [Call.bracket c true r.1.data (rule.2 r.1.world r.1.data true).2],
      h1, h2, ?_, ?_, ?_⟩
    · simp only [_OpenClosedSubscriberOpeningMeet, callBracket, h3, List.append_assoc]
    · simp [h4, Call.bracketEvent]
    · simp only [_OpenClosedSubscriberOpeningMeet, callBracket, h5, Option.isSome_some,
        if_true]
  | none =>
    refine ⟨K, new, h1, h2, ?_, by simp [h4], ?_⟩
    · simp only []
      split
      · exact h3
      · split
        · exact h3
        · exact h3
    · simp only [Option.isSome_none, Bool.false_eq_true, if_false, List.append_nil]
      split
      · exact h5
      · split
        · exact h5
        · exact h5

theorem bracketCalls_of_sequence (r : Sym) (flag : Bool) (new : List Call)
    (h : ∀ e ∈ new, e.isSequence = true) : bracketCalls r flag new = 0 := by
  induction new with
  | nil => rfl
  | cons e new ih =>
    have he := h e (List.mem_cons_self _ _)
    have := ih (fun x hx => h x (List.mem_cons_of_mem _ hx))
    simp only [bracketCalls] at this ⊢
    cases e with
    | sequence slot a b => simp [Call.bracketEvent, this]
    | bracket o f a b => simp [Call.isSequence] at he

theorem bracketCalls_append (r : Sym) (flag : Bool) (a b : List Call) :
    bracketCalls r flag (a ++ b) = bracketCalls r flag a + bracketCalls r flag b := by
  simp [bracketCalls, List.count_append]

/-- `Interpret` as a whole, seen from the bracket side: it returns; the calls to
bracket callbacks and the change of the open instances are those of
`interpretBrackets_spec` for the state before the call. -/
theorem Interpret_bracket_spec (s : Interpreter W) (c : Sym) :
    ∃ (t : Interpreter W) (K : List Sym) (new : List Call),
      s.Interpret c = some t ∧ t.calls = s.calls ++ new ∧
      K.Nodup ∧
      (∀ r, r ∈ K ↔ ((∃ inst ∈ s.active_open_closed_subscribers, inst.2 = r) ∧
        closesWith s.open_closed_subscribers c r = true)) ∧
      (∀ (r : Sym) (flag : Bool), bracketCalls r flag new =
        (K.map (fun k => some (k, false)) ++
          (if (s.open_closed_subscribers.lookup c).isSome then [some (c, true)]
            else [])).count (some (r, flag))) ∧
      (new.map Call.bracketEvent).getLast? =
        (if (s.open_closed_subscribers.lookup c).isSome then some (some (c, true))
          else (new.map Call.bracketEvent).getLast?) ∧
      t.active_open_closed_subscribers =
        eraseNotified s.active_open_closed_subscribers K ++
          (if (s.open_closed_subscribers.lookup c).isSome then [(c, c)] else []) := by
  obtain ⟨t, flag, new1, h, h1, _, _, h4, _, h6, h7⟩ := matchSequences_total s c
  obtain ⟨K, new2, g1, g2, g3, g4, g5⟩ := interpretBrackets_spec t c flag
  rw [h6, h7] at g2
  rw [h6] at g4
  rw [h6, h7] at g5
  refine ⟨interpretBrackets t c flag, K, new1 ++ new2,
    by simp only [Interpret, h, Option.map_some'], by rw [g3, h1, List.append_assoc], g1, g2,
    ?_, ?_, g5⟩
  · intro r fl
    rw [bracketCalls_append, bracketCalls_of_sequence r fl new1 h4, Nat.zero_add]
    simp only [bracketCalls, g4]
  · cases hl : s.open_closed_subscribers.lookup c with
    | none => simp
    | some rule =>
      rw [hl] at g4
      simp only [List.map_append, g4, Option.isSome_some, if_true]
      simp

end Interpreter

namespace Interpreter

variable {W : Type}

theorem count_map_false_of_nodup (K : List Sym) (hK : K.Nodup) (r : Sym) :
    (K.map (fun k => some (k, false))).count (some (r, false)) = if r ∈ K then 1 else 0 := by
  induction K with
  | nil => simp
  | cons k K ih =>
    have h := ih (List.nodup_cons.1 hK).2
    have hk := (List.nodup_cons.1 hK).1
    by_cases e : k = r
    · subst e
      simp [List.count_cons, h, hk]
    · have e2 : ¬ (r = k) := fun x => e x.symm
      simp [List.count_cons, h, e, e2]

theorem count_map_false_true (K : List Sym) (r : Sym) :
    (K.map (fun k => some (k, false))).count (some (r, true)) = 0 := by
  induction K with
  | nil => simp
  | cons k K ih => simp [List.count_cons, ih]

theorem openCount_pos_iff (l : List (Sym × Sym)) (r : Sym) :
    0 < openCount l r ↔ ∃ inst ∈ l, inst.2 = r := by
  simp [openCount, List.countP_pos_iff]

end Interpreter

/-- C12 as stated fails: after `"{{"` the closing step for `'}'` leaves one of the two
instances of the rule `('{', '}')` on the list, although both were open before and their
rule closes with `'}'`. -/
theorem matched_instance_kept :
    (((Interpreter.fresh ()).SubscribePair 123 125 (fun v d _ => (v, d))).feed
        [123, 123]).map
      (fun s => (s.active_open_closed_subscribers,
        Interpreter.closesWith s.open_closed_subscribers 125 123,
        (s._NotifyOpenClosedSubscribersAndEraseIfNoMoreInDimension
          125).1.active_open_closed_subscribers)) =
      some ([(123, 123), (123, 123)], true, [(123, 123)]) := by
  decide

/-- C18 as stated fails: with the rules `('(', '{')` and `('{', '}')` and one instance of
the first open, `Interpret('{')` calls the callback of `'('` with `false` and then the
callback of `'{'` with `true`. -/
theorem closing_not_suppressed :
    ((((Interpreter.fresh ()).SubscribePair 40 123 (fun v d _ => (v, d))).SubscribePair 123 125
        (fun v d _ => (v, d))).feed [40]).bind
      (fun s => (s.callsDuring [123]).map (fun l => l.map Call.bracketEvent)) =
      some [some (40, false), some (123, true)] := by
  decide


namespace Interpreter

variable {W : Type}

open tools

theorem completesAt_congr {a b : MultidimensionalMatrix (callback_type W)}
    (h : a.SameContent b) (c : Sym) (p : List Sym) : completesAt a c p = completesAt b c p := by
  simp only [completesAt, (h p).2 c]

/-- The first loop calls, in list order, the callbacks of the pointers that hold one at
`c`. -/
theorem notifyLoop_slots (c : Sym) (m0 : MultidimensionalMatrix (callback_type W))
    (ps : List (List Sym)) :
    ∀ s : Interpreter W, s.closing_subscribers.SameContent m0 →
      ∃ new : List Call, (notifyLoop c ps s).calls = s.calls ++ new ∧
        sequenceSlots new = (ps.filter (completesAt m0 c)).map (fun p => p ++ [c]) := by
  induction ps with
  | nil => intro s _; exact ⟨[], by simp [notifyLoop], rfl⟩
  | cons p rest ih =>
    intro s hm
    have hsc := (MultidimensionalMatrix.sameContent_subscriptAt c p
      s.closing_subscribers).same_trans hm
    have hv : ((MultidimensionalMatrix.atPath (fun m => (m.subscript c, Signal.silent)) p
        s.closing_subscribers).1.node p)._dimensions.first c = (m0.node p)._dimensions.first c :=
      (hsc p).2 c
    simp only [notifyLoop]
    split
    · rename_i f hf
      obtain ⟨new, h1, h2⟩ := ih
        (callSequence { s with closing_subscribers := (MultidimensionalMatrix.atPath
          (fun m => (m.subscript c, Signal.silent)) p s.closing_subscribers).1 } (p ++ [c]) f)
        hsc
      refine ⟨Call.sequence (p ++ [c]) s.data (f s.world s.data).2 :: new, ?_, ?_⟩
      · rw [h1]; simp [callSequence]
      · have : completesAt m0 c p = true := by
          simp only [completesAt, ← hv, hf, Option.isSome_some]
        simp only [sequenceSlots] at h2
        simp [sequenceSlots, Call.slot?, List.filter_cons, this, h2]
    · rename_i hf
      obtain ⟨new, h1, h2⟩ := ih
        { s with closing_subscribers := (MultidimensionalMatrix.atPath
          (fun m => (m.subscript c, Signal.silent)) p s.closing_subscribers).1 } hsc
      refine ⟨new, h1, ?_⟩
      have : completesAt m0 c p = false := by
        simp only [completesAt, ← hv, hf, Option.isSome_none]
      simp [List.filter_cons, this, h2]

theorem notify_calls_eq (s t : Interpreter W) (c : Sym)
    (h : s._NotifySubscribersAndEraseIfNoMoreInDimension c = some t) :
    t.calls = (notifyLoop c s.active_closing_subscribers s).calls := by
  obtain ⟨root, active, hn, _⟩ := notify_total s c
  rw [hn] at h
  cases h
  rfl

/-- The sequence callbacks called by the sequence block, in order. -/
theorem matchSequences_slots (s : Interpreter W) (c : Sym) :
    ∃ (t : Interpreter W) (any_notified : Bool) (new : List Call),
      s.matchSequences c = some (t, any_notified) ∧ t.calls = s.calls ++ new ∧
      sequenceSlots new =
        ((notifiedPointers s c).filter (completesAt s.closing_subscribers c)).map
          (fun p => p ++ [c]) ∧
      any_notified = !(notifiedPointers s c).isEmpty := by
  obtain ⟨t, flag, new, h, h1, _⟩ := matchSequences_total s c
  refine ⟨t, flag, new, h, h1, ?_⟩
  have hs0 := MultidimensionalMatrix.sameContent_subscript s.closing_subscribers c
  -- the state after the root has been looked at and possibly pushed
  have key : ∀ s1 : Interpreter W, s1.calls = s.calls →
      s1.closing_subscribers.SameContent s.closing_subscribers →
      s1.active_closing_subscribers = notifiedPointers s c →
      ∀ r : Interpreter W × Bool,
        (if s1.active_closing_subscribers.isEmpty then some (s1, false)
          else (s1._NotifySubscribersAndEraseIfNoMoreInDimension c).map (fun t => (t, true))) =
          some r →
        ∃ new1, r.1.calls = s.calls ++ new1 ∧
          sequenceSlots new1 =
            ((notifiedPointers s c).filter (completesAt s.closing_subscribers c)).map
              (fun p => p ++ [c]) ∧
          r.2 = !(notifiedPointers s c).isEmpty := by
    intro s1 hc hsc ha r hr
    by_cases he : s1.active_closing_subscribers.isEmpty = true
    · rw [if_pos he] at hr
      cases hr
      have hnil : notifiedPointers s c = [] := by rw [← ha]; exact List.isEmpty_iff.1 he
      exact ⟨[], by simp [hc], by simp [hnil, sequenceSlots], by simp [hnil]⟩
    · rw [if_neg he] at hr
      cases hn : s1._NotifySubscribersAndEraseIfNoMoreInDimension c with
      | none => rw [hn] at hr; simp at hr
      | some t1 =>
        rw [hn] at hr
        simp only [Option.map_some', Option.some.injEq] at hr
        subst hr
        obtain ⟨new1, g1, g2⟩ := notifyLoop_slots c s.closing_subscribers
          s1.active_closing_subscribers s1 hsc
        refine ⟨new1, ?_, ?_, ?_⟩
        · show t1.calls = _
          rw [notify_calls_eq s1 t1 c hn, g1, hc]
        · rw [g2, ha]
        · rw [← ha]
          simp only [Bool.not_eq_true] at he
          simp [he]
  simp only [matchSequences] at h
  split at h
  · simp at h
  · rename_i s2 flag2 hn
    obtain ⟨new1, k1, k2, k3⟩ := key _ (by split <;> rfl) (by split <;> exact hs0)
      (by
        simp only [notifiedPointers, MultidimensionalMatrix.IsEmpty,
          MultidimensionalMatrix.first_subscript]
        cases s.closing_subscribers._dimensions.first c with
        | none => simp
        | some f => simp [_SubscriberBeginningMeet]) (s2, flag2) hn
    have hcalls : t.calls = s2.calls ∧ flag = flag2 := by
      split at h
      · simp only [Option.some.injEq, Prod.mk.injEq] at h
        obtain ⟨a, b⟩ := h
        subst a
        exact ⟨rfl, b.symm⟩
      · simp only [Option.some.injEq, Prod.mk.injEq] at h
        obtain ⟨a, b⟩ := h
        subst a
        exact ⟨rfl, b.symm⟩
    have hnew : new = new1 := by
      have := h1
      rw [hcalls.1, k1] at this
      exact (List.append_cancel_left this).symm
    rw [hnew, hcalls.2]
    exact ⟨k2, k3⟩

theorem sequenceSlots_append (a b : List Call) :
    sequenceSlots (a ++ b) = sequenceSlots a ++ sequenceSlots b := by
  simp [sequenceSlots, List.filterMap_append]

theorem sequenceSlots_of_bracket (new : List Call) (h : ∀ e ∈ new, e.isSequence = false) :
    sequenceSlots new = [] := by
  induction new with
  | nil => rfl
  | cons e new ih =>
    have he := h e (List.mem_cons_self _ _)
    have := ih (fun x hx => h x (List.mem_cons_of_mem _ hx))
    cases e with
    | sequence slot a b => simp [Call.isSequence] at he
    | bracket o f a b =>
      simp only [sequenceSlots] at this ⊢
      simp [Call.slot?, this]

/-- The sequence callbacks called by one `Interpret`, in order. -/
theorem Interpret_slots (s : Interpreter W) (c : Sym) :
    ∃ (t : Interpreter W) (new : List Call),
      s.Interpret c = some t ∧ t.calls = s.calls ++ new ∧
      sequenceSlots new =
        ((notifiedPointers s c).filter (completesAt s.closing_subscribers c)).map
          (fun p => p ++ [c]) := by
  obtain ⟨t, flag, new1, h, h1, h2, _⟩ := matchSequences_slots s c
  obtain ⟨new2, g1, g2, _⟩ := interpretBrackets_calls t c flag
  refine ⟨interpretBrackets t c flag, new1 ++ new2,
    by simp only [Interpret, h, Option.map_some'], by rw [g1, h1, List.append_assoc], ?_⟩
  rw [sequenceSlots_append, sequenceSlots_of_bracket new2 g2, List.append_nil, h2]

end Interpreter


namespace Interpreter

variable {W : Type}

open tools

theorem closeLoop_none (c : Sym) (insts : List (Sym × Sym)) :
    ∀ (s : Interpreter W) (notified : List Sym),
      (∀ inst ∈ insts, closesWith s.open_closed_subscribers c inst.2 = false) →
      closeLoop c insts s notified = (s, notified) := by
  induction insts with
  | nil => intro s notified _; rfl
  | cons inst rest ih =>
    intro s notified h
    have h0 := h inst (List.mem_cons_self _ _)
    have hrest := ih s notified (fun i hi => h i (List.mem_cons_of_mem _ hi))
    simp only [closeLoop]
    split
    · rename_i rule hrule
      rw [closesWith_of_lookup _ _ _ _ hrule] at h0
      have hc : ¬ (rule.1 = c) := of_decide_eq_false h0
      rw [if_neg hc]
      exact hrest
    · exact hrest

/-- The bracket block and the end of `Interpret`, as far as `data` is concerned: `c` is
appended exactly when `c` is no opening symbol, no open instance closes with `c`,
`any_notified` is false and no pointer is active; otherwise `data` is only handed through
the calls. -/
theorem interpretBrackets_data (s : Interpreter W) (c : Sym) (any_notified : Bool) :
    ∃ new : List Call, (interpretBrackets s c any_notified).calls = s.calls ++ new ∧
      (((s.open_closed_subscribers.lookup c).isNone = true ∧
          (∀ inst ∈ s.active_open_closed_subscribers,
            closesWith s.open_closed_subscribers c inst.2 = false) ∧
          any_notified = false ∧ s.active_closing_subscribers = []) →
        new = [] ∧ (interpretBrackets s c any_notified).data = s.data ++ [c]) ∧
      (¬ ((s.open_closed_subscribers.lookup c).isNone = true ∧
          (∀ inst ∈ s.active_open_closed_subscribers,
            closesWith s.open_closed_subscribers c inst.2 = false) ∧
          any_notified = false ∧ s.active_closing_subscribers = []) →
        Threads s.data new (interpretBrackets s c any_notified).data) := by
  obtain ⟨new, h1, _, h3, h4⟩ := interpretBrackets_calls s c any_notified
  obtain ⟨K, new', k1, k2, k3, k4, _⟩ := interpretBrackets_spec s c any_notified
  have hnew : new' = new := by
    rw [h1] at k3
    exact (List.append_cancel_left k3).symm
  rw [hnew] at k4
  refine ⟨new, h1, ?_, ?_⟩
  · rintro ⟨hl, hno, hflag, hact⟩
    have hK : K = [] := by
      cases K with
      | nil => rfl
      | cons r K =>
        obtain ⟨⟨inst, hi, hir⟩, hc⟩ := (k2 r).1 (List.mem_cons_self _ _)
        rw [← hir, hno inst hi] at hc
        exact absurd hc (by simp)
    have hn : new = [] := by
      have hl2 : (s.open_closed_subscribers.lookup c).isSome = false := by
        cases hx : s.open_closed_subscribers.lookup c with
        | none => rfl
        | some v => rw [hx] at hl; simp at hl
      rw [hK, hl2] at k4
      simpa using k4
    refine ⟨hn, ?_⟩
    have hlk : s.open_closed_subscribers.lookup c = none := by
      cases hx : s.open_closed_subscribers.lookup c with
      | none => rfl
      | some v => rw [hx] at hl; simp at hl
    have hr : (if s.open_closed_subscribers.isEmpty then (s, false)
        else s._NotifyOpenClosedSubscribersAndEraseIfNoMoreInDimension c) = (s, false) := by
      split
      · rfl
      · simp only [_NotifyOpenClosedSubscribersAndEraseIfNoMoreInDimension,
          closeLoop_none c _ s [] hno, eraseNotified, List.foldl_nil, List.isEmpty_nil,
          Bool.not_true]
    simp only [interpretBrackets, hr, hlk, hflag, hact, Bool.false_eq_true, if_false,
      List.isEmpty_nil, Bool.not_true, Bool.or_false]
  · intro hnot
    by_cases hn : new = []
    · -- no call: then no opening and no closing, so a pointer is active or the flag is set
      by_cases hflag : any_notified = true
      · exact h3 (Or.inr hflag)
      · have hl2 : (s.open_closed_subscribers.lookup c).isSome = false := by
          cases hx : (s.open_closed_subscribers.lookup c).isSome with
          | false => rfl
          | true =>
            rw [hn, hx] at k4
            simp at k4
        have hlk : s.open_closed_subscribers.lookup c = none := by
          cases hx : s.open_closed_subscribers.lookup c with
          | none => rfl
          | some v => rw [hx] at hl2; simp at hl2
        have hK : K = [] := by
          rw [hn, hl2] at k4
          simpa using k4.symm
        have hno : ∀ inst ∈ s.active_open_closed_subscribers,
            closesWith s.open_closed_subscribers c inst.2 = false := by
          intro inst hi
          cases hc : closesWith s.open_closed_subscribers c inst.2 with
          | false => rfl
          | true =>
            have := (k2 inst.2).2 ⟨⟨inst, hi, rfl⟩, hc⟩
            rw [hK] at this
            simp at this
        have hact : s.active_closing_subscribers ≠ [] := by
          intro ha
          apply hnot
          refine ⟨by rw [hlk]; rfl, hno, ?_, ha⟩
          cases any_notified with
          | false => rfl
          | true => exact absurd rfl hflag
        have hr : (if s.open_closed_subscribers.isEmpty then (s, false)
            else s._NotifyOpenClosedSubscribersAndEraseIfNoMoreInDimension c) = (s, false) := by
          split
          · rfl
          · simp only [_NotifyOpenClosedSubscribersAndEraseIfNoMoreInDimension,
              closeLoop_none c _ s [] hno, eraseNotified, List.foldl_nil, List.isEmpty_nil,
              Bool.not_true]
        have hne : s.active_closing_subscribers.isEmpty = false := by
          cases hx : s.active_closing_subscribers with
          | nil => exact absurd hx hact
          | cons a l => rfl
        rw [hn]
        simp only [interpretBrackets, hr, hlk, Bool.false_eq_true, if_false, hne,
          Bool.not_false, Bool.or_true, if_true, Threads]
    · exact h3 (Or.inl hn)

end Interpreter

/-- C19 (exact buffering condition).  In every state, `Interpret(c)` returns, and it
appends `c` to `data` (making no call) when all of the following hold: no pointer was
active before the call, the root has no value at `c`, the root's dimension `c` has
`size() = 0`, `c` is not a registered opening symbol, and no open bracket instance has a
rule that closes with `c`.  In every other case `c` is not appended: `data` is only handed
through the calls made, so with callbacks that leave the string untouched it is unchanged
(also when no callback is called at all, as for a symbol that starts or breaks a partial
match). -/
theorem exact_buffering_condition {W : Type} (s : Interpreter W) (c : Sym) :
    ∃ (t : Interpreter W) (new : List Call),
      s.Interpret c = some t ∧ t.calls = s.calls ++ new ∧
      ((s.active_closing_subscribers = [] ∧
          s.closing_subscribers._dimensions.first c = none ∧
          (s.closing_subscribers.sub c).size = 0 ∧
          s.open_closed_subscribers.lookup c = none ∧
          (∀ inst ∈ s.active_open_closed_subscribers,
            Interpreter.closesWith s.open_closed_subscribers c inst.2 = false)) →
        new = [] ∧ t.data = s.data ++ [c]) ∧
      (¬ (s.active_closing_subscribers = [] ∧
          s.closing_subscribers._dimensions.first c = none ∧
          (s.closing_subscribers.sub c).size = 0 ∧
          s.open_closed_subscribers.lookup c = none ∧
          (∀ inst ∈ s.active_open_closed_subscribers,
            Interpreter.closesWith s.open_closed_subscribers c inst.2 = false)) →
        Threads s.data new t.data ∧ ((∀ e ∈ new, e.left = e.received) → t.data = s.data)) := by
  obtain ⟨t, flag, new1, h, h1, h2, _, _, _, hr, hi⟩ := Interpreter.matchSequences_total s c
  obtain ⟨new2, g1, g2, g3⟩ := Interpreter.interpretBrackets_data t c flag
  rw [hr, hi] at g2 g3
  refine ⟨Interpreter.interpretBrackets t c flag, new1 ++ new2,
    by simp only [Interpreter.Interpret, h, Option.map_some'],
    by rw [g1, h1, List.append_assoc], ?_, ?_⟩
  · rintro ⟨ha, hf, hz, hl, hno⟩
    have hq := Interpreter.matchSequences_quiet s c ha hf hz
    rw [h] at hq
    simp only [Option.some.injEq, Prod.mk.injEq] at hq
    obtain ⟨ht, hflag⟩ := hq
    have hn1 : new1 = [] := by
      have : t.calls = s.calls := by rw [ht]
      rw [this] at h1
      have h1b : s.calls ++ new1 = s.calls ++ [] := by rw [List.append_nil]; exact h1.symm
      exact List.append_cancel_left h1b
    obtain ⟨a, b⟩ := g2 ⟨by rw [hl]; rfl, hno, hflag, by rw [ht]; exact ha⟩
    refine ⟨by rw [hn1, a]; rfl, ?_⟩
    rw [b, ht]
  · intro hnot
    have hth : Threads s.data (new1 ++ new2) (Interpreter.interpretBrackets t c flag).data := by
      apply h2.chain_append
      apply g3
      rintro ⟨hl, hno, hflag, hact⟩
      apply hnot
      -- the flag is false and nothing is active afterwards
      have hlk : s.open_closed_subscribers.lookup c = none := by
        cases hx : s.open_closed_subscribers.lookup c with
        | none => rfl
        | some v => rw [hx] at hl; simp at hl
      obtain ⟨t', flag', new', e1, _, _, e4⟩ := Interpreter.matchSequences_slots s c
      rw [h] at e1
      simp only [Option.some.injEq, Prod.mk.injEq] at e1
      obtain ⟨et, ef⟩ := e1
      rw [← ef, hflag] at e4
      have hnp : Interpreter.notifiedPointers s c = [] := by
        cases hx : Interpreter.notifiedPointers s c with
        | nil => rfl
        | cons a l => rw [hx] at e4; simp at e4
      have ha : s.active_closing_subscribers = [] := by
        simp only [Interpreter.notifiedPointers, List.append_eq_nil] at hnp
        exact hnp.1
      have hf : s.closing_subscribers._dimensions.first c = none := by
        simp only [Interpreter.notifiedPointers, List.append_eq_nil] at hnp
        cases hx : s.closing_subscribers._dimensions.first c with
        | none => rfl
        | some v =>
          have := hnp.2
          rw [hx] at this
          simp at this
      refine ⟨ha, hf, ?_, hlk, hno⟩
      by_contra hz
      have hpos : 0 < (s.closing_subscribers.sub c)._count_of_values := Nat.pos_of_ne_zero hz
      have hb := Interpreter.matchSequences_begin s c ha hf hpos
      rw [h] at hb
      simp only [Option.some.injEq, Prod.mk.injEq] at hb
      rw [hb.1] at hact
      simp at hact
    exact ⟨hth, fun hk => hth.chain_untouched hk⟩

/-- The example that goes with C19: with only `"\r\n"` subscribed, feeding `'a'`, `'\r'`,
`'b'` leaves `data = "a"` and calls nothing. -/
theorem partial_match_symbols_dropped :
    (((Interpreter.fresh ()).Subscribe [13, 10] (fun v d => (v, d))).bind
        (fun s => (s.feed [97, 13, 98]).map (fun t => (t.data, t.calls)))) =
      some ([97], []) := by
  decide

namespace tools

namespace Dimensions

variable {V : Type}

theorem first_eq_none_of_occupied (d : Dimensions V) (h : d.occupied = 0) (id : Nat) :
    d.first id = none := by
  induction d with
  | nil => rfl
  | leaf i v rest ih =>
    simp only [occupied] at h
    cases v with
    | none =>
      simp only [first]
      split
      · rfl
      · exact ih (by simpa using h)
    | some x => simp at h
  | dim i v sub n rest _ ih =>
    simp only [occupied] at h
    cases v with
    | none =>
      simp only [first]
      split
      · rfl
      · exact ih (by simpa using h)
    | some x => simp at h

theorem second_count_of_childSizes (d : Dimensions V) (h : d.childSizes = 0) (id : Nat)
    (ch : MultidimensionalMatrix V) (hs : d.second id = some ch) : ch._count_of_values = 0 := by
  induction d with
  | nil => simp [second] at hs
  | leaf i v rest ih =>
    simp only [childSizes] at h
    simp only [second] at hs
    split at hs
    · simp at hs
    · exact ih h hs
  | dim i v sub n rest _ ih =>
    simp only [childSizes] at h
    simp only [second] at hs
    split at hs
    · simp only [Option.some.injEq] at hs
      subst hs
      show n = 0
      omega
    · exact ih (by omega) hs

end Dimensions

namespace MultidimensionalMatrix

variable {V : Type}

/-- A counted matrix with `size() = 0` holds no value and all its dimensions are empty. -/
theorem empty_of_counted (m : MultidimensionalMatrix V) (hc : m.Counted)
    (h0 : m._count_of_values = 0) :
    (∀ d : Nat, m._dimensions.first d = none) ∧ (∀ d : Nat, (m.sub d)._count_of_values = 0) := by
  have h1 := hc.1
  rw [h0] at h1
  have ho : m._dimensions.occupied = 0 := by omega
  have hs : m._dimensions.childSizes = 0 := by omega
  refine ⟨fun d => Dimensions.first_eq_none_of_occupied _ ho d, fun d => ?_⟩
  simp only [sub]
  cases hsec : m._dimensions.second d with
  | none => rfl
  | some ch => exact Dimensions.second_count_of_childSizes _ hs d ch hsec

theorem Counted_node (p : List Nat) :
    ∀ m : MultidimensionalMatrix V, m.Counted → (m.node p).Counted := by
  induction p with
  | nil => intro m h; exact h
  | cons i p ih => intro m h; exact ih _ (Counted_sub m i h)

end MultidimensionalMatrix

end tools

namespace Interpreter

variable {W : Type}

open tools

theorem mem_removeAll (rm : List (List Sym)) :
    ∀ (active : List (List Sym)) (q : List Sym),
      q ∈ removeAll active rm ↔ q ∈ active ∧ q ∉ rm := by
  induction rm with
  | nil => intro active q; simp [removeAll]
  | cons r rm ih =>
    intro active q
    have := ih (active.filter (fun x => decide (x ≠ r))) q
    simp only [removeAll, List.foldl_cons] at this ⊢
    rw [this]
    simp only [List.mem_filter, decide_eq_true_eq, List.mem_cons, not_or]
    tauto

/-- What the second loop leaves: a pointer on the list afterwards was on it before or
refers to a non-empty matrix; a pointer that was still to be visited and whose dimension
`c` is empty is on `to_remove`. -/
theorem advanceLoop_spec (c : Sym) (m0 : MultidimensionalMatrix (callback_type W))
    (fuel : Nat) :
    ∀ (root : MultidimensionalMatrix (callback_type W)) (pending active rm : List (List Sym))
      (r : MultidimensionalMatrix (callback_type W) × List (List Sym) × List (List Sym)),
      root.SameContent m0 →
      advanceLoop c fuel root pending active rm = some r →
      (∀ q ∈ r.2.1, q ∈ active ∨ 0 < (m0.node q)._count_of_values) ∧
      (∀ q, (q ∈ rm ∨ (q ∈ pending ∧ (m0.node (q ++ [c]))._count_of_values = 0)) →
        q ∈ r.2.2) := by
  induction fuel with
  | zero =>
    intro root pending active rm r _ h
    cases pending with
    | nil =>
      simp only [advanceLoop, Option.some.injEq] at h
      subst h
      exact ⟨fun q hq => Or.inl hq, fun q hq => by
        rcases hq with hq | ⟨hq, _⟩
        · exact hq
        · simp at hq⟩
    | cons p rest => simp [advanceLoop] at h
  | succ fuel ih =>
    intro root pending active rm r hm h
    cases pending with
    | nil =>
      simp only [advanceLoop, Option.some.injEq] at h
      subst h
      exact ⟨fun q hq => Or.inl hq, fun q hq => by
        rcases hq with hq | ⟨hq, _⟩
        · exact hq
        · simp at hq⟩
    | cons p rest =>
      have hsc := (MultidimensionalMatrix.sameContent_callAt c p root).same_trans hm
      have hsize : ((MultidimensionalMatrix.atPath (fun m => (m.call c, Signal.silent)) p
          root).1.node (p ++ [c])).size = (m0.node (p ++ [c]))._count_of_values :=
        (hsc (p ++ [c])).1
      simp only [advanceLoop, hsize] at h
      split at h
      · rename_i hpos
        obtain ⟨a, b⟩ := ih _ _ _ _ _ hsc h
        refine ⟨fun q hq => ?_, fun q hq => ?_⟩
        · rcases a q hq with hq | hq
          · rcases List.mem_append.1 hq with hq | hq
            · exact Or.inl hq
            · rw [List.mem_singleton.1 hq]; exact Or.inr hpos
          · exact Or.inr hq
        · apply b
          rcases hq with hq | ⟨hq, hz⟩
          · exact Or.inl hq
          · rcases List.mem_cons.1 hq with rfl | hq
            · omega
            · exact Or.inr ⟨List.mem_append_left _ hq, hz⟩
      · rename_i hpos
        obtain ⟨a, b⟩ := ih _ _ _ _ _ hsc h
        refine ⟨a, fun q hq => ?_⟩
        apply b
        rcases hq with hq | ⟨hq, hz⟩
        · exact Or.inl (List.mem_append_left _ hq)
        · rcases List.mem_cons.1 hq with rfl | hq
          · exact Or.inl (List.mem_append_right _ (List.mem_singleton_self _))
          · exact Or.inr ⟨hq, hz⟩

/-- A pointer to an empty matrix whose dimension `c` is empty is not on the list after
`_NotifySubscribersAndEraseIfNoMoreInDimension(c)`. -/
theorem notify_prunes (s t : Interpreter W) (c : Sym) (p : List Sym)
    (h : s._NotifySubscribersAndEraseIfNoMoreInDimension c = some t)
    (h0 : (s.closing_subscribers.node p)._count_of_values = 0)
    (h1 : (s.closing_subscribers.node (p ++ [c]))._count_of_values = 0) :
    p ∉ t.active_closing_subscribers := by
  obtain ⟨f1, _, _, f4⟩ := notifyLoop_frame c s.active_closing_subscribers s
  simp only [_NotifySubscribersAndEraseIfNoMoreInDimension] at h
  split at h
  · simp at h
  · rename_i root active rm hloop
    simp only [Option.some.injEq] at h
    subst h
    obtain ⟨a, b⟩ := advanceLoop_spec c s.closing_subscribers _ _ _ _ _ _ f4 hloop
    intro hp
    have hp2 := (mem_removeAll rm active p).1 hp
    rcases a p hp2.1 with hq | hq
    · exact hp2.2 (b p (Or.inr ⟨hq, h1⟩))
    · omega

/-- A pointer to an empty matrix whose dimension `c` is empty is not active after the
sequence block of `Interpret(c)`. -/
theorem matchSequences_prunes (s t : Interpreter W) (c : Sym) (flag : Bool) (p : List Sym)
    (h : s.matchSequences c = some (t, flag))
    (h0 : (s.closing_subscribers.node p)._count_of_values = 0)
    (h1 : (s.closing_subscribers.node (p ++ [c]))._count_of_values = 0) :
    p ∉ t.active_closing_subscribers := by
  have hs0 := MultidimensionalMatrix.sameContent_subscript s.closing_subscribers c
  have key : ∀ s1 : Interpreter W,
      s1.closing_subscribers.SameContent s.closing_subscribers →
      ∀ r : Interpreter W × Bool,
        (if s1.active_closing_subscribers.isEmpty then some (s1, false)
          else (s1._NotifySubscribersAndEraseIfNoMoreInDimension c).map (fun t => (t, true))) =
          some r →
        p ∉ r.1.active_closing_subscribers ∧
          r.1.closing_subscribers.SameContent s.closing_subscribers := by
    intro s1 hsc r hr
    by_cases he : s1.active_closing_subscribers.isEmpty = true
    · rw [if_pos he] at hr
      cases hr
      have : s1.active_closing_subscribers = [] := List.isEmpty_iff.1 he
      exact ⟨by rw [this]; simp, hsc⟩
    · rw [if_neg he] at hr
      cases hn : s1._NotifySubscribersAndEraseIfNoMoreInDimension c with
      | none => rw [hn] at hr; simp at hr
      | some t1 =>
        rw [hn] at hr
        simp only [Option.map_some', Option.some.injEq] at hr
        subst hr
        refine ⟨notify_prunes s1 t1 c p hn (by rw [(hsc p).1]; exact h0)
          (by rw [(hsc (p ++ [c])).1]; exact h1), ?_⟩
        obtain ⟨root, active, hn2, hsc2⟩ := notify_total s1 c
        rw [hn2] at hn
        cases hn
        exact hsc2.same_trans hsc
  simp only [matchSequences] at h
  split at h
  · simp at h
  · rename_i s2 flag2 hn
    obtain ⟨k1, k2⟩ := key _ (by split <;> exact hs0) (s2, flag2) hn
    have hsize : ((s2.closing_subscribers.call c).sub c).size =
        (s.closing_subscribers.node [c])._count_of_values := by
      rw [MultidimensionalMatrix.sub_call]
      exact (k2 [c]).1
    simp only [hsize] at h
    split at h
    · rename_i hpos
      simp only [Option.some.injEq, Prod.mk.injEq] at h
      obtain ⟨a, _⟩ := h
      subst a
      simp only [_SubscriberBeginningMeet, List.mem_append, List.mem_singleton, not_or]
      refine ⟨k1, ?_⟩
      intro e
      rw [e] at h0
      omega
    · simp only [Option.some.injEq, Prod.mk.injEq] at h
      obtain ⟨a, _⟩ := h
      subst a
      exact k1

end Interpreter

namespace tools

namespace MultidimensionalMatrix

variable {V : Type}

/-- Below a counted matrix with `size() = 0` every matrix has `size() = 0` and no value. -/
theorem barren_of_counted (q : List Nat) :
    ∀ m : MultidimensionalMatrix V, m.Counted → m._count_of_values = 0 →
      (m.node q)._count_of_values = 0 ∧ ∀ d : Nat, (m.node q)._dimensions.first d = none := by
  induction q with
  | nil => intro m hc h0; exact ⟨h0, (empty_of_counted m hc h0).1⟩
  | cons i q ih =>
    intro m hc h0
    exact ih (m.sub i) (Counted_sub m i hc) ((empty_of_counted m hc h0).2 i)

end MultidimensionalMatrix

end tools

namespace Interpreter

variable {W : Type}

open tools

/-- One `Interpret(c)` in a state where everything at and below the matrix `p` is empty:
it stays so, no pointer to it is active afterwards and no callback stored there is
called. -/
theorem Interpret_barren (s : Interpreter W) (c : Sym) (p : List Sym)
    (hb : ∀ q : List Sym, (s.closing_subscribers.node (p ++ q))._count_of_values = 0 ∧
      ∀ d : Sym, (s.closing_subscribers.node (p ++ q))._dimensions.first d = none) :
    ∃ (t : Interpreter W) (new : List Call),
      s.Interpret c = some t ∧ t.calls = s.calls ++ new ∧
      (∀ q : List Sym, (t.closing_subscribers.node (p ++ q))._count_of_values = 0 ∧
        ∀ d : Sym, (t.closing_subscribers.node (p ++ q))._dimensions.first d = none) ∧
      (∀ q : List Sym, p ++ q ∉ t.active_closing_subscribers) ∧
      (∀ (q : List Sym) (d : Sym), p ++ q ++ [d] ∉ sequenceSlots new) := by
  obtain ⟨t, new, h, h1, h2⟩ := Interpret_slots s c
  obtain ⟨t1, flag, _, g, _, _, _, _, gsame, _⟩ := matchSequences_total s c
  obtain ⟨f1, _, f3⟩ := interpretBrackets_frame t1 c flag
  have ht : t = interpretBrackets t1 c flag := by
    simp only [Interpret, g, Option.map_some', Option.some.injEq] at h
    exact h.symm
  refine ⟨t, new, h, h1, fun q => ?_, fun q => ?_, fun q d hm => ?_⟩
  · rw [ht, f1]
    exact ⟨by rw [(gsame (p ++ q)).1]; exact (hb q).1,
      fun d => by rw [(gsame (p ++ q)).2 d]; exact (hb q).2 d⟩
  · rw [ht, f3]
    refine matchSequences_prunes s t1 c flag (p ++ q) g (hb q).1 ?_
    rw [List.append_assoc]
    exact (hb (q ++ [c])).1
  · rw [h2] at hm
    obtain ⟨x, hx, hxe⟩ := List.mem_map.1 hm
    have hx2 := (List.mem_filter.1 hx).2
    have hxe2 : x ++ [c] = (p ++ q) ++ [d] := hxe
    have hinj := List.append_inj' hxe2 rfl
    simp only [completesAt, hinj.1, (hb q).2 c] at hx2
    simp at hx2

/-- Any number of `Interpret`s in a state where everything at and below the matrix `p` is
empty. -/
theorem feed_barren (p : List Sym) (text : List Sym) :
    ∀ s : Interpreter W,
      (∀ q : List Sym, (s.closing_subscribers.node (p ++ q))._count_of_values = 0 ∧
        ∀ d : Sym, (s.closing_subscribers.node (p ++ q))._dimensions.first d = none) →
      ∃ (t : Interpreter W) (new : List Call),
        s.feed text = some t ∧ t.calls = s.calls ++ new ∧
        (∀ q : List Sym, (t.closing_subscribers.node (p ++ q))._count_of_values = 0) ∧
        (text ≠ [] → ∀ q : List Sym, p ++ q ∉ t.active_closing_subscribers) ∧
        (∀ (q : List Sym) (d : Sym), p ++ q ++ [d] ∉ sequenceSlots new) := by
  induction text with
  | nil =>
    intro s hb
    exact ⟨s, [], rfl, (List.append_nil _).symm, fun q => (hb q).1, fun h => absurd rfl h,
      fun q d hm => by simp [sequenceSlots] at hm⟩
  | cons c cs ih =>
    intro s hb
    obtain ⟨t1, new1, h, h1, hb1, ha1, hs1⟩ := Interpret_barren s c p hb
    obtain ⟨t, new, g, g1, gb, ga, gs⟩ := ih t1 hb1
    refine ⟨t, new1 ++ new, by rw [feed_cons_some s t1 c cs h]; exact g,
      by rw [g1, h1, List.append_assoc], gb, fun _ q => ?_, fun q d hm => ?_⟩
    · cases cs with
      | nil =>
        simp only [feed, Option.some.injEq] at g
        rw [← g]
        exact ha1 q
      | cons c2 cs2 => exact ga (by simp) q
    · rw [sequenceSlots_append] at hm
      rcases List.mem_append.1 hm with hm | hm
      · exact hs1 q d hm
      · exact gs q d hm

end Interpreter

/-- C17 (pruning correctness).  Let the sequence matrix satisfy the count invariant and let
the matrix `N` at path `p` have `size() = 0`, so that no value is left at or below it.
Then for every non-empty run of `Interpret` calls (in particular for one `Interpret(c)`,
whatever `c` is, and also when the symbols once registered through `N` are fed again):
every call returns; afterwards neither `N` nor any matrix below it is on
`active_closing_subscribers`, also when a pointer to `N` was on the list before; no
sequence callback stored in `N` or below it is among the callbacks invoked; and `N` and
everything below it still have `size() = 0`. -/
theorem pruning_correctness {W : Type} (s : Interpreter W) (p : List Sym)
    (hc : s.closing_subscribers.Counted)
    (h0 : (s.closing_subscribers.node p).size = 0) :
    ∀ text : List Sym, text ≠ [] →
      ∃ (t : Interpreter W) (new : List Call),
        s.feed text = some t ∧ t.calls = s.calls ++ new ∧
        (∀ q : List Sym, p ++ q ∉ t.active_closing_subscribers) ∧
        (∀ (q : List Sym) (d : Sym), p ++ q ++ [d] ∉ sequenceSlots new) ∧
        (∀ q : List Sym, (t.closing_subscribers.node (p ++ q)).size = 0) := by
  intro text hne
  have hb : ∀ q : List Sym, (s.closing_subscribers.node (p ++ q))._count_of_values = 0 ∧
      ∀ d : Sym, (s.closing_subscribers.node (p ++ q))._dimensions.first d = none := by
    intro q
    rw [tools.MultidimensionalMatrix.node_append]
    exact tools.MultidimensionalMatrix.barren_of_counted q _
      (tools.MultidimensionalMatrix.Counted_node p _ hc) h0
  obtain ⟨t, new, h, h1, hb1, ha, hs⟩ := Interpreter.feed_barren p text s hb
  exact ⟨t, new, h, h1, ha hne, hs, hb1⟩

/-- C17 at a concrete input: `"ab"` and `"c"` were registered, `"ab"` was cleared, and the
pointer to the matrix behind `'a'` is still active; `'a'`, `'b'` are fed again. -/
theorem pruning_correctness_witness :
    clearedBranch.closing_subscribers.Counted ∧
    (clearedBranch.closing_subscribers.node [97]).size = 0 ∧
    clearedBranch.closing_subscribers.size = 1 ∧
    [97] ∈ clearedBranch.active_closing_subscribers ∧
    ([97, 98] : List Sym) ≠ [] ∧
    ∃ (t : Interpreter Unit) (new : List Call),
      clearedBranch.feed [97, 98] = some t ∧ t.calls = clearedBranch.calls ++ new ∧
      (∀ q : List Sym, [97] ++ q ∉ t.active_closing_subscribers) ∧
      (∀ (q : List Sym) (d : Sym), [97] ++ q ++ [d] ∉ sequenceSlots new) ∧
      (∀ q : List Sym, (t.closing_subscribers.node ([97] ++ q)).size = 0) :=
  ⟨tools.MultidimensionalMatrix.Counted_runAll _ _ tools.MultidimensionalMatrix.Counted_empty,
    by decide, by decide, by decide, by decide,
    pruning_correctness clearedBranch [97]
      (tools.MultidimensionalMatrix.Counted_runAll _ _
        tools.MultidimensionalMatrix.Counted_empty)
      (by decide) [97, 98] (by decide)⟩

/-- C14, evaluated at a failing input.  With only `"xyz"` subscribed on a fresh
`Interpreter`, after `'x'` the one active pointer is the matrix behind `'x'`.  After
`'x'`, `'y'` the matrix behind `"xy"` has `size() = 1`, yet it is not on the active list
and the pointer for `'x'` is still there in its old position: the second loop of
`_NotifySubscribersAndEraseIfNoMoreInDimension` removes a pointer only when its dimension
`c` is empty, and it visits the pointer it has just pushed in the same pass and removes
that one.  After `'x'`, `'q'` the pointer is gone. -/
theorem cursor_not_advanced :
    (((Interpreter.fresh ()).Subscribe [120, 121, 122] (fun v d => (v, d))).bind
        (fun s => (s.feed [120]).map (fun t => t.active_closing_subscribers))) =
      some [[120]] ∧
    (((Interpreter.fresh ()).Subscribe [120, 121, 122] (fun v d => (v, d))).bind
        (fun s => (s.feed [120, 121]).map (fun t =>
          (t.active_closing_subscribers, (t.closing_subscribers.node [120, 121]).size)))) =
      some ([[120]], 1) ∧
    (((Interpreter.fresh ()).Subscribe [120, 121, 122] (fun v d => (v, d))).bind
        (fun s => (s.feed [120, 113]).map (fun t => t.active_closing_subscribers))) =
      some [] :=
  ⟨by decide, by decide, by decide⟩

/-- C15, evaluated at a failing input.  With `"a"` and `"ab"` subscribed on a fresh
`Interpreter`, after `'a'` the active list holds the root and the matrix behind `'a'`.
The second `'a'` pushes the root again without looking whether it is on the list: the
list then holds the root twice, and the callback of `"a"` is called twice in that one
`Interpret`. -/
theorem duplicate_pointer_calls_twice :
    ((((Interpreter.fresh ()).Subscribe [97] (fun v d => (v, d))).bind
        (fun s => s.Subscribe [97, 98] (fun v d => (v, d)))).bind
        (fun s => (s.feed [97]).map (fun t => t.active_closing_subscribers))) =
      some [[], [97]] ∧
    ((((Interpreter.fresh ()).Subscribe [97] (fun v d => (v, d))).bind
        (fun s => s.Subscribe [97, 98] (fun v d => (v, d)))).bind
        (fun s => (s.feed [97, 97]).map (fun t => t.active_closing_subscribers))) =
      some [[], [], [97]] ∧
    ((((Interpreter.fresh ()).Subscribe [97] (fun v d => (v, d))).bind
        (fun s => s.Subscribe [97, 98] (fun v d => (v, d)))).bind
        (fun s => (s.feed [97]).bind (fun t => t.callsDuring [97]))) =
      some [Call.sequence [97] [] [], Call.sequence [97] [] []] :=
  ⟨by decide, by decide, by decide⟩

namespace tools

namespace MultidimensionalMatrix

variable {V : Type}

theorem terminal_snoc (m : MultidimensionalMatrix V) (p : List Nat) (c : Nat) :
    m.terminal (p ++ [c]) = (m.node p)._dimensions.first c := by
  simp only [terminal, List.getLast?_append, List.getLast?_singleton, List.dropLast_concat]
  rfl

end MultidimensionalMatrix

end tools

theorem runCalls_append {W : Type} (root : tools.MultidimensionalMatrix (callback_type W))
    (rules : List (Sym × (Sym × open_closed_callback_type W))) (a b : List Call)
    (wd : W × Buf) :
    runCalls root rules (a ++ b) wd = runCalls root rules b (runCalls root rules a wd) := by
  simp only [runCalls, List.foldl_append]

namespace Interpreter

variable {W : Type}

open tools

/-- The first loop applies the callbacks it logs: the outside state and the string after
it are what the logged callbacks make of them. -/
theorem notifyLoop_effects (c : Sym) (m0 : MultidimensionalMatrix (callback_type W))
    (rules : List (Sym × (Sym × open_closed_callback_type W))) (ps : List (List Sym)) :
    ∀ s : Interpreter W, s.closing_subscribers.SameContent m0 →
      ∃ new : List Call, (notifyLoop c ps s).calls = s.calls ++ new ∧
        ((notifyLoop c ps s).world, (notifyLoop c ps s).data) =
          runCalls m0 rules new (s.world, s.data) := by
  induction ps with
  | nil => intro s _; exact ⟨[], (List.append_nil _).symm, rfl⟩
  | cons p rest ih =>
    intro s hm
    have hsc := (MultidimensionalMatrix.sameContent_subscriptAt c p s.closing_subscribers).same_trans hm
    simp only [notifyLoop]
    cases hf : ((MultidimensionalMatrix.atPath (fun m => (m.subscript c, Signal.silent)) p
        s.closing_subscribers).1.node p)._dimensions.first c with
    | none =>
      obtain ⟨new, h1, h2⟩ := ih
        { s with closing_subscribers := (MultidimensionalMatrix.atPath
          (fun m => (m.subscript c, Signal.silent)) p s.closing_subscribers).1 } hsc
      exact ⟨new, h1, h2⟩
    | some f =>
      have hf0 : m0.terminal (p ++ [c]) = some f := by
        rw [MultidimensionalMatrix.terminal_snoc, ← (hsc p).2 c, hf]
      obtain ⟨new, h1, h2⟩ := ih
        (({ s with closing_subscribers := (MultidimensionalMatrix.atPath
          (fun m => (m.subscript c, Signal.silent)) p s.closing_subscribers).1 } :
          Interpreter W).callSequence (p ++ [c]) f) hsc
      refine ⟨Call.sequence (p ++ [c]) s.data (f s.world s.data).2 :: new, ?_, ?_⟩
      · rw [h1]
        simp only [callSequence, List.append_assoc, List.singleton_append]
      · rw [h2]
        simp only [runCalls, List.foldl_cons, Call.run, hf0, callSequence]

end Interpreter

namespace Interpreter

variable {W : Type}

open tools

theorem removeAll_eq_filter (rm : List (List Sym)) :
    ∀ active : List (List Sym),
      removeAll active rm = active.filter (fun q => decide (q ∉ rm)) := by
  induction rm with
  | nil => intro active; simp [removeAll]
  | cons r rm ih =>
    intro active
    have h := ih (active.filter (fun x => decide (x ≠ r)))
    simp only [removeAll, List.foldl_cons] at h ⊢
    rw [h, List.filter_filter]
    apply List.filter_congr
    intro q _
    simp only [List.mem_cons, not_or, Bool.decide_and, Bool.and_comm]

/-- The second loop, as a whole: `pushed` are the pointers it appends, one for every
visited pointer whose dimension `c` is not empty, where the visited pointers are the
pending ones followed by the pushed ones themselves; the visited pointers whose dimension
`c` is empty go to `to_remove`. -/
theorem advanceLoop_shape (c : Sym) (m0 : MultidimensionalMatrix (callback_type W))
    (fuel : Nat) :
    ∀ (root : MultidimensionalMatrix (callback_type W)) (pending active rm : List (List Sym))
      (r : MultidimensionalMatrix (callback_type W) × List (List Sym) × List (List Sym)),
      root.SameContent m0 →
      advanceLoop c fuel root pending active rm = some r →
      ∃ pushed : List (List Sym),
        r.2.1 = active ++ pushed ∧
        r.2.2 = rm ++ (pending ++ pushed).filter
          (fun q => !decide (0 < (m0.node (q ++ [c])).size)) ∧
        pushed = ((pending ++ pushed).filter
          (fun q => decide (0 < (m0.node (q ++ [c])).size))).map (fun q => q ++ [c]) := by
  induction fuel with
  | zero =>
    intro root pending active rm r _ h
    cases pending with
    | nil =>
      simp only [advanceLoop, Option.some.injEq] at h
      subst h
      exact ⟨[], by simp, by simp, by simp⟩
    | cons p rest => simp [advanceLoop] at h
  | succ fuel ih =>
    intro root pending active rm r hm h
    cases pending with
    | nil =>
      simp only [advanceLoop, Option.some.injEq] at h
      subst h
      exact ⟨[], by simp, by simp, by simp⟩
    | cons p rest =>
      have hsc := (MultidimensionalMatrix.sameContent_callAt c p root).same_trans hm
      have hsize : ((MultidimensionalMatrix.atPath (fun m => (m.call c, Signal.silent)) p
          root).1.node (p ++ [c])).size = (m0.node (p ++ [c])).size :=
        (hsc (p ++ [c])).1
      simp only [advanceLoop, hsize] at h
      split at h
      · rename_i hpos
        obtain ⟨pushed, a, b, d⟩ := ih _ _ _ _ _ hsc h
        have hlive : decide (0 < (m0.node (p ++ [c])).size) = true := decide_eq_true hpos
        refine ⟨(p ++ [c]) :: pushed, ?_, ?_, ?_⟩
        · rw [a]; simp
        · rw [b]
          simp [List.filter_cons, hlive]
        · simp only [List.cons_append, List.filter_cons, hlive, if_true, List.map_cons,
            List.cons.injEq, true_and]
          simp only [List.append_assoc, List.singleton_append] at d
          exact d
      · rename_i hpos
        obtain ⟨pushed, a, b, d⟩ := ih _ _ _ _ _ hsc h
        have hlive : decide (0 < (m0.node (p ++ [c])).size) = false := decide_eq_false hpos
        refine ⟨pushed, a, ?_, ?_⟩
        · rw [b]
          simp [List.filter_cons, hlive]
        · simp only [List.cons_append, List.filter_cons, hlive, Bool.false_eq_true, if_false]
          exact d

/-- The active list after `_NotifySubscribersAndEraseIfNoMoreInDimension(c)`: the pointers
that were on it and the pushed ones behind them, in that order, without those whose
dimension `c` is empty; the outside state, the string and the log are those the first
loop left. -/
theorem notify_shape (s t : Interpreter W) (c : Sym)
    (h : s._NotifySubscribersAndEraseIfNoMoreInDimension c = some t) :
    ∃ pushed : List (List Sym),
      pushed = ((s.active_closing_subscribers ++ pushed).filter
        (fun q => decide (0 < (s.closing_subscribers.node (q ++ [c])).size))).map
          (fun q => q ++ [c]) ∧
      t.active_closing_subscribers = (s.active_closing_subscribers ++ pushed).filter
        (fun q => decide (0 < (s.closing_subscribers.node (q ++ [c])).size)) ∧
      t.world = (notifyLoop c s.active_closing_subscribers s).world ∧
      t.data = (notifyLoop c s.active_closing_subscribers s).data ∧
      t.calls = (notifyLoop c s.active_closing_subscribers s).calls := by
  obtain ⟨f1, _, _, f4⟩ := notifyLoop_frame c s.active_closing_subscribers s
  simp only [_NotifySubscribersAndEraseIfNoMoreInDimension] at h
  split at h
  · simp at h
  · rename_i root active rm hloop
    simp only [Option.some.injEq] at h
    subst h
    obtain ⟨pushed, a, b, d⟩ := advanceLoop_shape c s.closing_subscribers _ _ _ _ _ _ f4 hloop
    rw [f1] at a b d
    refine ⟨pushed, d, ?_, rfl, rfl, rfl⟩
    show removeAll active rm = _
    have a2 : active = s.active_closing_subscribers ++ pushed := a
    have b2 : rm = (s.active_closing_subscribers ++ pushed).filter
        (fun q => !decide (0 < (s.closing_subscribers.node (q ++ [c])).size)) := by
      rw [← List.nil_append (List.filter _ _)]; exact b
    rw [removeAll_eq_filter, a2, b2]
    apply List.filter_congr
    intro q hq
    by_cases hl : 0 < (s.closing_subscribers.node (q ++ [c])).size
    · simp [hl]
    · simp only [hl, decide_False, decide_eq_false_iff_not, not_not, List.mem_filter,
        Bool.not_false, and_true]
      exact hq

end Interpreter

namespace Interpreter

variable {W : Type}

open tools

/-- The sequence block of `Interpret(c)`, as a whole: the callbacks it logs are applied,
one after the other, to the outside state and the string; the active list afterwards
holds the pointers notified and the pointers pushed behind them, in that order, without
those whose dimension `c` is empty, and at its end the root's dimension `c` when that is
not empty. -/
theorem matchSequences_shape (s : Interpreter W) (c : Sym)
    (rules : List (Sym × (Sym × open_closed_callback_type W))) :
    ∃ (t : Interpreter W) (flag : Bool) (new : List Call) (pushed : List (List Sym)),
      s.matchSequences c = some (t, flag) ∧ t.calls = s.calls ++ new ∧
      (t.world, t.data) = runCalls s.closing_subscribers rules new (s.world, s.data) ∧
      pushed = ((notifiedPointers s c ++ pushed).filter
        (fun q => decide (0 < (s.closing_subscribers.node (q ++ [c])).size))).map
          (fun q => q ++ [c]) ∧
      t.active_closing_subscribers = (notifiedPointers s c ++ pushed).filter
          (fun q => decide (0 < (s.closing_subscribers.node (q ++ [c])).size)) ++
        (if 0 < (s.closing_subscribers.sub c).size then [[c]] else []) := by
  obtain ⟨t, flag, new, h, h1, _⟩ := matchSequences_total s c
  have hs0 := MultidimensionalMatrix.sameContent_subscript s.closing_subscribers c
  have key : ∀ s1 : Interpreter W, s1.calls = s.calls → s1.world = s.world →
      s1.data = s.data →
      s1.closing_subscribers.SameContent s.closing_subscribers →
      s1.active_closing_subscribers = notifiedPointers s c →
      ∀ r : Interpreter W × Bool,
        (if s1.active_closing_subscribers.isEmpty then some (s1, false)
          else (s1._NotifySubscribersAndEraseIfNoMoreInDimension c).map (fun t => (t, true))) =
          some r →
        ∃ (new1 : List Call) (pushed : List (List Sym)),
          r.1.calls = s.calls ++ new1 ∧
          (r.1.world, r.1.data) =
            runCalls s.closing_subscribers rules new1 (s.world, s.data) ∧
          pushed = ((notifiedPointers s c ++ pushed).filter
            (fun q => decide (0 < (s.closing_subscribers.node (q ++ [c])).size))).map
              (fun q => q ++ [c]) ∧
          r.1.active_closing_subscribers = (notifiedPointers s c ++ pushed).filter
            (fun q => decide (0 < (s.closing_subscribers.node (q ++ [c])).size)) ∧
          r.1.closing_subscribers.SameContent s.closing_subscribers := by
    intro s1 hc hw hd hsc ha r hr
    by_cases he : s1.active_closing_subscribers.isEmpty = true
    · rw [if_pos he] at hr
      cases hr
      have hnil : notifiedPointers s c = [] := by rw [← ha]; exact List.isEmpty_iff.1 he
      refine ⟨[], [], by simp [hc], by simp [runCalls, hw, hd], by simp [hnil], ?_, hsc⟩
      show s1.active_closing_subscribers = _
      rw [ha, hnil]
      rfl
    · rw [if_neg he] at hr
      cases hn : s1._NotifySubscribersAndEraseIfNoMoreInDimension c with
      | none => rw [hn] at hr; simp at hr
      | some t1 =>
        rw [hn] at hr
        simp only [Option.map_some', Option.some.injEq] at hr
        subst hr
        obtain ⟨new1, g1, g2⟩ := notifyLoop_effects c s.closing_subscribers rules
          s1.active_closing_subscribers s1 hsc
        obtain ⟨pushed, p1, p2, p3, p4, p5⟩ := notify_shape s1 t1 c hn
        have hfun : (fun q : List Sym =>
            decide (0 < (s1.closing_subscribers.node (q ++ [c])).size)) =
            (fun q : List Sym => decide (0 < (s.closing_subscribers.node (q ++ [c])).size)) := by
          funext q
          have hq : (s1.closing_subscribers.node (q ++ [c])).size =
              (s.closing_subscribers.node (q ++ [c])).size := (hsc (q ++ [c])).1
          rw [hq]
        rw [hfun, ha] at p1 p2
        refine ⟨new1, pushed, ?_, ?_, p1, p2, ?_⟩
        · show t1.calls = _
          rw [p5, g1, hc]
        · show (t1.world, t1.data) = _
          rw [p3, p4, g2, hw, hd]
        · obtain ⟨root, active, hn2, hsc2⟩ := notify_total s1 c
          rw [hn2] at hn
          cases hn
          exact hsc2.same_trans hsc
  refine ⟨t, flag, new, ?_⟩
  have h0 := h
  simp only [matchSequences] at h
  split at h
  · simp at h
  · rename_i s2 flag2 hn
    obtain ⟨new1, pushed, k1, k2, k3, k4, k5⟩ := key _ (by split <;> rfl) (by split <;> rfl)
      (by split <;> rfl) (by split <;> exact hs0)
      (by
        simp only [notifiedPointers, MultidimensionalMatrix.IsEmpty,
          MultidimensionalMatrix.first_subscript]
        cases s.closing_subscribers._dimensions.first c with
        | none => simp
        | some f => simp [_SubscriberBeginningMeet]) (s2, flag2) hn
    have hsize : ((s2.closing_subscribers.call c).sub c).size =
        (s.closing_subscribers.sub c).size := by
      rw [MultidimensionalMatrix.sub_call]
      exact (k5 [c]).1
    simp only [hsize] at h
    refine ⟨pushed, h0, h1, ?_, k3, ?_⟩
    · split at h
      · simp only [Option.some.injEq, Prod.mk.injEq] at h
        obtain ⟨a, _⟩ := h
        subst a
        have hnew : new = new1 := by
          have e : s.calls ++ new = s.calls ++ new1 := by rw [← h1, ← k1]; rfl
          exact List.append_cancel_left e
        rw [hnew, ← k2]
        rfl
      · simp only [Option.some.injEq, Prod.mk.injEq] at h
        obtain ⟨a, _⟩ := h
        subst a
        have hnew : new = new1 := by
          have e : s.calls ++ new = s.calls ++ new1 := by rw [← h1, ← k1]
          exact List.append_cancel_left e
        rw [hnew, ← k2]
    · split at h
      · rename_i hpos
        simp only [Option.some.injEq, Prod.mk.injEq] at h
        obtain ⟨a, _⟩ := h
        subst a
        rw [if_pos hpos, ← k4]
        rfl
      · rename_i hpos
        simp only [Option.some.injEq, Prod.mk.injEq] at h
        obtain ⟨a, _⟩ := h
        subst a
        rw [if_neg hpos, List.append_nil, ← k4]

end Interpreter

namespace Interpreter

variable {W : Type}

open tools

theorem eraseNotified_cons_of_not_mem (inst : Sym × Sym) (K : List Sym) (h : inst.2 ∉ K) :
    ∀ rest : List (Sym × Sym),
      eraseNotified (inst :: rest) K = inst :: eraseNotified rest K := by
  induction K with
  | nil => intro rest; rfl
  | cons k K ih =>
    intro rest
    have hk : ¬ (inst.2 = k) := fun e => h (e ▸ List.mem_cons_self _ _)
    have hK : inst.2 ∉ K := fun e => h (List.mem_cons_of_mem _ e)
    have he : (inst :: rest).eraseP (fun i => decide (i.2 = k)) =
        inst :: rest.eraseP (fun i => decide (i.2 = k)) := by
      rw [List.eraseP_cons_of_neg]
      simpa using hk
    simp only [eraseNotified, List.foldl_cons] at ih ⊢
    rw [he]
    exact ih hK _

theorem eraseOldestOfEach_of_none (closes : Sym → Bool) (l : List (Sym × Sym)) :
    ∀ seen : List Sym, (∀ inst ∈ l, closes inst.2 = false) →
      eraseOldestOfEach closes seen l = l := by
  induction l with
  | nil => intro seen _; rfl
  | cons inst rest ih =>
    intro seen h
    have h0 := h inst (List.mem_cons_self _ _)
    simp only [eraseOldestOfEach, h0, Bool.false_eq_true, false_and, if_false]
    rw [ih seen (fun i hi => h i (List.mem_cons_of_mem _ hi))]

/-- The first loop of `_NotifyOpenClosedSubscribersAndEraseIfNoMoreInDimension`, with the
second loop that follows it: the callbacks logged are applied, one after the other, to the
outside state and the string; the erasures for the rules `K` notified take out the oldest
instance of every rule that closes with `c` and was not notified before. -/
theorem closeLoop_run (c : Sym) (root : MultidimensionalMatrix (callback_type W))
    (insts : List (Sym × Sym)) :
    ∀ (s : Interpreter W) (notified : List Sym), ∃ (K : List Sym) (new : List Call),
      (closeLoop c insts s notified).2 = notified ++ K ∧
      (∀ k ∈ K, closesWith s.open_closed_subscribers c k = true ∧ k ∉ notified) ∧
      (closeLoop c insts s notified).1.calls = s.calls ++ new ∧
      (new = [] ↔ K = []) ∧
      ((closeLoop c insts s notified).1.world, (closeLoop c insts s notified).1.data) =
        runCalls root s.open_closed_subscribers new (s.world, s.data) ∧
      eraseNotified insts K =
        eraseOldestOfEach (closesWith s.open_closed_subscribers c) notified insts := by
  induction insts with
  | nil =>
    intro s notified
    exact ⟨[], [], by simp [closeLoop], by simp, by simp [closeLoop], by simp, rfl, rfl⟩
  | cons inst rest ih =>
    intro s notified
    have skip : ¬ (closesWith s.open_closed_subscribers c inst.2 = true ∧ inst.2 ∉ notified) →
        ∃ (K : List Sym) (new : List Call),
          (closeLoop c rest s notified).2 = notified ++ K ∧
          (∀ k ∈ K, closesWith s.open_closed_subscribers c k = true ∧ k ∉ notified) ∧
          (closeLoop c rest s notified).1.calls = s.calls ++ new ∧
          (new = [] ↔ K = []) ∧
          ((closeLoop c rest s notified).1.world, (closeLoop c rest s notified).1.data) =
            runCalls root s.open_closed_subscribers new (s.world, s.data) ∧
          eraseNotified (inst :: rest) K =
            eraseOldestOfEach (closesWith s.open_closed_subscribers c) notified
              (inst :: rest) := by
      intro hno
      obtain ⟨K, new, h1, h2, h3, h4, h5, h6⟩ := ih s notified
      refine ⟨K, new, h1, h2, h3, h4, h5, ?_⟩
      have hK : inst.2 ∉ K := fun hk => hno (h2 _ hk)
      rw [eraseNotified_cons_of_not_mem inst K hK, h6]
      simp only [eraseOldestOfEach, if_neg hno]
    simp only [closeLoop]
    split
    · rename_i rule hrule
      have hcw := closesWith_of_lookup s.open_closed_subscribers c inst.2 rule hrule
      split
      · rename_i hc
        split
        · rename_i hmem
          exact skip (fun h => h.2 hmem)
        · rename_i hmem
          obtain ⟨K, new, h1, h2, h3, h4, h5, h6⟩ :=
            ih (s.callBracket inst.2 false rule.2) (notified ++ [inst.2])
          have hrules : (s.callBracket inst.2 false rule.2).open_closed_subscribers =
              s.open_closed_subscribers := rfl
          rw [hrules] at h2 h5 h6
          have hclose : closesWith s.open_closed_subscribers c inst.2 = true := by
            rw [hcw]; exact decide_eq_true hc
          refine ⟨inst.2 :: K,
            Call.bracket inst.2 false s.data (rule.2 s.world s.data false).2 :: new,
            by rw [h1]; simp, ?_, by rw [h3]; simp [callBracket], by simp, ?_, ?_⟩
          · intro k hk
            rcases List.mem_cons.1 hk with rfl | hk
            · exact ⟨hclose, hmem⟩
            · exact ⟨(h2 k hk).1, fun hn => (h2 k hk).2 (List.mem_append_left _ hn)⟩
          · rw [h5]
            simp only [runCalls, List.foldl_cons, Call.run, hrule, callBracket]
          · have he : eraseNotified (inst :: rest) (inst.2 :: K) = eraseNotified rest K := by
              simp only [eraseNotified, List.foldl_cons]
              rw [List.eraseP_cons_of_pos]
              simp
            rw [he, h6]
            simp only [eraseOldestOfEach, if_pos (And.intro hclose hmem)]
      · rename_i hc
        apply skip
        rintro ⟨hb, _⟩
        rw [hcw] at hb
        exact hc (of_decide_eq_true hb)
    · rename_i hrule
      apply skip
      rintro ⟨hb, _⟩
      simp [closesWith, hrule] at hb

end Interpreter

namespace Interpreter

variable {W : Type}

open tools

/-- The closing step of the bracket block (skipped when there is no rule): the callbacks
logged are applied to the outside state and the string, and the oldest instance of every
rule that closes with `c` is erased. -/
theorem closing_step_run (s : Interpreter W) (c : Sym)
    (root : MultidimensionalMatrix (callback_type W)) :
    ∃ new : List Call,
      (if s.open_closed_subscribers.isEmpty then (s, false)
        else s._NotifyOpenClosedSubscribersAndEraseIfNoMoreInDimension c).1.calls =
          s.calls ++ new ∧
      ((if s.open_closed_subscribers.isEmpty then (s, false)
          else s._NotifyOpenClosedSubscribersAndEraseIfNoMoreInDimension c).1.world,
        (if s.open_closed_subscribers.isEmpty then (s, false)
          else s._NotifyOpenClosedSubscribersAndEraseIfNoMoreInDimension c).1.data) =
        runCalls root s.open_closed_subscribers new (s.world, s.data) ∧
      (if s.open_closed_subscribers.isEmpty then (s, false)
        else s._NotifyOpenClosedSubscribersAndEraseIfNoMoreInDimension
          c).1.active_open_closed_subscribers =
        eraseOldestOfEach (closesWith s.open_closed_subscribers c) []
          s.active_open_closed_subscribers ∧
      (if s.open_closed_subscribers.isEmpty then (s, false)
        else s._NotifyOpenClosedSubscribersAndEraseIfNoMoreInDimension
          c).1.open_closed_subscribers = s.open_closed_subscribers ∧
      (if s.open_closed_subscribers.isEmpty then (s, false)
        else s._NotifyOpenClosedSubscribersAndEraseIfNoMoreInDimension
          c).1.active_closing_subscribers = s.active_closing_subscribers ∧
      (new ≠ [] →
        (if s.open_closed_subscribers.isEmpty then (s, false)
          else s._NotifyOpenClosedSubscribersAndEraseIfNoMoreInDimension c).2 = true) := by
  by_cases he : s.open_closed_subscribers.isEmpty = true
  · rw [if_pos he]
    have hnil : s.open_closed_subscribers = [] := List.isEmpty_iff.1 he
    refine ⟨[], by simp, rfl, ?_, rfl, rfl, fun h => absurd rfl h⟩
    rw [eraseOldestOfEach_of_none]
    intro inst _
    simp [closesWith, hnil]
  · rw [if_neg he]
    obtain ⟨K, new, h1, h2, h3, h4, h5, h6⟩ :=
      closeLoop_run c root s.active_open_closed_subscribers s []
    obtain ⟨_, _, _, _, _, _, g6, g7, g8, _⟩ :=
      closeLoop_calls c s.active_open_closed_subscribers s []
    rw [List.nil_append] at h1
    refine ⟨new, h3, h5, ?_, g7, g6, ?_⟩
    · simp only [_NotifyOpenClosedSubscribersAndEraseIfNoMoreInDimension, g8, h1]
      exact h6
    · intro hne
      have hK : K ≠ [] := fun e => hne (h4.2 e)
      simp only [_NotifyOpenClosedSubscribersAndEraseIfNoMoreInDimension, h1]
      cases K with
      | nil => exact absurd rfl hK
      | cons k K => rfl

/-- The bracket block and the end of `Interpret`: the callbacks logged are applied, one
after the other, to the outside state and the string; the oldest instance of every rule
that closes with `c` is erased, and one instance is pushed at the end of the list when
`c` is a registered opening symbol. -/
theorem interpretBrackets_run (s : Interpreter W) (c : Sym) (any_notified : Bool)
    (root : MultidimensionalMatrix (callback_type W)) :
    ∃ new : List Call,
      (interpretBrackets s c any_notified).calls = s.calls ++ new ∧
      (interpretBrackets s c any_notified).world =
        (runCalls root s.open_closed_subscribers new (s.world, s.data)).1 ∧
      (new ≠ [] → (interpretBrackets s c any_notified).data =
        (runCalls root s.open_closed_subscribers new (s.world, s.data)).2) ∧
      (interpretBrackets s c any_notified).active_open_closed_subscribers =
        eraseOldestOfEach (closesWith s.open_closed_subscribers c) []
            s.active_open_closed_subscribers ++
          (if (s.open_closed_subscribers.lookup c).isSome then [(c, c)] else []) := by
  obtain ⟨new, h1, h2, h3, h4, h5, h6⟩ := closing_step_run s c root
  simp only [interpretBrackets]
  generalize (if s.open_closed_subscribers.isEmpty then (s, false)
    else s._NotifyOpenClosedSubscribersAndEraseIfNoMoreInDimension c) = r at h1 h2 h3 h4 h5 h6
  have h2o := h2
  have h2 := Prod.mk.inj h2
  rw [h4]
  cases hl : s.open_closed_subscribers.lookup c with
  | some rule =>
    refine ⟨new ++ [Call.bracket c true r.1.data (rule.2 r.1.world r.1.data true).2],
      ?_, ?_, ?_, ?_⟩
    · simp only [_OpenClosedSubscriberOpeningMeet, callBracket, h1, List.append_assoc]
    · rw [runCalls_append, ← h2o]
      simp only [runCalls, List.foldl_cons, List.foldl_nil, Call.run, hl]
      rfl
    · intro _
      rw [runCalls_append, ← h2o]
      simp only [runCalls, List.foldl_cons, List.foldl_nil, Call.run, hl]
      rfl
    · simp only [_OpenClosedSubscriberOpeningMeet, callBracket, h3, Option.isSome_some,
        if_true]
  | none =>
    have hw : r.1.world = (runCalls root s.open_closed_subscribers new (s.world, s.data)).1 :=
      h2.1
    have hd : r.1.data = (runCalls root s.open_closed_subscribers new (s.world, s.data)).2 :=
      h2.2
    simp only [Option.isSome_none, Bool.false_eq_true, if_false, List.append_nil]
    by_cases hr : r.2 = true
    · rw [if_pos hr]
      exact ⟨new, h1, hw, fun _ => hd, h3⟩
    · rw [if_neg hr]
      have hnew : new = [] := by
        by_contra hne
        exact hr (h6 hne)
      split
      · exact ⟨new, h1, hw, fun _ => hd, h3⟩
      · exact ⟨new, h1, hw, fun hne => absurd hnew hne, h3⟩

end Interpreter

namespace Interpreter

variable {W : Type}

open tools

/-- One `Interpret(c)`, as a whole.  The callbacks logged are applied, in the order of the
log, to the outside state and the string, each to what the one before it left.  The list
of active pointers afterwards holds the pointers notified and the pointers pushed behind
them, in that order, without those whose dimension `c` is empty, and the root's dimension
`c` at its end when that is not empty.  From the list of open instances the oldest
instance of every rule that closes with `c` is erased, and an instance of the rule of `c`
is appended when `c` is a registered opening symbol. -/
theorem Interpret_run (s : Interpreter W) (c : Sym) :
    ∃ (t : Interpreter W) (new : List Call) (pushed : List (List Sym)),
      s.Interpret c = some t ∧ t.calls = s.calls ++ new ∧
      t.world = (runCalls s.closing_subscribers s.open_closed_subscribers new
        (s.world, s.data)).1 ∧
      (new ≠ [] → t.data = (runCalls s.closing_subscribers s.open_closed_subscribers new
        (s.world, s.data)).2) ∧
      pushed = ((notifiedPointers s c ++ pushed).filter
        (fun q => decide (0 < (s.closing_subscribers.node (q ++ [c])).size))).map
          (fun q => q ++ [c]) ∧
      t.active_closing_subscribers = (notifiedPointers s c ++ pushed).filter
          (fun q => decide (0 < (s.closing_subscribers.node (q ++ [c])).size)) ++
        (if 0 < (s.closing_subscribers.sub c).size then [[c]] else []) ∧
      t.active_open_closed_subscribers =
        eraseOldestOfEach (closesWith s.open_closed_subscribers c) []
            s.active_open_closed_subscribers ++
          (if (s.open_closed_subscribers.lookup c).isSome then [(c, c)] else []) := by
  obtain ⟨t1, flag, new1, pushed, m1, m2, m3, m4, m5⟩ :=
    matchSequences_shape s c s.open_closed_subscribers
  obtain ⟨t1b, flagb, new1b, n1, n2, _, n4, _, _, n7, n8⟩ := matchSequences_total s c
  rw [m1] at n1
  simp only [Option.some.injEq, Prod.mk.injEq] at n1
  obtain ⟨e1, e2⟩ := n1
  subst e1
  subst e2
  have hnew1 : new1b = new1 := by
    have e : s.calls ++ new1b = s.calls ++ new1 := by rw [← n2, ← m2]
    exact List.append_cancel_left e
  subst hnew1
  obtain ⟨new2, b1, b2, b3, b4⟩ := interpretBrackets_run t1 c flag s.closing_subscribers
  obtain ⟨new2b, g1, _, g3, _⟩ := interpretBrackets_calls t1 c flag
  have hnew2 : new2b = new2 := by
    have e : t1.calls ++ new2b = t1.calls ++ new2 := by rw [← g1, ← b1]
    exact List.append_cancel_left e
  subst hnew2
  obtain ⟨_, _, f3⟩ := interpretBrackets_frame t1 c flag
  rw [n7] at b2 b3 b4
  rw [n8] at b4
  rw [m3] at b2 b3
  refine ⟨interpretBrackets t1 c flag, new1b ++ new2b, pushed,
    by simp only [Interpret, m1, Option.map_some'], by rw [b1, m2, List.append_assoc],
    by rw [runCalls_append]; exact b2, ?_, m4, by rw [f3]; exact m5, b4⟩
  intro hne
  rw [runCalls_append]
  by_cases h2 : new2b = []
  · have h1 : new1b ≠ [] := by
      intro e
      exact hne (by rw [e, h2]; rfl)
    have hth := g3 (Or.inr (n4 h1))
    rw [h2] at hth ⊢
    simp only [Threads] at hth
    rw [hth, ← m3]
    rfl
  · exact b3 h2

end Interpreter

namespace Interpreter

variable {W : Type}

open tools

/-- Feeding the opening symbol `n` times: every feed pushes one instance and applies the
callback once, with `true`, to the outside state and the string. -/
theorem feed_openings_run (o cl : Sym) (cb : open_closed_callback_type W) (hne : cl ≠ o)
    (n : Nat) :
    ∀ (j : Nat) (s : Interpreter W),
      s.closing_subscribers.SameContent MultidimensionalMatrix.empty →
      s.active_closing_subscribers = [] →
      s.open_closed_subscribers = [(o, (cl, cb))] →
      s.active_open_closed_subscribers = List.replicate j (o, o) →
      ∃ t, s.feed (List.replicate n o) = some t ∧
        t.closing_subscribers.SameContent MultidimensionalMatrix.empty ∧
        t.active_closing_subscribers = [] ∧ t.open_closed_subscribers = [(o, (cl, cb))] ∧
        t.active_open_closed_subscribers = List.replicate (j + n) (o, o) ∧
        t.calls.map Call.bracketEvent =
          s.calls.map Call.bracketEvent ++ List.replicate n (some (o, true)) ∧
        (t.world, t.data) =
          Nat.iterate (fun wd : W × Buf => cb wd.1 wd.2 true) n (s.world, s.data) := by
  induction n with
  | zero =>
    intro j s hm ha hr hi
    exact ⟨s, rfl, hm, ha, hr, hi, by simp, rfl⟩
  | succ n ih =>
    intro j s hm ha hr hi
    obtain ⟨t1, a1, a2, a3, a4, a5, a6, a7, a8⟩ :=
      Interpret_bracket_open o cl cb j hne s hm ha hr hi
    obtain ⟨t2, b1, b2, b3, b4, b5, b6, b7⟩ := ih (j + 1) t1 a2 a3 a4 a5
    refine ⟨t2, ?_, b2, b3, b4, ?_, ?_, ?_⟩
    · rw [List.replicate_succ, feed_cons_some s t1 o _ a1, b1]
    · rw [b5]; congr 1; omega
    · rw [b6, a7, List.replicate_succ]
      simp [Call.bracketEvent]
    · rw [b7, a6, a8, Function.iterate_succ_apply]

/-- Feeding the closing symbol `k` times while at least `k` instances are open: every feed
erases one instance and applies the callback once, with `false`, to the outside state and
the string. -/
theorem feed_closings_run (o cl : Sym) (cb : open_closed_callback_type W) (hne : cl ≠ o)
    (k : Nat) :
    ∀ (j : Nat) (s : Interpreter W),
      s.closing_subscribers.SameContent MultidimensionalMatrix.empty →
      s.active_closing_subscribers = [] →
      s.open_closed_subscribers = [(o, (cl, cb))] →
      s.active_open_closed_subscribers = List.replicate (j + k) (o, o) →
      ∃ t, s.feed (List.replicate k cl) = some t ∧
        t.active_open_closed_subscribers = List.replicate j (o, o) ∧
        t.calls.map Call.bracketEvent =
          s.calls.map Call.bracketEvent ++ List.replicate k (some (o, false)) ∧
        (t.world, t.data) =
          Nat.iterate (fun wd : W × Buf => cb wd.1 wd.2 false) k (s.world, s.data) := by
  induction k with
  | zero =>
    intro j s _ _ _ hi
    exact ⟨s, rfl, hi, by simp, rfl⟩
  | succ k ih =>
    intro j s hm ha hr hi
    obtain ⟨t1, a1, a2, a3, a4, a5, a6, a7, a8⟩ :=
      Interpret_bracket_close o cl cb (j + k) hne s hm ha hr hi
    obtain ⟨t2, b1, b2, b3, b4⟩ := ih j t1 a2 a3 a4 a5
    refine ⟨t2, ?_, b2, ?_, ?_⟩
    · rw [List.replicate_succ, feed_cons_some s t1 cl _ a1, b1]
    · rw [b3, a7, List.replicate_succ]
      simp [Call.bracketEvent]
    · rw [b4, a6, a8, Function.iterate_succ_apply]

end Interpreter

/-- C7 (one-character match).  On a fresh `Interpreter` with only the one-symbol sequence
`[x]` subscribed, with a callback `f` that leaves the string untouched, feeding a text `u`
that does not contain `x` calls nothing: the log is empty, the outside state is still `w`
and `data = u`.  The following `Interpret(x)` calls `f` exactly once, with the string `u`:
the log holds that one call, the outside state is what `f` makes of `w` and `u`, and `x`
is not appended, `data` is still `u` afterwards. -/
theorem one_character_match {W : Type} (x : Sym) (u : Buf) (f : callback_type W) (w : W)
    (hu : x ∉ u) (hf : ∀ (v : W) (d : Buf), (f v d).2 = d) :
    ∃ s0 s1 s2 : Interpreter W,
      (Interpreter.fresh w).Subscribe [x] f = some s0 ∧
      s0.feed u = some s1 ∧ s1.calls = [] ∧ s1.data = u ∧ s1.world = w ∧
      s1.Interpret x = some s2 ∧ s2.calls = [Call.sequence [x] u u] ∧
      s2.world = (f w u).1 ∧ s2.data = u := by
  have hq : ∀ c ∈ u,
      (tools.MultidimensionalMatrix.assign x f
        (tools.MultidimensionalMatrix.empty :
          tools.MultidimensionalMatrix (callback_type W))).1._dimensions.first c = none ∧
      ((tools.MultidimensionalMatrix.assign x f
        (tools.MultidimensionalMatrix.empty :
          tools.MultidimensionalMatrix (callback_type W))).1.sub c)._count_of_values = 0 := by
    intro c hc
    have hne : x ≠ c := fun e => hu (e ▸ hc)
    rw [Interpreter.first_assign_empty, Interpreter.sub_assign_empty, if_neg hne]
    exact ⟨rfl, rfl⟩
  obtain ⟨s1, h1, h2, h3, h4, _, h6, h7, h8⟩ := Interpreter.feed_quiet _ u
    ({ Interpreter.fresh w with closing_subscribers :=
        (tools.MultidimensionalMatrix.assign x f tools.MultidimensionalMatrix.empty).1 } :
      Interpreter W)
    (tools.MultidimensionalMatrix.SameContent.same_refl _) rfl rfl hq
  obtain ⟨s2, g1, _, _, _, _, g6, g7, g8⟩ := Interpreter.Interpret_one_character _ s1 x f h2 h3 h4
    (by rw [Interpreter.first_assign_empty, if_pos rfl])
    (by rw [Interpreter.sub_assign_empty]; rfl)
  have hd : s1.data = u := by rw [h6]; rfl
  have hw : s1.world = w := by rw [h8]; rfl
  refine ⟨_, s1, s2, rfl, h1, by rw [h7]; rfl, hd, hw, g1, ?_, by rw [g8, hw, hd],
    by rw [g6, hf, hd]⟩
  rw [g7, h7, hf, hd]
  rfl

/-- C7 at a concrete input: sequence `"\n"` with a callback that counts its calls, text
`"a"`; the count is `0` before the `'\n'` and `1` after it. -/
theorem one_character_match_witness :
    (10 : Sym) ∉ ([97] : Buf) ∧
    ∃ s0 s1 s2 : Interpreter Nat,
      (Interpreter.fresh 0).Subscribe [10] countCall = some s0 ∧
      s0.feed [97] = some s1 ∧ s1.calls = [] ∧ s1.data = [97] ∧ s1.world = 0 ∧
      s1.Interpret 10 = some s2 ∧ s2.calls = [Call.sequence [10] [97] [97]] ∧
      s2.world = 1 ∧ s2.data = [97] :=
  ⟨by decide, one_character_match 10 [97] countCall 0 (by decide) (fun _ _ => rfl)⟩

/-- C5 (overlapping same-kind brackets).  With only the pair `(o, c, cb)`, `o ≠ c`,
subscribed on a fresh `Interpreter`, feeding `o` `n` times and then `c` `k ≤ n` times
returns; the calls made are exactly `n` calls of `cb` with `is_opening = true` followed
by `k` calls with `is_opening = false`; the outside state and the string are what `n`
applications of `cb` with `true` followed by `k` applications with `false` make of the
initial ones, each application working on what the one before it left; and `n - k`
instances are left open (none after the `n`-th closing).  As this holds for every `n` and
every `k ≤ n`, each opening feed pushes exactly one instance and calls `cb` once, and each
closing feed calls `cb` once and erases exactly one instance. -/
theorem overlapping_brackets {W : Type} (o c : Sym) (cb : open_closed_callback_type W)
    (w : W) (n k : Nat) (hne : o ≠ c) (hk : k ≤ n) :
    ∃ t : Interpreter W,
      ((Interpreter.fresh w).SubscribePair o c cb).feed
        (List.replicate n o ++ List.replicate k c) = some t ∧
      t.active_open_closed_subscribers = List.replicate (n - k) (o, o) ∧
      t.calls.map Call.bracketEvent =
        List.replicate n (some (o, true)) ++ List.replicate k (some (o, false)) ∧
      (t.world, t.data) =
        Nat.iterate (fun wd : W × Buf => cb wd.1 wd.2 false) k
          (Nat.iterate (fun wd : W × Buf => cb wd.1 wd.2 true) n (w, [])) := by
  obtain ⟨t1, a1, a2, a3, a4, a5, a6, a7⟩ :=
    Interpreter.feed_openings_run o c cb (Ne.symm hne) n 0
      ((Interpreter.fresh w).SubscribePair o c cb)
      (tools.MultidimensionalMatrix.SameContent.same_refl _) rfl rfl rfl
  have a5' : t1.active_open_closed_subscribers = List.replicate ((n - k) + k) (o, o) := by
    rw [a5]; congr 1; omega
  obtain ⟨t2, b1, b2, b3, b4⟩ := Interpreter.feed_closings_run o c cb (Ne.symm hne) k (n - k) t1
    a2 a3 a4 a5'
  refine ⟨t2, ?_, b2, ?_, ?_⟩
  · rw [Interpreter.feed_append, a1]; exact b1
  · rw [b3, a6]; rfl
  · rw [b4, a7]; rfl

/-- C5 at the spec's input `"{{}}"`, after the first `}`, with a callback that records the
string and the flag of every call: two calls with `true`, then one with `false`. -/
theorem overlapping_brackets_witness :
    (123 : Sym) ≠ 125 ∧ 1 ≤ 2 ∧
    ∃ t : Interpreter (List (Buf × Bool)),
      ((Interpreter.fresh []).SubscribePair 123 125 recordBracket).feed
        (List.replicate 2 123 ++ List.replicate 1 125) = some t ∧
      t.active_open_closed_subscribers = List.replicate (2 - 1) (123, 123) ∧
      t.calls.map Call.bracketEvent =
        List.replicate 2 (some (123, true)) ++ List.replicate 1 (some (123, false)) ∧
      (t.world, t.data) = ([([], true), ([], true), ([], false)], []) :=
  ⟨by decide, by decide,
    overlapping_brackets 123 125 recordBracket [] 2 1 (by decide) (by decide)⟩

/-- C11 (closing de-duplication).  In every state and for every symbol `c` and rule key
`r`, `Interpret(c)` returns and calls the callback of rule `r` with `is_opening = false`
exactly once when at least one open instance points to `r` and the closing symbol of `r`
is `c`, and not at all otherwise, however many instances of `r` are open.  The calls are
made: the outside state after `Interpret` (and the string, when there was a call) is what
the callbacks of the log, applied in the order of the log with the flag logged, make of
the outside state and the string before. -/
theorem closing_deduplication {W : Type} (s : Interpreter W) (c r : Sym) :
    ∃ (t : Interpreter W) (new : List Call),
      s.Interpret c = some t ∧ t.calls = s.calls ++ new ∧
      t.world = (runCalls s.closing_subscribers s.open_closed_subscribers new
        (s.world, s.data)).1 ∧
      (new ≠ [] → t.data = (runCalls s.closing_subscribers s.open_closed_subscribers new
        (s.world, s.data)).2) ∧
      bracketCalls r false new =
        if 0 < Interpreter.openCount s.active_open_closed_subscribers r ∧
            Interpreter.closesWith s.open_closed_subscribers c r = true then 1 else 0 := by
  obtain ⟨t, K, new, h1, h2, h3, h4, h5, _, _⟩ := Interpreter.Interpret_bracket_spec s c
  obtain ⟨t', new', _, r1, r2, r3, r4, _, _, _⟩ := Interpreter.Interpret_run s c
  rw [h1] at r1
  simp only [Option.some.injEq] at r1
  subst r1
  have hnew : new' = new := by
    have e : s.calls ++ new' = s.calls ++ new := by rw [← r2, ← h2]
    exact List.append_cancel_left e
  subst hnew
  refine ⟨t, new', h1, h2, r3, r4, ?_⟩
  rw [h5 r false, List.count_append, Interpreter.count_map_false_of_nodup K h3 r]
  have hz : (if (s.open_closed_subscribers.lookup c).isSome then [some (c, true)]
      else []).count (some (r, false)) = 0 := by
    split <;> simp
  rw [hz, Nat.add_zero]
  by_cases hk : r ∈ K
  · have := (h4 r).1 hk
    rw [if_pos hk, if_pos ⟨(Interpreter.openCount_pos_iff _ _).2 this.1, this.2⟩]
  · rw [if_neg hk, if_neg]
    rintro ⟨a, b⟩
    exact hk ((h4 r).2 ⟨(Interpreter.openCount_pos_iff _ _).1 a, b⟩)

/-- C12, amended.  The closing step `_NotifyOpenClosedSubscribersAndEraseIfNoMoreInDimension(c)`
erases, for every rule whose closing symbol is `c`, its oldest open instance (the first
one in the list, when it has one) and nothing else: the list afterwards is the list
before with the first instance of every such rule taken out.  So it is a sub-list of the
list before (same order), the number of instances of every rule `k` has dropped by one if
`k` closes with `c` and is unchanged otherwise, and the instances whose rule does not
close with `c` are all kept, in their original order. -/
theorem closing_step_erases_one_per_rule {W : Type} (s : Interpreter W) (c : Sym) :
    (s._NotifyOpenClosedSubscribersAndEraseIfNoMoreInDimension
        c).1.active_open_closed_subscribers =
      eraseOldestOfEach (Interpreter.closesWith s.open_closed_subscribers c) []
        s.active_open_closed_subscribers ∧
    ((s._NotifyOpenClosedSubscribersAndEraseIfNoMoreInDimension
        c).1.active_open_closed_subscribers).Sublist s.active_open_closed_subscribers ∧
    (∀ k : Sym,
      Interpreter.openCount
          (s._NotifyOpenClosedSubscribersAndEraseIfNoMoreInDimension
            c).1.active_open_closed_subscribers k =
        Interpreter.openCount s.active_open_closed_subscribers k -
          (if Interpreter.closesWith s.open_closed_subscribers c k = true then 1 else 0)) ∧
    ((s._NotifyOpenClosedSubscribersAndEraseIfNoMoreInDimension
        c).1.active_open_closed_subscribers).filter
        (fun inst => !Interpreter.closesWith s.open_closed_subscribers c inst.2) =
      s.active_open_closed_subscribers.filter
        (fun inst => !Interpreter.closesWith s.open_closed_subscribers c inst.2) := by
  obtain ⟨K, new, h1, h2, h3, _, _⟩ :=
    Interpreter.closeLoop_spec c s.active_open_closed_subscribers s []
  obtain ⟨K', _, k1, _, _, _, _, k6⟩ :=
    Interpreter.closeLoop_run c s.closing_subscribers s.active_open_closed_subscribers s []
  have hK : K' = K := by
    have e : ([] : List Sym) ++ K' = [] ++ K := by rw [← k1, ← h1]
    exact List.append_cancel_left e
  subst hK
  obtain ⟨_, _, _, _, _, _, _, _, g8, _⟩ :=
    Interpreter.closeLoop_calls c s.active_open_closed_subscribers s []
  have hact : (s._NotifyOpenClosedSubscribersAndEraseIfNoMoreInDimension
      c).1.active_open_closed_subscribers =
      Interpreter.eraseNotified s.active_open_closed_subscribers K' := by
    simp only [Interpreter._NotifyOpenClosedSubscribersAndEraseIfNoMoreInDimension, g8, h1,
      List.nil_append]
  rw [hact]
  refine ⟨k6, Interpreter.sublist_eraseNotified K' _, ?_, ?_⟩
  · intro k
    rw [Interpreter.openCount_eraseNotified K' h2]
    by_cases hk : k ∈ K'
    · rw [if_pos hk, if_pos ((h3 k).1 hk).2.2]
    · rw [if_neg hk]
      by_cases hc : Interpreter.closesWith s.open_closed_subscribers c k = true
      · rw [if_pos hc]
        have hz : Interpreter.openCount s.active_open_closed_subscribers k = 0 := by
          by_contra hpos
          have := (Interpreter.openCount_pos_iff _ _).1 (Nat.pos_of_ne_zero hpos)
          exact hk ((h3 k).2 ⟨by simp, this, hc⟩)
        rw [hz]
      · rw [if_neg hc]
  · apply Interpreter.filter_eraseNotified K'
      (fun r => !Interpreter.closesWith s.open_closed_subscribers c r)
    intro r hr
    simp [((h3 r).1 hr).2.2]

/-- C16 (firing order).  In every state, `Interpret(c)` returns and the sequence callbacks
it calls are exactly those of the pointers that hold a callback at `c`, taken in the order
of the list `active_closing_subscribers`, with the root last when `Interpret` pushes it
for a one-character match in this call; the order does not depend on the symbols of the
sequences.  The calls are made: the outside state (and the string, when there was a call)
is what the callbacks of the log, applied in the order of the log, make of the outside
state and the string before.  The order of the list is the order of insertion: after
`Interpret` the list holds first the pointers that were notified and whose dimension `c`
is not empty, in the order they had, then the pointers `pushed` in this call (one for
every pointer visited whose dimension `c` is not empty, the pushed pointers being visited
as well) that are not removed again, and last the root's dimension `c` when that is not
empty.  So pointers are only erased or appended at the end, never moved. -/
theorem firing_order {W : Type} (s : Interpreter W) (c : Sym) :
    ∃ (t : Interpreter W) (new : List Call) (pushed : List (List Sym)),
      s.Interpret c = some t ∧ t.calls = s.calls ++ new ∧
      sequenceSlots new =
        ((s.active_closing_subscribers ++
            (if (s.closing_subscribers._dimensions.first c).isSome then [[]] else [])).filter
          (fun p => ((s.closing_subscribers.node p)._dimensions.first c).isSome)).map
          (fun p => p ++ [c]) ∧
      t.world = (runCalls s.closing_subscribers s.open_closed_subscribers new
        (s.world, s.data)).1 ∧
      (new ≠ [] → t.data = (runCalls s.closing_subscribers s.open_closed_subscribers new
        (s.world, s.data)).2) ∧
      pushed = (((s.active_closing_subscribers ++
            (if (s.closing_subscribers._dimensions.first c).isSome then [[]] else [])) ++
          pushed).filter
          (fun q => decide (0 < (s.closing_subscribers.node (q ++ [c])).size))).map
            (fun q => q ++ [c]) ∧
      t.active_closing_subscribers =
        (s.active_closing_subscribers ++
            (if (s.closing_subscribers._dimensions.first c).isSome then [[]] else [])).filter
          (fun q => decide (0 < (s.closing_subscribers.node (q ++ [c])).size)) ++
        pushed.filter (fun q => decide (0 < (s.closing_subscribers.node (q ++ [c])).size)) ++
        (if 0 < (s.closing_subscribers.sub c).size then [[c]] else []) := by
  obtain ⟨t, new, h1, h2, h3⟩ := Interpreter.Interpret_slots s c
  obtain ⟨t', new', pushed, r1, r2, r3, r4, r5, r6, _⟩ := Interpreter.Interpret_run s c
  rw [h1] at r1
  simp only [Option.some.injEq] at r1
  subst r1
  have hnew : new' = new := by
    have e : s.calls ++ new' = s.calls ++ new := by rw [← r2, ← h2]
    exact List.append_cancel_left e
  subst hnew
  refine ⟨t, new', pushed, h1, h2, h3, r3, r4, r5, ?_⟩
  rw [r6, List.filter_append]
  rfl

/-- C18, amended.  When `c` is the opening symbol of a rule and also the closing symbol of
a different rule `k` that has an open instance, `Interpret(c)` returns, calls the callback
of `k` exactly once with `is_opening = false` and erases the oldest instance of `k`, and
then pushes a new instance of the rule of `c` and calls its callback exactly once with
`is_opening = true`, as the last call of the feed.  The calls are made: the outside state
and the string afterwards are what the callbacks of the log, applied in the order of the
log with the flag logged, make of the outside state and the string before.  The instance
is pushed: the list of open instances afterwards is the list before without the oldest
instance of every rule that closes with `c`, with the new instance `(c, c)` appended. -/
theorem closing_precedes_opening {W : Type} (s : Interpreter W) (c k : Sym)
    (hopener : (s.open_closed_subscribers.lookup c).isSome = true) (hne : k ≠ c)
    (hcloses : Interpreter.closesWith s.open_closed_subscribers c k = true)
    (hopen : 0 < Interpreter.openCount s.active_open_closed_subscribers k) :
    ∃ (t : Interpreter W) (new : List Call),
      s.Interpret c = some t ∧ t.calls = s.calls ++ new ∧
      bracketCalls k false new = 1 ∧ bracketCalls c true new = 1 ∧
      (new.map Call.bracketEvent).getLast? = some (some (c, true)) ∧
      (t.world, t.data) = runCalls s.closing_subscribers s.open_closed_subscribers new
        (s.world, s.data) ∧
      t.active_open_closed_subscribers =
        eraseOldestOfEach (Interpreter.closesWith s.open_closed_subscribers c) []
          s.active_open_closed_subscribers ++ [(c, c)] ∧
      Interpreter.openCount t.active_open_closed_subscribers k + 1 =
        Interpreter.openCount s.active_open_closed_subscribers k := by
  obtain ⟨t, K, new, h1, h2, h3, h4, h5, h6, h7⟩ := Interpreter.Interpret_bracket_spec s c
  obtain ⟨t', new', _, r1, r2, r3, r4, _, _, r7⟩ := Interpreter.Interpret_run s c
  rw [h1] at r1
  simp only [Option.some.injEq] at r1
  subst r1
  have hnew : new' = new := by
    have e : s.calls ++ new' = s.calls ++ new := by rw [← r2, ← h2]
    exact List.append_cancel_left e
  subst hnew
  have hK : k ∈ K := (h4 k).2 ⟨(Interpreter.openCount_pos_iff _ _).1 hopen, hcloses⟩
  rw [hopener] at h5 h6 h7 r7
  simp only [if_true] at h5 h6 h7 r7
  have hne0 : new' ≠ [] := by
    intro e
    rw [e] at h6
    simp at h6
  refine ⟨t, new', h1, h2, ?_, ?_, h6, Prod.ext r3 (r4 hne0), r7, ?_⟩
  · rw [h5 k false, List.count_append, Interpreter.count_map_false_of_nodup K h3 k, if_pos hK]
    simp
  · rw [h5 c true, List.count_append, Interpreter.count_map_false_true]
    simp
  · rw [h7]
    have hc : Interpreter.openCount [(c, c)] k = 0 := by
      simp [Interpreter.openCount, Ne.symm hne]
    have happ : ∀ a b : List (Sym × Sym),
        Interpreter.openCount (a ++ b) k =
          Interpreter.openCount a k + Interpreter.openCount b k := by
      intro a b; simp [Interpreter.openCount, List.countP_append]
    rw [happ, hc, Interpreter.openCount_eraseNotified K h3, if_pos hK]
    omega

/-- C18 (amended) at a concrete state: rules `('(', '{')` and `('{', '}')` with a callback
that records the string and the flag of every call, one instance of the first rule open,
`data = "x"`, character `'{'`. -/
theorem closing_precedes_opening_witness :
    ∃ (t : Interpreter (List (Buf × Bool))) (new : List Call),
      ({ Interpreter.fresh [] with
          data := [120],
          open_closed_subscribers := [(40, (123, recordBracket)), (123, (125, recordBracket))],
          active_open_closed_subscribers := [(40, 40)] } :
        Interpreter (List (Buf × Bool))).Interpret 123 = some t ∧
      t.calls = [] ++ new ∧
      bracketCalls 40 false new = 1 ∧ bracketCalls 123 true new = 1 ∧
      (new.map Call.bracketEvent).getLast? = some (some (123, true)) ∧
      (t.world, t.data) = runCalls tools.MultidimensionalMatrix.empty
        [(40, (123, recordBracket)), (123, (125, recordBracket))] new ([], [120]) ∧
      t.active_open_closed_subscribers =
        eraseOldestOfEach
          (Interpreter.closesWith [(40, (123, recordBracket)), (123, (125, recordBracket))] 123)
          [] [(40, 40)] ++ [(123, 123)] ∧
      Interpreter.openCount t.active_open_closed_subscribers 40 + 1 =
        Interpreter.openCount [(40, 40)] 40 :=
  closing_precedes_opening
    ({ Interpreter.fresh [] with
        data := [120],
        open_closed_subscribers := [(40, (123, recordBracket)), (123, (125, recordBracket))],
        active_open_closed_subscribers := [(40, 40)] } :
      Interpreter (List (Buf × Bool))) 123 40
    (by decide) (by decide) (by decide) (by decide)

/-- The state of the C18 example after `Interpret('{')`, evaluated: the callback of `'('`
has run first, with `"x"` and `false`, and the callback of `'{'` after it, with `true`;
the instance of `'('` is gone and an instance of `'{'` is open. -/
theorem closing_then_opening_recorded :
    (({ Interpreter.fresh [] with
          data := [120],
          open_closed_subscribers := [(40, (123, recordBracket)), (123, (125, recordBracket))],
          active_open_closed_subscribers := [(40, 40)] } :
        Interpreter (List (Buf × Bool))).Interpret 123).map
      (fun t => (t.world, t.data, t.active_open_closed_subscribers)) =
      some ([([120], false), ([], true)], [], [(123, 123)]) := by
  decide

/-- The order of firing, evaluated: `"ba"`, `"ca"`, `"a"` and `"bcx"` are subscribed with
callbacks that write `1`, `2`, `3` and `4` to the outside state.  After `'b'`, `'c'` the
active list holds the pointer for `"b"` and behind it the pointer for `"c"`; `Interpret('a')`
then calls the callback of `"ba"`, the callback of `"ca"` and the callback of `"a"`, in this
order. -/
theorem firing_order_recorded :
    ((((((Interpreter.fresh ([] : List Nat)).Subscribe [98, 97] (fun w d => (w ++ [1], d))).bind
        (fun s => s.Subscribe [99, 97] (fun w d => (w ++ [2], d)))).bind
        (fun s => s.Subscribe [97] (fun w d => (w ++ [3], d)))).bind
        (fun s => s.Subscribe [98, 99, 120] (fun w d => (w ++ [4], d)))).bind
        (fun s => (s.feed [98, 99]).bind (fun t =>
          (t.Interpret 97).map (fun u =>
            (t.active_closing_subscribers, sequenceSlots (u.calls.drop t.calls.length),
              u.world))))) =
      some ([[98], [99]], [[98, 97], [99, 97], [97]], [1, 2, 3]) := by
  decide

/-- The closing step, evaluated at `"([("` followed by `')'`, with the rules `('(', ')')`
and `('[', ']')`: the older of the two instances of `'('` is erased, the newer one stays
behind the instance of `'['`. -/
theorem oldest_instance_erased :
    ((((Interpreter.fresh ()).SubscribePair 40 41 (fun v d _ => (v, d))).SubscribePair 91 93
        (fun v d _ => (v, d))).feed [40, 91, 40]).map
      (fun s => (s.active_open_closed_subscribers,
        (s._NotifyOpenClosedSubscribersAndEraseIfNoMoreInDimension
          41).1.active_open_closed_subscribers)) =
      some ([(40, 40), (91, 91), (40, 40)], [(91, 91), (40, 40)]) := by
  decide


end PacketCommands
